import Mathlib

/-!
# Verification of the pa2 CPU-scheduling policy core

A shallow embedding of `src/pa2.c`: the resource-arbitration protocols
(FCFS, priority-aware, PCP, PIP) and the scheduling policies
(FIFO, SJF, SRTF, Round-Robin, Priority, Priority+Aging), together with a
model of the external driver loop that invokes them, and proofs of the
specification's claims about them.

The C globals (`current`, `readyqueue`, `resources[]`) become an explicit
`SimState` threaded through every operation.  Linked-list membership of a
process in a queue becomes membership of its pid in a `List Nat`.
-/

set_option autoImplicit false

namespace PA2

/-- Process status, from `process.h` (`PROCESS_READY`, `PROCESS_RUNNING`,
`PROCESS_WAIT`); the header is external to `src/`, but `pa2.c` manipulates
exactly these three states. -/
inductive PStatus where
  | ready
  | running
  | wait
deriving DecidableEq

/-- The schedulable unit (`struct process`): identity, status, executed
ticks (`age`), required ticks (`lifespan`), current effective priority
(`prio`) and the immutable creation-time priority (`prio_orig`). -/
structure Process where
  pid : Nat
  status : PStatus
  age : Nat
  lifespan : Nat
  prio : Nat
  prio_orig : Nat
deriving DecidableEq

/-- A shared resource (`struct resource`): optional owner and the ordered
wait set (`waitqueue`), holding pids. -/
structure Resource where
  owner : Option Nat
  waitqueue : List Nat
deriving DecidableEq

/-- The global simulation state of `pa2.c`: the process arena, the
`current` pointer, the `readyqueue`, and the resource table. -/
structure SimState where
  procs : List Process
  current : Option Nat
  readyqueue : List Nat
  resources : List Resource
deriving DecidableEq

/-- Look up the process record with the given pid (pointer dereference in
the C code; pids are unique in any real state). -/
def getProc : List Process → Nat → Option Process
  | [], _ => none
  | p :: ps, c => if p.pid = c then some p else getProc ps c

/-- Update every record carrying the given pid (writing through a process
pointer in the C code). -/
def updProc : List Process → Nat → (Process → Process) → List Process
  | [], _, _ => []
  | p :: ps, c, f => (if p.pid = c then f p else p) :: updProc ps c f

/-- Current effective priority of pid `x` in an arena (`p->prio`). -/
def prioIn (procs : List Process) (x : Nat) : Nat :=
  match getProc procs x with
  | some p => p.prio
  | none => 0

/-- Current effective priority of pid `x` in a state. -/
def prioOf (s : SimState) (x : Nat) : Nat := prioIn s.procs x

/-- Status of pid `x` in a state, when its record exists. -/
def statusOf (s : SimState) (x : Nat) : Option PStatus :=
  (getProc s.procs x).map (·.status)

/-- Total number of occurrences of pid `x` across the ready queue and all
resource wait sets. -/
def queueCount (s : SimState) (x : Nat) : Nat :=
  s.readyqueue.count x + (s.resources.map (fun r => r.waitqueue.count x)).sum

/-! ## Resource protocols (`pa2.c` lines 66–138, 360–381, 483–513, 531–569)

Each function totalizes the C code: branches that the C code reaches only
through a violated caller contract (no `current`, out-of-range resource id,
release by a non-owner — all `assert`/undefined behaviour in C) leave the
state unchanged; the `Step` relation below only ever invokes the functions
inside the contract. -/

/-- `fcfs_acquire` (lines 66–90): take a free resource, otherwise set the
caller to `PROCESS_WAIT` and append it to the tail of the wait queue. -/
def fcfs_acquire (rid : Nat) (s : SimState) : Bool × SimState :=
  match s.current, s.resources.get? rid with
  | some c, some r =>
    if r.owner = none then
      (true, { s with resources := s.resources.set rid { r with owner := some c } })
    else
      (false, { s with
        procs := updProc s.procs c (fun p => { p with status := .wait }),
        resources := s.resources.set rid { r with waitqueue := r.waitqueue ++ [c] } })
  | _, _ => (false, s)

/-- `fcfs_release` (lines 101–138): clear ownership; if the wait queue is
non-empty, remove its head, mark it `PROCESS_READY` and append it to the
tail of the ready queue. -/
def fcfs_release (rid : Nat) (s : SimState) : SimState :=
  match s.resources.get? rid with
  | some r =>
    match r.waitqueue with
    | [] => { s with resources := s.resources.set rid { r with owner := none } }
    | w :: rest =>
      { s with
        procs := updProc s.procs w (fun p => { p with status := .ready }),
        readyqueue := s.readyqueue ++ [w],
        resources := s.resources.set rid { owner := none, waitqueue := rest } }
  | none => s

/-- The left-to-right champion scan shared by every `list_for_each_entry_safe`
selection loop in `pa2.c`: starting from `init`, replace the champion by the
scanned element exactly when the element's key is strictly larger. -/
def champion (key : Nat → Nat) (init : Nat) (l : List Nat) : Nat :=
  l.foldl (fun nxt cur => if key nxt < key cur then cur else nxt) init

/-- The dual scan selecting a strictly smaller key (`sjf`/`srtf` loops). -/
def championMin (key : Nat → Nat) (init : Nat) (l : List Nat) : Nat :=
  l.foldl (fun nxt cur => if key cur < key nxt then cur else nxt) init

/-- `prio_release` (lines 360–381): clear ownership; wake the waiter with
the largest `prio` found by a left-to-right scan starting from the head
(strict comparison, so the first-encountered maximum wins). -/
def prio_release (rid : Nat) (s : SimState) : SimState :=
  match s.resources.get? rid with
  | some r =>
    match r.waitqueue with
    | [] => { s with resources := s.resources.set rid { r with owner := none } }
    | hd :: _ =>
      let w := champion (prioIn s.procs) hd r.waitqueue
      { s with
        procs := updProc s.procs w (fun p => { p with status := .ready }),
        readyqueue := s.readyqueue ++ [w],
        resources := s.resources.set rid { owner := none, waitqueue := r.waitqueue.erase w } }
  | none => s

/-- `pcp_acquire` (lines 483–495): on a free resource, raise the caller's
`prio` to `MAX_PRIO` (passed here as `maxPrio`; the constant lives in a
header outside `src/`) and take ownership; otherwise block FIFO-style. -/
def pcp_acquire (maxPrio : Nat) (rid : Nat) (s : SimState) : Bool × SimState :=
  match s.current, s.resources.get? rid with
  | some c, some r =>
    if r.owner = none then
      (true, { s with
        procs := updProc s.procs c (fun p => { p with prio := maxPrio }),
        resources := s.resources.set rid { r with owner := some c } })
    else
      (false, { s with
        procs := updProc s.procs c (fun p => { p with status := .wait }),
        resources := s.resources.set rid { r with waitqueue := r.waitqueue ++ [c] } })
  | _, _ => (false, s)

/-- `pcp_release` (lines 497–513): restore the caller's `prio` to
`prio_orig`, clear ownership, and wake the FIFO head of the wait queue. -/
def pcp_release (rid : Nat) (s : SimState) : SimState :=
  match s.current, s.resources.get? rid with
  | some c, some r =>
    let procs1 := updProc s.procs c (fun p => { p with prio := p.prio_orig })
    match r.waitqueue with
    | [] => { s with procs := procs1, resources := s.resources.set rid { r with owner := none } }
    | w :: rest =>
      { s with
        procs := updProc procs1 w (fun p => { p with status := .ready }),
        readyqueue := s.readyqueue ++ [w],
        resources := s.resources.set rid { owner := none, waitqueue := rest } }
  | _, _ => s

/-- `pip_acquire` (lines 531–543): take a free resource with no priority
change; on an occupied one, overwrite the owner's `prio` with the caller's
`prio` (direct, single-level inheritance) and block FIFO-style. -/
def pip_acquire (rid : Nat) (s : SimState) : Bool × SimState :=
  match s.current, s.resources.get? rid with
  | some c, some r =>
    match r.owner with
    | none => (true, { s with resources := s.resources.set rid { r with owner := some c } })
    | some o =>
      (false, { s with
        procs := updProc (updProc s.procs o (fun p => { p with prio := prioIn s.procs c }))
                   c (fun p => { p with status := .wait }),
        resources := s.resources.set rid { r with waitqueue := r.waitqueue ++ [c] } })
  | _, _ => (false, s)

/-- `pip_release` (lines 545–569): restore the owner's `prio` to the
caller's `prio_orig` (caller = owner by the `assert`), clear ownership, and
wake the highest-`prio` waiter found by the first-maximum scan. -/
def pip_release (rid : Nat) (s : SimState) : SimState :=
  match s.current, s.resources.get? rid with
  | some c, some r =>
    match r.owner with
    | none => s
    | some o =>
      let origc :=
        match getProc s.procs c with
        | some p => p.prio_orig
        | none => 0
      let procs1 := updProc s.procs o (fun p => { p with prio := origc })
      match r.waitqueue with
      | [] => { s with procs := procs1, resources := s.resources.set rid { r with owner := none } }
      | hd :: _ =>
        let w := champion (prioIn procs1) hd r.waitqueue
        { s with
          procs := updProc procs1 w (fun p => { p with status := .ready }),
          readyqueue := s.readyqueue ++ [w],
          resources := s.resources.set rid { owner := none, waitqueue := r.waitqueue.erase w } }
  | _, _ => s

/-! ## Scheduling policies (`pa2.c` lines 154–199, 215–251, 267–302, 319–344, 383–413, 431–463)

Every policy shares the guard `!current || current->status == PROCESS_WAIT`
and the continuation test `current->age < current->lifespan`. -/

/-- The shared guard-and-continuation test: there is a current process, it
is not blocked, and it has remaining lifespan. -/
def keepsRunning (s : SimState) : Prop :=
  ∃ c p, s.current = some c ∧ getProc s.procs c = some p ∧
    p.status ≠ .wait ∧ p.age < p.lifespan

instance (s : SimState) : Decidable (keepsRunning s) :=
  match hc : s.current with
  | none => .isFalse (fun ⟨_, _, h, _, _, _⟩ => by rw [hc] at h; cases h)
  | some c =>
    match hp : getProc s.procs c with
    | none => .isFalse (fun ⟨_, _, h1, h2, _, _⟩ => by
        rw [hc] at h1; cases h1; rw [hp] at h2; cases h2)
    | some p =>
      if h : p.status ≠ .wait ∧ p.age < p.lifespan then
        .isTrue ⟨c, p, hc, hp, h.1, h.2⟩
      else
        .isFalse (fun ⟨_, _, h1, h2, h3, h4⟩ => by
          rw [hc] at h1; cases h1; rw [hp] at h2; cases h2; exact h ⟨h3, h4⟩)

/-- The preemptive policies' continuation: requeue the unfinished current
process at the tail of the ready queue (`list_add_tail(&current->list,
&readyqueue)` in `srtf`/`rr`/`prio` schedule). -/
def requeueCurrent (s : SimState) : SimState :=
  match s.current with
  | some c =>
    match getProc s.procs c with
    | some p =>
      if p.status ≠ .wait ∧ p.age < p.lifespan then
        { s with readyqueue := s.readyqueue ++ [c] }
      else s
    | none => s
  | none => s

/-- `fifo_schedule` (lines 154–199): keep an unfinished current process,
otherwise take the head of the ready queue. -/
def fifo_schedule (s : SimState) : Option Nat × SimState :=
  if keepsRunning s then (s.current, s)
  else
    match s.readyqueue with
    | [] => (none, s)
    | n :: rest => (some n, { s with readyqueue := rest })

/-- Initial lifespan of pid `x` (`p->lifespan`), the SJF key. -/
def lifespanOf (s : SimState) (x : Nat) : Nat :=
  match getProc s.procs x with
  | some p => p.lifespan
  | none => 0

/-- Remaining lifespan of pid `x` (`p->lifespan - p->age`), the SRTF key. -/
def remainingOf (s : SimState) (x : Nat) : Nat :=
  match getProc s.procs x with
  | some p => p.lifespan - p.age
  | none => 0

/-- `sjf_schedule` (lines 215–251): keep an unfinished current process,
otherwise scan the ready queue for the smallest `lifespan` (strict
comparison, first minimum wins) and detach it. -/
def sjf_schedule (s : SimState) : Option Nat × SimState :=
  if keepsRunning s then (s.current, s)
  else
    match s.readyqueue with
    | [] => (none, s)
    | hd :: _ =>
      let n := championMin (lifespanOf s) hd s.readyqueue
      (some n, { s with readyqueue := s.readyqueue.erase n })

/-- `srtf_schedule` (lines 267–302): requeue an unfinished current process
at the tail, then scan for the smallest remaining time and detach it. -/
def srtf_schedule (s : SimState) : Option Nat × SimState :=
  let s1 := requeueCurrent s
  match s1.readyqueue with
  | [] => (none, s1)
  | hd :: _ =>
    let n := championMin (remainingOf s1) hd s1.readyqueue
    (some n, { s1 with readyqueue := s1.readyqueue.erase n })

/-- `rr_schedule` (lines 319–344): requeue an unfinished current process at
the tail, then take the head of the ready queue. -/
def rr_schedule (s : SimState) : Option Nat × SimState :=
  let s1 := requeueCurrent s
  match s1.readyqueue with
  | [] => (none, s1)
  | n :: rest => (some n, { s1 with readyqueue := rest })

/-- `prio_schedule` (lines 383–413): requeue an unfinished current process
at the tail, then scan for the largest `prio` (first maximum wins) and
detach it. -/
def prio_schedule (s : SimState) : Option Nat × SimState :=
  let s1 := requeueCurrent s
  match s1.readyqueue with
  | [] => (none, s1)
  | hd :: _ =>
    let n := champion (prioOf s1) hd s1.readyqueue
    (some n, { s1 with readyqueue := s1.readyqueue.erase n })

/-- `pa_schedule`'s continuation (lines 442–445): requeue the unfinished
current process at the tail and reset its `prio` to `prio_orig`. -/
def pa_requeue (s : SimState) : SimState :=
  match s.current with
  | some c =>
    match getProc s.procs c with
    | some p =>
      if p.status ≠ .wait ∧ p.age < p.lifespan then
        { s with
          readyqueue := s.readyqueue ++ [c],
          procs := updProc s.procs c (fun q => { q with prio := q.prio_orig }) }
      else s
    | none => s
  | none => s

/-- `pa_schedule`'s selection loop (lines 448–459): walk the ready queue
left to right, increment each scanned process's `prio`, and keep the
champion under the strict comparison `next->prio < cur->prio`, reading the
priorities as mutated so far. -/
def paScanGo (procs : List Process) (next : Nat) : List Nat → List Process × Nat
  | [] => (procs, next)
  | c :: rest =>
    let procs1 := updProc procs c (fun p => { p with prio := p.prio + 1 })
    let next1 := if prioIn procs1 next < prioIn procs1 c then c else next
    paScanGo procs1 next1 rest

/-- `pa_schedule` (lines 431–463): requeue-and-reset, then the aging scan,
then detach the selected process. -/
def pa_schedule (s : SimState) : Option Nat × SimState :=
  let s1 := pa_requeue s
  match s1.readyqueue with
  | [] => (none, s1)
  | hd :: _ =>
    let r := paScanGo s1.procs hd s1.readyqueue
    (some r.2, { s1 with procs := r.1, readyqueue := s1.readyqueue.erase r.2 })

/-! ## Scheduler catalog (`struct scheduler` instances) -/

/-- A scheduler variant: the `struct scheduler` bundle of `pa2.c`, without
the trivial lifecycle hooks. -/
structure Scheduler where
  name : String
  acquire : Nat → SimState → Bool × SimState
  release : Nat → SimState → SimState
  schedule : SimState → Option Nat × SimState

/-- `fifo_scheduler` (lines 201–208). -/
def fifo_scheduler : Scheduler :=
  { name := "FIFO", acquire := fcfs_acquire, release := fcfs_release,
    schedule := fifo_schedule }

/-- `sjf_scheduler` (lines 253–260). -/
def sjf_scheduler : Scheduler :=
  { name := "Shortest-Job First", acquire := fcfs_acquire, release := fcfs_release,
    schedule := sjf_schedule }

/-- `srtf_scheduler` (lines 304–312). -/
def srtf_scheduler : Scheduler :=
  { name := "Shortest Remaining Time First", acquire := fcfs_acquire,
    release := fcfs_release, schedule := srtf_schedule }

/-- `rr_scheduler` (lines 347–353). -/
def rr_scheduler : Scheduler :=
  { name := "Round-Robin", acquire := fcfs_acquire, release := fcfs_release,
    schedule := rr_schedule }

/-- `prio_scheduler` (lines 415–425). -/
def prio_scheduler : Scheduler :=
  { name := "Priority", acquire := fcfs_acquire, release := prio_release,
    schedule := prio_schedule }

/-- `pa_scheduler` (lines 466–476): note the C file wires `fcfs_release`,
not `prio_release`, into this variant. -/
def pa_scheduler : Scheduler :=
  { name := "Priority + aging", acquire := fcfs_acquire, release := fcfs_release,
    schedule := pa_schedule }

/-- `pcp_scheduler` (lines 515–524), parameterized by `MAX_PRIO`. -/
def pcp_scheduler (maxPrio : Nat) : Scheduler :=
  { name := "Priority + PCP Protocol", acquire := pcp_acquire maxPrio,
    release := pcp_release, schedule := prio_schedule }

/-- `pip_scheduler` (lines 572–580). -/
def pip_scheduler : Scheduler :=
  { name := "Priority + PIP Protocol", acquire := pip_acquire,
    release := pip_release, schedule := prio_schedule }

/-! ## The external driver, modelled from the spec

`pa2.c` only implements the callbacks; the tick loop that designates the
`current` process, flips statuses between READY and RUNNING, advances
`age`, and creates/destroys process records is external plumbing that the
spec describes only at the boundary (spec §2, §3, §6): the driver holds one
current slot, calls `schedule()` once per tick, a process is RUNNING iff it
is the current process, `age` advances exactly once per tick while RUNNING,
and records are created READY / destroyed on completion by the driver. -/

/-- Remove the record with the given pid (the driver destroying a process
that reached `age == lifespan`). -/
def removeProc (s : SimState) (c : Nat) : SimState :=
  { s with procs := s.procs.filter (fun p => p.pid ≠ c) }

/-- Overwrite the status of pid `x`. -/
def setStatus (s : SimState) (x : Nat) (st : PStatus) : SimState :=
  { s with procs := updProc s.procs x (fun p => { p with status := st }) }

/-- Modelled from the spec: after the policy call, the driver disposes of
the outgoing current process — kept as is when it was rescheduled, marked
READY when it was requeued with remaining lifespan, destroyed when
complete, and left untouched when it blocked on a resource. -/
def handleOld (next : Option Nat) (oldCur : Option Nat) (s1 : SimState) : SimState :=
  match oldCur with
  | none => s1
  | some c =>
    match getProc s1.procs c with
    | none => s1
    | some p =>
      if p.status = .running then
        if next = some c then s1
        else if p.age < p.lifespan then setStatus s1 c .ready
        else removeProc s1 c
      else s1

/-- Modelled from the spec: the driver installs the process returned by the
policy as the current process and marks it RUNNING (a process is RUNNING
iff it is the designated current process). -/
def setCurrent (next : Option Nat) (s : SimState) : SimState :=
  match next with
  | none => { s with current := none }
  | some n => { setStatus s n .running with current := some n }

/-- Modelled from the spec: one driver invocation of `schedule()`. -/
def driverSchedule (policy : SimState → Option Nat × SimState) (s : SimState) : SimState :=
  let r := policy s
  setCurrent r.1 (handleOld r.1 s.current r.2)

/-- Modelled from the spec: the driver advances the running process's `age`
by exactly one per tick. -/
def driverTick (s : SimState) : SimState :=
  match s.current with
  | none => s
  | some c => { s with procs := updProc s.procs c (fun p => { p with age := p.age + 1 }) }

/-- One transition of the simulation under a given scheduler variant: a
driver action (process creation, a tick of CPU time, a `schedule()` call)
or a resource call by the running process, each guarded by the caller
contract the spec states for it. -/
inductive Step (sched : Scheduler) : SimState → SimState → Prop where
  | spawn (s : SimState) (p : Process) :
      p.status = .ready →
      (∀ q ∈ s.procs, q.pid ≠ p.pid) →
      queueCount s p.pid = 0 →
      (∀ r ∈ s.resources, r.owner ≠ some p.pid) →
      s.current ≠ some p.pid →
      Step sched s { s with procs := s.procs ++ [p], readyqueue := s.readyqueue ++ [p.pid] }
  | tick (s : SimState) (c : Nat) (p : Process) :
      s.current = some c → getProc s.procs c = some p → p.status = .running →
      p.age < p.lifespan →
      Step sched s (driverTick s)
  | acquire (s : SimState) (rid c : Nat) (p : Process) :
      rid < s.resources.length →
      s.current = some c → getProc s.procs c = some p → p.status = .running →
      Step sched s (sched.acquire rid s).2
  | release (s : SimState) (rid c : Nat) (p : Process) (r : Resource) :
      s.current = some c → getProc s.procs c = some p → p.status = .running →
      s.resources.get? rid = some r → r.owner = some c →
      Step sched s (sched.release rid s)
  | schedule (s : SimState) :
      Step sched s (driverSchedule sched.schedule s)

/-- The initial state: no processes, no current process, empty ready queue,
`nr` resources all unowned with empty wait sets. -/
def initState (nr : Nat) : SimState :=
  { procs := [], current := none, readyqueue := [],
    resources := List.replicate nr { owner := none, waitqueue := [] } }

/-- States reachable from the initial state under a scheduler variant. -/
inductive Reach (sched : Scheduler) (nr : Nat) : SimState → Prop where
  | init : Reach sched nr (initState nr)
  | step {s s' : SimState} : Reach sched nr s → Step sched s s' → Reach sched nr s'

/-- Modelled from the spec: the driver's plain tick loop for workloads that
never touch resources — each tick one `schedule()` call followed, when a
process was elected, by one tick of CPU time.  Returns the sequence of
elected current processes, oldest first. -/
def runSim (sched : Scheduler) : Nat → SimState → List (Option Nat)
  | 0, _ => []
  | k + 1, s =>
    let s1 := driverSchedule sched.schedule s
    let s2 := driverTick s1
    s1.current :: runSim sched k s2

/-! ## Helper lemmas about the arena and the queues -/

/-! ## Demo states, the single-resource discipline, and remaining definitions -/

/-- `x` is the first-encountered maximum of `l` under `key` in a
left-to-right scan: it occurs in `l`, no element exceeds its key, and every
element strictly before its occurrence has a strictly smaller key. -/
def IsFirstMax (key : Nat → Nat) (l : List Nat) (x : Nat) : Prop :=
  ∃ l1 l2, l = l1 ++ x :: l2 ∧ (∀ y ∈ l, key y ≤ key x) ∧ (∀ y ∈ l1, key y < key x)

/-- `x` is the first-encountered minimum of `l` under `key`. -/
def IsFirstMin (key : Nat → Nat) (l : List Nat) (x : Nat) : Prop :=
  ∃ l1 l2, l = l1 ++ x :: l2 ∧ (∀ y ∈ l, key x ≤ key y) ∧ (∀ y ∈ l1, key x < key y)

/-- The cumulative arena effect of the aging pass: every pid in `q` gets
its `prio` incremented once, in scan order. -/
def bumpList : List Process → List Nat → List Process
  | procs, [] => procs
  | procs, c :: rest =>
    bumpList (updProc procs c (fun p => { p with prio := p.prio + 1 })) rest

/-- The fields of a record that the queue-membership invariant tracks
(pid, status, age, lifespan); policies may change `prio` freely. -/
def skel (p : Process) : Nat × PStatus × Nat × Nat := (p.pid, p.status, p.age, p.lifespan)

/-- Occurrence count of `x` over all wait queues of a resource table. -/
def wsum (rs : List Resource) (x : Nat) : Nat :=
  (rs.map (fun r => r.waitqueue.count x)).sum

/-- The fields the invariant clauses need pointwise: pid and status. -/
def pstat (p : Process) : Nat × PStatus := (p.pid, p.status)

/-- The global structural invariant (spec §3, §5, §8): pids are unique; a
RUNNING record belongs to the current process; the RUNNING process sits in
no queue; every non-RUNNING record sits in exactly one queue position over
the ready queue and all wait sets; and the current process is never in the
READY state. -/
def Inv (s : SimState) : Prop :=
  (s.procs.map Process.pid).Nodup ∧
  (∀ p ∈ s.procs, p.status = .running → s.current = some p.pid) ∧
  (∀ p ∈ s.procs, p.status = .running → queueCount s p.pid = 0) ∧
  (∀ p ∈ s.procs, p.status ≠ .running → queueCount s p.pid = 1) ∧
  (∀ p ∈ s.procs, s.current = some p.pid → p.status ≠ .ready)

/-- A scheduler variant whose three operations preserve the invariant
under the caller contract. -/
def SchedulerOK (sched : Scheduler) : Prop :=
  (∀ s rid c p, Inv s → s.current = some c → getProc s.procs c = some p →
    p.status = .running → Inv (sched.acquire rid s).2) ∧
  (∀ s rid c p r, Inv s → s.current = some c → getProc s.procs c = some p →
    p.status = .running → s.resources.get? rid = some r → r.owner = some c →
    Inv (sched.release rid s)) ∧
  (∀ s, Inv s → Inv (driverSchedule sched.schedule s))

/-- Demo process for exercising the reachability relation. -/
def c1demoP : Process := ⟨0, .ready, 0, 3, 5, 5⟩

/-- The initial state of one resource after spawning `c1demoP`. -/
def c1s1 : SimState :=
  { initState 1 with procs := (initState 1).procs ++ [c1demoP], readyqueue := (initState 1).readyqueue ++ [c1demoP.pid] }

/-- `c1s1` after one FIFO schedule call: `c1demoP` becomes current. -/
def c1s2 : SimState := driverSchedule fifo_schedule c1s1

/-- A fresh READY process with the given pid, lifespan and priority. -/
def mkReady (pid lifespan prio : Nat) : Process := ⟨pid, .ready, 0, lifespan, prio, prio⟩

/-- Three lifespan-3 processes all ready at tick 0 (spec Round-Robin scenario). -/
def rrDemo : SimState :=
  { procs := [mkReady 0 3 0, mkReady 1 3 0, mkReady 2 3 0], current := none,
    readyqueue := [0, 1, 2], resources := [] }

/-- Ready processes with lifespans [5, 3, 8] (spec SJF scenario). -/
def sjfDemo : SimState :=
  { procs := [mkReady 0 5 0, mkReady 1 3 0, mkReady 2 8 0], current := none,
    readyqueue := [0, 1, 2], resources := [] }

/-- A running owner (pid 0) of resource 0 with two waiters: pid 1 at the
FIFO head with priority 1, pid 2 behind it with priority 5. -/
def c2state : SimState :=
  { procs := [⟨0, .running, 0, 5, 3, 3⟩, ⟨1, .wait, 0, 5, 1, 1⟩, ⟨2, .wait, 0, 5, 5, 5⟩],
    current := some 0, readyqueue := [],
    resources := [{ owner := some 0, waitqueue := [1, 2] }] }

/-- A running process (pid 0, two ticks left) with pid 1 ready, to witness
the Round-Robin requeue-and-take-head behaviour. -/
def c8wit : SimState :=
  { procs := [⟨0, .running, 0, 2, 0, 0⟩, mkReady 1 2 0], current := some 0,
    readyqueue := [1], resources := [] }

/-- A running pid 0 with 3 ticks remaining and a ready pid 1 with 2 ticks
remaining, to witness SRTF preemption. -/
def c6wit : SimState :=
  { procs := [⟨0, .running, 2, 5, 0, 0⟩, mkReady 1 2 0], current := some 0,
    readyqueue := [1], resources := [] }

/-- Running pid 0 (baseline 2, transient priority 7) with priority-4
processes 1 and 2 waiting in the ready queue. -/
def paDemo : SimState :=
  { procs := [⟨0, .running, 1, 5, 7, 2⟩, mkReady 1 5 4, mkReady 2 5 4],
    current := some 0, readyqueue := [1, 2], resources := [] }

/-- Owner pid 0 (boosted to 9 over baseline 2) holding resource 0 with
waiters 1 (prio 4) and 2 (prio 7), to witness the PIP release path. -/
def c3state : SimState :=
  { procs := [⟨0, .running, 0, 5, 9, 2⟩, ⟨1, .wait, 0, 5, 4, 4⟩, ⟨2, .wait, 0, 5, 7, 7⟩],
    current := some 0, readyqueue := [], resources := [⟨some 0, [1, 2]⟩] }

/-- Requester pid 1 (prio 8) running against resource 0 owned by pid 0
(prio 3), to witness the PIP inheritance path. -/
def c3acq : SimState :=
  { procs := [⟨0, .ready, 0, 5, 3, 3⟩, ⟨1, .running, 0, 5, 8, 8⟩],
    current := some 1, readyqueue := [], resources := [⟨some 0, []⟩] }

/-- Modelled from the spec: one transition under the single-resource
discipline — identical to `Step` except that `acquire` additionally
requires the caller to hold no resource yet. -/
inductive StepOne (sched : Scheduler) : SimState → SimState → Prop where
  | spawn (s : SimState) (p : Process) :
      p.status = .ready →
      (∀ q ∈ s.procs, q.pid ≠ p.pid) →
      queueCount s p.pid = 0 →
      (∀ r ∈ s.resources, r.owner ≠ some p.pid) →
      s.current ≠ some p.pid →
      StepOne sched s { s with procs := s.procs ++ [p], readyqueue := s.readyqueue ++ [p.pid] }
  | tick (s : SimState) (c : Nat) (p : Process) :
      s.current = some c → getProc s.procs c = some p → p.status = .running →
      p.age < p.lifespan →
      StepOne sched s (driverTick s)
  | acquire (s : SimState) (rid c : Nat) (p : Process) :
      rid < s.resources.length →
      s.current = some c → getProc s.procs c = some p → p.status = .running →
      (∀ r ∈ s.resources, r.owner ≠ some c) →
      StepOne sched s (sched.acquire rid s).2
  | release (s : SimState) (rid c : Nat) (p : Process) (r : Resource) :
      s.current = some c → getProc s.procs c = some p → p.status = .running →
      s.resources.get? rid = some r → r.owner = some c →
      StepOne sched s (sched.release rid s)
  | schedule (s : SimState) :
      StepOne sched s (driverSchedule sched.schedule s)

/-- Modelled from the spec: reachability under the single-resource
discipline. -/
inductive ReachOne (sched : Scheduler) (nr : Nat) : SimState → Prop where
  | init : ReachOne sched nr (initState nr)
  | step {s s' : SimState} : ReachOne sched nr s → StepOne sched s s' → ReachOne sched nr s'

/-- PCP ceiling invariant: resource ownership is exclusive per process and
every live holder's priority sits exactly at the ceiling. -/
def InvPCP (maxPrio : Nat) (s : SimState) : Prop :=
  (∀ rid1 rid2 r1 r2 o, s.resources.get? rid1 = some r1 → s.resources.get? rid2 = some r2 →
      r1.owner = some o → r2.owner = some o → rid1 = rid2) ∧
  (∀ rid r o q, s.resources.get? rid = some r → r.owner = some o →
      getProc s.procs o = some q → q.prio = maxPrio)

/-- The spawn-schedule-acquire chain whose final state witnesses the
amended C4: pid 0 (baseline 1) acquires resource 0 under PCP with ceiling
10. -/
def c4wit : SimState :=
  (pcp_acquire 10 0 (driverSchedule prio_schedule { initState 1 with procs := (initState 1).procs ++ [⟨0, .ready, 0, 5, 1, 1⟩], readyqueue := (initState 1).readyqueue ++ [0] })).2

/-- The chain refuting C4 as stated: pid 0 (baseline 1) acquires resources
0 and 1 under PCP with ceiling 10, then releases resource 1. -/
def c4bug : SimState :=
  pcp_release 1 (pcp_acquire 10 1 (pcp_acquire 10 0 (driverSchedule prio_schedule { initState 2 with procs := (initState 2).procs ++ [⟨0, .ready, 0, 5, 1, 1⟩], readyqueue := (initState 2).readyqueue ++ [0] })).2).2

theorem getProc_updProc (procs : List Process) (c x : Nat) (f : Process → Process)
    (hf : ∀ p, (f p).pid = p.pid) :
    getProc (updProc procs c f) x =
      if x = c then (getProc procs x).map f else getProc procs x := by
  induction procs with
  | nil => simp [getProc, updProc]
  | cons p ps ih =>
    simp only [updProc, getProc]
    by_cases hpc : p.pid = c
    · by_cases hxc : x = c
      · subst hxc
        simp [hpc, hf, getProc]
      · rw [if_pos hpc]
        rw [if_neg (show ¬(f p).pid = x by rw [hf p, hpc]; exact fun h => hxc h.symm),
            if_neg hxc, ih, if_neg hxc,
            if_neg (show ¬p.pid = x by rw [hpc]; exact fun h => hxc h.symm)]
    · by_cases hpx : p.pid = x
      · have hxc : x ≠ c := fun h => hpc (h ▸ hpx)
        simp [hpc, hpx, getProc, hxc]
      · simp [hpc, hpx, getProc, ih]

theorem getProc_updProc_self (procs : List Process) (c : Nat) (f : Process → Process)
    (hf : ∀ p, (f p).pid = p.pid) :
    getProc (updProc procs c f) c = (getProc procs c).map f := by
  rw [getProc_updProc procs c c f hf, if_pos rfl]

theorem getProc_updProc_ne (procs : List Process) (c x : Nat) (f : Process → Process)
    (hf : ∀ p, (f p).pid = p.pid) (hx : x ≠ c) :
    getProc (updProc procs c f) x = getProc procs x := by
  rw [getProc_updProc procs c x f hf, if_neg hx]

theorem updProc_map_pid (procs : List Process) (c : Nat) (f : Process → Process)
    (hf : ∀ p, (f p).pid = p.pid) :
    (updProc procs c f).map Process.pid = procs.map Process.pid := by
  induction procs with
  | nil => rfl
  | cons p ps ih =>
    simp only [updProc, List.map_cons, ih]
    by_cases hpc : p.pid = c
    · rw [if_pos hpc, hf]
    · rw [if_neg hpc]

theorem getProc_isSome_updProc (procs : List Process) (c x : Nat) (f : Process → Process)
    (hf : ∀ p, (f p).pid = p.pid) :
    (getProc (updProc procs c f) x).isSome = (getProc procs x).isSome := by
  rw [getProc_updProc procs c x f hf]
  by_cases hxc : x = c
  · rw [if_pos hxc]
    cases getProc procs x <;> rfl
  · rw [if_neg hxc]

theorem getProc_eq_none_of_forall_ne (procs : List Process) (x : Nat)
    (h : ∀ q ∈ procs, q.pid ≠ x) : getProc procs x = none := by
  induction procs with
  | nil => rfl
  | cons p ps ih =>
    simp only [getProc]
    rw [if_neg (h p (List.mem_cons_self p ps))]
    exact ih (fun q hq => h q (List.mem_cons_of_mem p hq))

theorem getProc_mem {procs : List Process} {x : Nat} {p : Process}
    (h : getProc procs x = some p) : p ∈ procs ∧ p.pid = x := by
  induction procs with
  | nil => cases h
  | cons q qs ih =>
    simp only [getProc] at h
    by_cases hq : q.pid = x
    · rw [if_pos hq] at h
      cases h
      exact ⟨List.mem_cons_self _ _, hq⟩
    · rw [if_neg hq] at h
      obtain ⟨h1, h2⟩ := ih h
      exact ⟨List.mem_cons_of_mem q h1, h2⟩

theorem getProc_of_mem_nodup {procs : List Process} {p : Process}
    (hmem : p ∈ procs) (hnd : (procs.map Process.pid).Nodup) :
    getProc procs p.pid = some p := by
  induction procs with
  | nil => cases hmem
  | cons q qs ih =>
    simp only [List.map_cons, List.nodup_cons] at hnd
    rcases List.mem_cons.mp hmem with h | h
    · subst h
      simp [getProc]
    · have hne : q.pid ≠ p.pid := by
        intro he
        exact hnd.1 (he ▸ List.mem_map_of_mem Process.pid h)
      simp only [getProc, if_neg hne]
      exact ih h hnd.2

/-- Sum of a function over a list with one position replaced, stated
addition-only to avoid natural subtraction. -/
theorem sum_map_set (rs : List Resource) (rid : Nat) (r r' : Resource)
    (f : Resource → Nat) (h : rs.get? rid = some r) :
    ((rs.set rid r').map f).sum + f r = (rs.map f).sum + f r' := by
  induction rs generalizing rid with
  | nil => cases h
  | cons x xs ih =>
    cases rid with
    | zero =>
      simp only [List.get?] at h
      cases h
      simp only [List.set, List.map_cons, List.sum_cons]
      omega
    | succ n =>
      simp only [List.get?] at h
      simp only [List.set, List.map_cons, List.sum_cons]
      have := ih n h
      omega

theorem get?_set_self (rs : List Resource) (rid : Nat) (r r' : Resource)
    (h : rs.get? rid = some r) : (rs.set rid r').get? rid = some r' := by
  induction rs generalizing rid with
  | nil => cases h
  | cons x xs ih =>
    cases rid with
    | zero => rfl
    | succ n => exact ih n h

theorem get?_set_ne (rs : List Resource) (rid rid' : Nat) (r' : Resource)
    (h : rid' ≠ rid) : (rs.set rid r').get? rid' = rs.get? rid' := by
  induction rs generalizing rid rid' with
  | nil => simp [List.set]
  | cons x xs ih =>
    cases rid with
    | zero =>
      cases rid' with
      | zero => exact absurd rfl h
      | succ m => rfl
    | succ n =>
      cases rid' with
      | zero => rfl
      | succ m => exact ih n m (fun he => h (by rw [he]))

/-! ## The champion scan: first-encountered extremum characterization -/

theorem champion_spec (key : Nat → Nat) (c : Nat) (l : List Nat) :
    (champion key c l = c ∧ ∀ y ∈ l, key y ≤ key c) ∨
    (∃ l1 l2, l = l1 ++ champion key c l :: l2 ∧ key c < key (champion key c l) ∧
      (∀ y ∈ l, key y ≤ key (champion key c l)) ∧
      (∀ y ∈ l1, key y < key (champion key c l))) := by
  induction l generalizing c with
  | nil => exact Or.inl ⟨rfl, by intro y hy; cases hy⟩
  | cons x xs ih =>
    have hstep : champion key c (x :: xs) = champion key (if key c < key x then x else c) xs := rfl
    by_cases hcx : key c < key x
    · rw [hstep, if_pos hcx]
      rcases ih x with ⟨he, hb⟩ | ⟨l1, l2, heq, hgt, hb, hf⟩
      · refine Or.inr ⟨[], xs, ?_, ?_, ?_, ?_⟩
        · rw [he]; rfl
        · rw [he]; exact hcx
        · intro y hy
          rw [he]
          rcases List.mem_cons.mp hy with h | h
          · exact le_of_eq (congrArg key h)
          · exact hb y h
        · intro y hy; cases hy
      · refine Or.inr ⟨x :: l1, l2, ?_, ?_, ?_, ?_⟩
        · exact congrArg (List.cons x) heq
        · exact lt_trans hcx hgt
        · intro y hy
          rcases List.mem_cons.mp hy with h | h
          · exact le_of_lt (h ▸ hgt)
          · exact hb y h
        · intro y hy
          rcases List.mem_cons.mp hy with h | h
          · exact h ▸ hgt
          · exact hf y h
    · rw [hstep, if_neg hcx]
      rcases ih c with ⟨he, hb⟩ | ⟨l1, l2, heq, hgt, hb, hf⟩
      · refine Or.inl ⟨he, ?_⟩
        intro y hy
        rcases List.mem_cons.mp hy with h | h
        · subst h; exact not_lt.mp hcx
        · exact hb y h
      · refine Or.inr ⟨x :: l1, l2, ?_, hgt, ?_, ?_⟩
        · exact congrArg (List.cons x) heq
        · intro y hy
          rcases List.mem_cons.mp hy with h | h
          · exact le_of_lt (lt_of_le_of_lt (h ▸ not_lt.mp hcx) hgt)
          · exact hb y h
        · intro y hy
          rcases List.mem_cons.mp hy with h | h
          · exact lt_of_le_of_lt (h ▸ not_lt.mp hcx) hgt
          · exact hf y h

theorem championMin_spec (key : Nat → Nat) (c : Nat) (l : List Nat) :
    (championMin key c l = c ∧ ∀ y ∈ l, key c ≤ key y) ∨
    (∃ l1 l2, l = l1 ++ championMin key c l :: l2 ∧ key (championMin key c l) < key c ∧
      (∀ y ∈ l, key (championMin key c l) ≤ key y) ∧
      (∀ y ∈ l1, key (championMin key c l) < key y)) := by
  induction l generalizing c with
  | nil => exact Or.inl ⟨rfl, by intro y hy; cases hy⟩
  | cons x xs ih =>
    have hstep : championMin key c (x :: xs) = championMin key (if key x < key c then x else c) xs := rfl
    by_cases hcx : key x < key c
    · rw [hstep, if_pos hcx]
      rcases ih x with ⟨he, hb⟩ | ⟨l1, l2, heq, hgt, hb, hf⟩
      · refine Or.inr ⟨[], xs, ?_, ?_, ?_, ?_⟩
        · rw [he]; rfl
        · rw [he]; exact hcx
        · intro y hy
          rw [he]
          rcases List.mem_cons.mp hy with h | h
          · exact le_of_eq (congrArg key h.symm)
          · exact hb y h
        · intro y hy; cases hy
      · refine Or.inr ⟨x :: l1, l2, ?_, ?_, ?_, ?_⟩
        · exact congrArg (List.cons x) heq
        · exact lt_trans hgt hcx
        · intro y hy
          rcases List.mem_cons.mp hy with h | h
          · exact le_of_lt (h ▸ hgt)
          · exact hb y h
        · intro y hy
          rcases List.mem_cons.mp hy with h | h
          · exact h ▸ hgt
          · exact hf y h
    · rw [hstep, if_neg hcx]
      rcases ih c with ⟨he, hb⟩ | ⟨l1, l2, heq, hgt, hb, hf⟩
      · refine Or.inl ⟨he, ?_⟩
        intro y hy
        rcases List.mem_cons.mp hy with h | h
        · subst h; exact not_lt.mp hcx
        · exact hb y h
      · refine Or.inr ⟨x :: l1, l2, ?_, hgt, ?_, ?_⟩
        · exact congrArg (List.cons x) heq
        · intro y hy
          rcases List.mem_cons.mp hy with h | h
          · exact le_of_lt (lt_of_lt_of_le hgt (h ▸ not_lt.mp hcx))
          · exact hb y h
        · intro y hy
          rcases List.mem_cons.mp hy with h | h
          · exact lt_of_lt_of_le hgt (h ▸ not_lt.mp hcx)
          · exact hf y h

/-- The C selection idiom — init the champion to the head and scan the full
list with a strict comparison — yields the first-encountered maximum. -/
theorem champion_head_isFirstMax (key : Nat → Nat) (hd : Nat) (tl : List Nat) :
    IsFirstMax key (hd :: tl) (champion key hd (hd :: tl)) := by
  have hself : champion key hd (hd :: tl) = champion key hd tl := by
    show champion key (if key hd < key hd then hd else hd) tl = champion key hd tl
    rw [ite_self]
  rw [hself]
  rcases champion_spec key hd tl with ⟨he, hb⟩ | ⟨l1, l2, heq, hgt, hb, hf⟩
  · refine ⟨[], tl, by rw [he]; rfl, ?_, by intro y hy; cases hy⟩
    intro y hy
    rw [he]
    rcases List.mem_cons.mp hy with h | h
    · exact le_of_eq (congrArg key h)
    · exact hb y h
  · refine ⟨hd :: l1, l2, congrArg (List.cons hd) heq, ?_, ?_⟩
    · intro y hy
      rcases List.mem_cons.mp hy with h | h
      · exact le_of_lt (h ▸ hgt)
      · exact hb y h
    · intro y hy
      rcases List.mem_cons.mp hy with h | h
      · exact h ▸ hgt
      · exact hf y h

/-- Dual: the `sjf`/`srtf` scan yields the first-encountered minimum. -/
theorem championMin_head_isFirstMin (key : Nat → Nat) (hd : Nat) (tl : List Nat) :
    IsFirstMin key (hd :: tl) (championMin key hd (hd :: tl)) := by
  have hself : championMin key hd (hd :: tl) = championMin key hd tl := by
    show championMin key (if key hd < key hd then hd else hd) tl = championMin key hd tl
    rw [ite_self]
  rw [hself]
  rcases championMin_spec key hd tl with ⟨he, hb⟩ | ⟨l1, l2, heq, hgt, hb, hf⟩
  · refine ⟨[], tl, by rw [he]; rfl, ?_, by intro y hy; cases hy⟩
    intro y hy
    rw [he]
    rcases List.mem_cons.mp hy with h | h
    · exact le_of_eq (congrArg key h.symm)
    · exact hb y h
  · refine ⟨hd :: l1, l2, congrArg (List.cons hd) heq, ?_, ?_⟩
    · intro y hy
      rcases List.mem_cons.mp hy with h | h
      · exact le_of_lt (h ▸ hgt)
      · exact hb y h
    · intro y hy
      rcases List.mem_cons.mp hy with h | h
      · exact h ▸ hgt
      · exact hf y h

theorem champion_mem (key : Nat → Nat) (c : Nat) (l : List Nat) :
    champion key c l ∈ c :: l := by
  rcases champion_spec key c l with ⟨he, _⟩ | ⟨l1, l2, heq, _, _, _⟩
  · rw [he]; exact List.mem_cons_self c l
  · refine List.mem_cons_of_mem c ?_
    have hmem : champion key c l ∈ l1 ++ champion key c l :: l2 :=
      List.mem_append_right l1 (List.mem_cons_self _ _)
    rw [← heq] at hmem
    exact hmem

theorem championMin_mem (key : Nat → Nat) (c : Nat) (l : List Nat) :
    championMin key c l ∈ c :: l := by
  rcases championMin_spec key c l with ⟨he, _⟩ | ⟨l1, l2, heq, _, _, _⟩
  · rw [he]; exact List.mem_cons_self c l
  · refine List.mem_cons_of_mem c ?_
    have hmem : championMin key c l ∈ l1 ++ championMin key c l :: l2 :=
      List.mem_append_right l1 (List.mem_cons_self _ _)
    rw [← heq] at hmem
    exact hmem

theorem isFirstMax_mem {key : Nat → Nat} {l : List Nat} {x : Nat}
    (h : IsFirstMax key l x) : x ∈ l := by
  obtain ⟨l1, l2, heq, _, _⟩ := h
  rw [heq]
  exact List.mem_append_right l1 (List.mem_cons_self _ l2)

theorem champion_congr (k1 k2 : Nat → Nat) (c : Nat) (l : List Nat)
    (h : ∀ y ∈ c :: l, k1 y = k2 y) : champion k1 c l = champion k2 c l := by
  induction l generalizing c with
  | nil => rfl
  | cons x xs ih =>
    have hc : k1 c = k2 c := h c (List.mem_cons_self _ _)
    have hx : k1 x = k2 x := h x (List.mem_cons_of_mem _ (List.mem_cons_self _ _))
    show champion k1 (if k1 c < k1 x then x else c) xs
        = champion k2 (if k2 c < k2 x then x else c) xs
    rw [hc, hx]
    by_cases hlt : k2 c < k2 x
    · rw [if_pos hlt]
      exact ih x (fun y hy => by
        rcases List.mem_cons.mp hy with hy | hy
        · exact hy ▸ hx
        · exact h y (List.mem_cons_of_mem _ (List.mem_cons_of_mem _ hy)))
    · rw [if_neg hlt]
      exact ih c (fun y hy => by
        rcases List.mem_cons.mp hy with hy | hy
        · exact hy ▸ hc
        · exact h y (List.mem_cons_of_mem _ (List.mem_cons_of_mem _ hy)))

/-! ## The aging scan of `pa_schedule` -/

theorem getProc_bumpList_not_mem (procs : List Process) (q : List Nat) (x : Nat)
    (hx : x ∉ q) : getProc (bumpList procs q) x = getProc procs x := by
  induction q generalizing procs with
  | nil => rfl
  | cons c rest ih =>
    have hxc : x ≠ c := fun h => hx (h ▸ List.mem_cons_self c rest)
    have hxr : x ∉ rest := fun h => hx (List.mem_cons_of_mem c h)
    show getProc (bumpList (updProc procs c (fun p => { p with prio := p.prio + 1 })) rest) x = getProc procs x
    rw [ih _ hxr, getProc_updProc_ne procs c x (fun p => { p with prio := p.prio + 1 }) (fun _ => rfl) hxc]

theorem prioIn_bumpList_not_mem (procs : List Process) (q : List Nat) (x : Nat)
    (hx : x ∉ q) : prioIn (bumpList procs q) x = prioIn procs x := by
  unfold prioIn
  rw [getProc_bumpList_not_mem procs q x hx]

/-- Every pid of a duplicate-free scan list with a record present gets its
priority incremented by exactly one over the whole aging pass. -/
theorem prioIn_bumpList_mem (procs : List Process) (q : List Nat) (x : Nat)
    (hnd : q.Nodup) (hx : x ∈ q) (hsome : (getProc procs x).isSome = true) :
    prioIn (bumpList procs q) x = prioIn procs x + 1 := by
  induction q generalizing procs with
  | nil => cases hx
  | cons c rest ih =>
    have hcr : c ∉ rest := (List.nodup_cons.mp hnd).1
    have hrest : rest.Nodup := (List.nodup_cons.mp hnd).2
    rcases List.mem_cons.mp hx with hxc | hxr
    · subst hxc
      show prioIn (bumpList (updProc procs x (fun p => { p with prio := p.prio + 1 })) rest) x = prioIn procs x + 1
      rw [prioIn_bumpList_not_mem _ _ _ hcr]
      unfold prioIn
      rw [getProc_updProc_self procs x (fun p => { p with prio := p.prio + 1 }) (fun _ => rfl)]
      obtain ⟨p, hp⟩ := Option.isSome_iff_exists.mp hsome
      rw [hp]
      rfl
    · show prioIn (bumpList (updProc procs c (fun p => { p with prio := p.prio + 1 })) rest) x = prioIn procs x + 1
      have hxc : x ≠ c := fun h => hcr (h ▸ hxr)
      have hsome1 : (getProc (updProc procs c
          (fun p => { p with prio := p.prio + 1 })) x).isSome = true := by
        rw [getProc_isSome_updProc procs c x (fun p => { p with prio := p.prio + 1 }) (fun _ => rfl)]
        exact hsome
      rw [ih _ hrest hxr hsome1]
      unfold prioIn
      rw [getProc_updProc_ne procs c x (fun p => { p with prio := p.prio + 1 }) (fun _ => rfl) hxc]

/-- The threaded aging scan coincides with: bump the whole list, then run
the pure champion scan against the post-bump priorities — provided the scan
list is duplicate-free and the running champion is not rescanned. -/
theorem paScanGo_eq (q : List Nat) (procs : List Process) (next : Nat)
    (hnd : q.Nodup) (hnx : next ∉ q) :
    paScanGo procs next q =
      (bumpList procs q, champion (prioIn (bumpList procs q)) next q) := by
  induction q generalizing procs next with
  | nil => rfl
  | cons c rest ih =>
    have hcr : c ∉ rest := (List.nodup_cons.mp hnd).1
    have hrest : rest.Nodup := (List.nodup_cons.mp hnd).2
    have hnc : next ≠ c := fun h => hnx (h ▸ List.mem_cons_self c rest)
    have hnr : next ∉ rest := fun h => hnx (List.mem_cons_of_mem c h)
    set procs1 := updProc procs c (fun p => { p with prio := p.prio + 1 }) with hprocs1
    set next1 := if prioIn procs1 next < prioIn procs1 c then c else next with hnext1def
    have hstep : paScanGo procs next (c :: rest) = paScanGo procs1 next1 rest := rfl
    have hnext1 : next1 ∉ rest := by
      rw [hnext1def]
      by_cases h : prioIn procs1 next < prioIn procs1 c
      · rw [if_pos h]; exact hcr
      · rw [if_neg h]; exact hnr
    have hkn : prioIn (bumpList procs1 rest) next = prioIn procs1 next :=
      prioIn_bumpList_not_mem _ _ _ hnr
    have hkc : prioIn (bumpList procs1 rest) c = prioIn procs1 c :=
      prioIn_bumpList_not_mem _ _ _ hcr
    rw [hstep, ih _ _ hrest hnext1]
    show (bumpList procs1 rest, champion (prioIn (bumpList procs1 rest)) next1 rest)
        = (bumpList procs1 rest,
           champion (prioIn (bumpList procs1 rest))
             (if prioIn (bumpList procs1 rest) next < prioIn (bumpList procs1 rest) c
              then c else next) rest)
    rw [hkn, hkc, hnext1def]

theorem paScanGo_snd_mem (procs : List Process) (next : Nat) (q : List Nat) :
    (paScanGo procs next q).2 ∈ next :: q := by
  induction q generalizing procs next with
  | nil => exact List.mem_cons_self _ _
  | cons c rest ih =>
    have hstep : paScanGo procs next (c :: rest) =
        paScanGo (updProc procs c (fun p => { p with prio := p.prio + 1 }))
          (if prioIn (updProc procs c (fun p => { p with prio := p.prio + 1 })) next <
              prioIn (updProc procs c (fun p => { p with prio := p.prio + 1 })) c
           then c else next) rest := rfl
    rw [hstep]
    rcases List.mem_cons.mp (ih (updProc procs c (fun p => { p with prio := p.prio + 1 }))
      (if prioIn (updProc procs c (fun p => { p with prio := p.prio + 1 })) next <
          prioIn (updProc procs c (fun p => { p with prio := p.prio + 1 })) c
       then c else next)) with h | h
    · rw [h]
      by_cases hc : prioIn (updProc procs c (fun p => { p with prio := p.prio + 1 })) next <
          prioIn (updProc procs c (fun p => { p with prio := p.prio + 1 })) c
      · rw [if_pos hc]
        exact List.mem_cons_of_mem _ (List.mem_cons_self _ _)
      · rw [if_neg hc]
        exact List.mem_cons_self _ _
    · exact List.mem_cons_of_mem _ (List.mem_cons_of_mem _ h)

/-! ## The scheduling invariant -/

theorem mem_updProc {procs : List Process} {c : Nat} {f : Process → Process} {q : Process}
    (h : q ∈ updProc procs c f) : ∃ p ∈ procs, q = if p.pid = c then f p else p := by
  induction procs with
  | nil => cases h
  | cons p ps ih =>
    simp only [updProc] at h
    rcases List.mem_cons.mp h with h | h
    · exact ⟨p, List.mem_cons_self _ _, h⟩
    · obtain ⟨p', hp', he⟩ := ih h
      exact ⟨p', List.mem_cons_of_mem _ hp', he⟩

theorem updProc_map_skel (procs : List Process) (c : Nat) (f : Process → Process)
    (hf : ∀ p, skel (f p) = skel p) :
    (updProc procs c f).map skel = procs.map skel := by
  induction procs with
  | nil => rfl
  | cons p ps ih =>
    simp only [updProc, List.map_cons, ih]
    by_cases hpc : p.pid = c
    · rw [if_pos hpc, hf]
    · rw [if_neg hpc]

theorem bumpList_map_skel (procs : List Process) (q : List Nat) :
    (bumpList procs q).map skel = procs.map skel := by
  induction q generalizing procs with
  | nil => rfl
  | cons c rest ih =>
    show (bumpList (updProc procs c (fun p => { p with prio := p.prio + 1 })) rest).map skel
        = procs.map skel
    rw [ih, updProc_map_skel procs c (fun p => { p with prio := p.prio + 1 }) (fun _ => rfl)]

theorem map_pid_of_map_skel {procs procs' : List Process}
    (h : procs.map skel = procs'.map skel) :
    procs.map Process.pid = procs'.map Process.pid := by
  have h1 : (procs.map skel).map Prod.fst = (procs'.map skel).map Prod.fst := by rw [h]
  simpa [List.map_map, Function.comp, skel] using h1

theorem getProc_skel_eq {procs procs' : List Process}
    (h : procs.map skel = procs'.map skel) (x : Nat) :
    (getProc procs x).map skel = (getProc procs' x).map skel := by
  induction procs generalizing procs' with
  | nil =>
    cases procs' with
    | nil => rfl
    | cons q qs => cases h
  | cons p ps ih =>
    cases procs' with
    | nil => cases h
    | cons q qs =>
      simp only [List.map_cons, List.cons.injEq] at h
      have hpid : p.pid = q.pid := congrArg Prod.fst h.1
      simp only [getProc]
      by_cases hpx : p.pid = x
      · rw [if_pos hpx, if_pos (hpid ▸ hpx)]
        exact congrArg some h.1
      · rw [if_neg hpx, if_neg (fun hh : q.pid = x => hpx (hpid.symm ▸ hh))]
        exact ih h.2

theorem updProc_eq_self {procs : List Process} {c : Nat} {f : Process → Process}
    (h : ∀ p ∈ procs, p.pid = c → f p = p) : updProc procs c f = procs := by
  induction procs with
  | nil => rfl
  | cons p ps ih =>
    simp only [updProc]
    rw [ih (fun q hq hqc => h q (List.mem_cons_of_mem _ hq) hqc)]
    by_cases hpc : p.pid = c
    · rw [if_pos hpc, h p (List.mem_cons_self _ _) hpc]
    · rw [if_neg hpc]

theorem count_cons_eq (a b : Nat) (l : List Nat) :
    (b :: l).count a = l.count a + if a = b then 1 else 0 := by
  rw [List.count_cons]
  by_cases h : a = b
  · subst h; simp
  · simp only [if_neg h, if_neg (fun hh : b = a => h hh.symm), beq_iff_eq, Nat.add_zero]

theorem count_append_singleton (a b : Nat) (l : List Nat) :
    (l ++ [b]).count a = l.count a + if a = b then 1 else 0 := by
  rw [List.count_append, count_cons_eq]
  simp

theorem queueCount_eq (s : SimState) (x : Nat) :
    queueCount s x = s.readyqueue.count x + wsum s.resources x := rfl

theorem wsum_set (rs : List Resource) (rid : Nat) (r r' : Resource) (x : Nat)
    (h : rs.get? rid = some r) :
    wsum (rs.set rid r') x + r.waitqueue.count x = wsum rs x + r'.waitqueue.count x :=
  sum_map_set rs rid r r' (fun t => t.waitqueue.count x) h

theorem wsum_le_of_get? (rs : List Resource) (rid : Nat) (r : Resource) (x : Nat)
    (h : rs.get? rid = some r) : r.waitqueue.count x ≤ wsum rs x := by
  induction rs generalizing rid with
  | nil => cases h
  | cons t ts ih =>
    cases rid with
    | zero =>
      simp only [List.get?] at h
      cases h
      simp only [wsum, List.map_cons, List.sum_cons]
      omega
    | succ n =>
      simp only [List.get?] at h
      have := ih n h
      simp only [wsum, List.map_cons, List.sum_cons] at *
      omega

theorem updProc_map_pstat (procs : List Process) (c : Nat) (f : Process → Process)
    (hf : ∀ p, pstat (f p) = pstat p) :
    (updProc procs c f).map pstat = procs.map pstat := by
  induction procs with
  | nil => rfl
  | cons p ps ih =>
    simp only [updProc, List.map_cons, ih]
    by_cases hpc : p.pid = c
    · rw [if_pos hpc, hf]
    · rw [if_neg hpc]

theorem map_pstat_of_map_skel {procs procs' : List Process}
    (h : procs.map skel = procs'.map skel) :
    procs.map pstat = procs'.map pstat := by
  have h1 : (procs.map skel).map (fun t => (t.1, t.2.1)) =
      (procs'.map skel).map (fun t => (t.1, t.2.1)) := by rw [h]
  simpa [List.map_map, Function.comp, skel, pstat] using h1

theorem map_pid_of_map_pstat {procs procs' : List Process}
    (h : procs.map pstat = procs'.map pstat) :
    procs.map Process.pid = procs'.map Process.pid := by
  have h1 : (procs.map pstat).map Prod.fst = (procs'.map pstat).map Prod.fst := by rw [h]
  simpa [List.map_map, Function.comp, pstat] using h1

theorem mem_pstat_exists {procs procs' : List Process}
    (h : procs'.map pstat = procs.map pstat) {q : Process} (hq : q ∈ procs') :
    ∃ p ∈ procs, q.pid = p.pid ∧ q.status = p.status := by
  have h1 : pstat q ∈ procs'.map pstat := List.mem_map_of_mem _ hq
  rw [h] at h1
  obtain ⟨p, hp, he⟩ := List.mem_map.mp h1
  refine ⟨p, hp, ?_, ?_⟩
  · exact (congrArg Prod.fst he).symm
  · exact (congrArg Prod.snd he).symm

/-- Invariant congruence: a state with the same current process, the same
queue counts, and pointwise the same pids and statuses satisfies the
invariant whenever the original does. -/
theorem inv_of_pstat {s t : SimState} (hinv : Inv s) (hc : t.current = s.current)
    (hq : ∀ x, queueCount t x = queueCount s x)
    (hm : t.procs.map pstat = s.procs.map pstat) : Inv t := by
  obtain ⟨hnd, hrun, hrc, hoc, hcr⟩ := hinv
  refine ⟨?_, ?_, ?_, ?_, ?_⟩
  · rw [map_pid_of_map_pstat hm]; exact hnd
  · intro q hq' hrq
    obtain ⟨p, hp, hpid, hst⟩ := mem_pstat_exists hm hq'
    rw [hc, hpid]
    exact hrun p hp (by rw [← hst]; exact hrq)
  · intro q hq' hrq
    obtain ⟨p, hp, hpid, hst⟩ := mem_pstat_exists hm hq'
    rw [hq, hpid]
    exact hrc p hp (by rw [← hst]; exact hrq)
  · intro q hq' hrq
    obtain ⟨p, hp, hpid, hst⟩ := mem_pstat_exists hm hq'
    rw [hq, hpid]
    exact hoc p hp (by rw [← hst]; exact hrq)
  · intro q hq' hcq
    obtain ⟨p, hp, hpid, hst⟩ := mem_pstat_exists hm hq'
    rw [hst]
    refine hcr p hp ?_
    rw [← hc, ← hpid]
    exact hcq

theorem inv_spawn (s : SimState) (p : Process) (hinv : Inv s)
    (hst : p.status = .ready)
    (hfresh : ∀ q ∈ s.procs, q.pid ≠ p.pid)
    (hqc : queueCount s p.pid = 0)
    (hcur : s.current ≠ some p.pid) :
    Inv { s with procs := s.procs ++ [p], readyqueue := s.readyqueue ++ [p.pid] } := by
  obtain ⟨hnd, hrun, hrc, hoc, hcr⟩ := hinv
  have hq : ∀ x, queueCount ⟨s.procs ++ [p], s.current, s.readyqueue ++ [p.pid], s.resources⟩ x
      = queueCount s x + if x = p.pid then 1 else 0 := by
    intro x
    simp only [queueCount_eq]
    show (s.readyqueue ++ [p.pid]).count x + wsum s.resources x = _
    rw [count_append_singleton]
    omega
  refine ⟨?_, ?_, ?_, ?_, ?_⟩
  · show ((s.procs ++ [p]).map Process.pid).Nodup
    rw [List.map_append, List.nodup_append]
    refine ⟨hnd, List.nodup_singleton _, ?_⟩
    intro a ha hb
    simp only [List.map_cons, List.map_nil, List.mem_singleton] at hb
    obtain ⟨q, hqmem, hqa⟩ := List.mem_map.mp ha
    exact hfresh q hqmem (hqa.trans hb)
  · intro q hq' hrq
    rcases List.mem_append.mp hq' with h | h
    · exact hrun q h hrq
    · rw [List.mem_singleton.mp h] at hrq
      rw [hst] at hrq
      cases hrq
  · intro q hq' hrq
    rcases List.mem_append.mp hq' with h | h
    · rw [hq, if_neg (hfresh q h)]
      simpa using hrc q h hrq
    · rw [List.mem_singleton.mp h] at hrq
      rw [hst] at hrq
      cases hrq
  · intro q hq' hrq
    rcases List.mem_append.mp hq' with h | h
    · rw [hq, if_neg (hfresh q h)]
      simpa using hoc q h hrq
    · rw [hq]
      rw [List.mem_singleton.mp h]
      rw [if_pos rfl, hqc]
  · intro q hq' hcq
    rcases List.mem_append.mp hq' with h | h
    · exact hcr q h hcq
    · rw [List.mem_singleton.mp h] at hcq ⊢
      exact absurd hcq hcur

theorem inv_driverTick (s : SimState) (hinv : Inv s) : Inv (driverTick s) := by
  cases hc : s.current with
  | none =>
    have h : driverTick s = s := by unfold driverTick; rw [hc]
    rw [h]; exact hinv
  | some c =>
    have h : driverTick s =
        { s with procs := updProc s.procs c (fun p => { p with age := p.age + 1 }) } := by
      unfold driverTick; rw [hc]
    rw [h]
    refine inv_of_pstat hinv rfl (fun x => rfl) ?_
    exact updProc_map_pstat _ _ _ (fun _ => rfl)

theorem updProc_map_pstat_congr {X Y : List Process} (c : Nat) (st : PStatus)
    (h : X.map pstat = Y.map pstat) :
    (updProc X c (fun q => { q with status := st })).map pstat
      = (updProc Y c (fun q => { q with status := st })).map pstat := by
  induction X generalizing Y with
  | nil =>
    cases Y with
    | nil => rfl
    | cons q qs => cases h
  | cons p ps ih =>
    cases Y with
    | nil => cases h
    | cons q qs =>
      simp only [List.map_cons, List.cons.injEq] at h
      have hpid : p.pid = q.pid := congrArg Prod.fst h.1
      simp only [updProc, List.map_cons]
      by_cases hpc : p.pid = c
      · rw [if_pos hpc, if_pos (hpid ▸ hpc)]
        simp only [List.cons.injEq]
        exact ⟨by simp [pstat, hpid], ih h.2⟩
      · rw [if_neg hpc, if_neg (fun hh : q.pid = c => hpc (hpid.symm ▸ hh))]
        simp only [List.cons.injEq]
        exact ⟨h.1, ih h.2⟩

theorem count_erase_eq (w x : Nat) (l : List Nat) (hw : w ∈ l) :
    l.count x = (l.erase w).count x + if x = w then 1 else 0 := by
  by_cases h : x = w
  · subst h
    rw [if_pos rfl, List.count_erase_self]
    have hpos : 0 < l.count x := List.count_pos_iff.mpr hw
    omega
  · rw [if_neg h, List.count_erase_of_ne h]
    omega

/-- A state change that replaces one resource by another with the same wait
queue and rewrites the arena pstat-neutrally keeps the invariant (free
acquire; release with an empty wait queue). -/
theorem inv_passive (s : SimState) (rid : Nat) (r r' : Resource) (P' : List Process)
    (hinv : Inv s) (hr : s.resources.get? rid = some r)
    (hwq : r'.waitqueue = r.waitqueue)
    (hm : P'.map pstat = s.procs.map pstat) :
    Inv { s with procs := P', resources := s.resources.set rid r' } := by
  refine inv_of_pstat hinv rfl ?_ hm
  intro x
  have hws := wsum_set s.resources rid r r' x hr
  rw [hwq] at hws
  show s.readyqueue.count x + wsum (s.resources.set rid r') x = queueCount s x
  rw [queueCount_eq]
  omega

/-- Blocking the running current process on resource `rid`: its status
becomes WAIT and its pid is appended to that wait queue (the occupied
branch of all three acquire variants). -/
theorem inv_block (s : SimState) (rid c : Nat) (p : Process) (r : Resource)
    (P' : List Process) (hinv : Inv s)
    (_hc : s.current = some c) (hp : getProc s.procs c = some p)
    (hprun : p.status = .running)
    (hr : s.resources.get? rid = some r)
    (hm : P'.map pstat
      = (updProc s.procs c (fun q => { q with status := .wait })).map pstat) :
    Inv { s with procs := P', resources := s.resources.set rid { r with waitqueue := r.waitqueue ++ [c] } } := by
  obtain ⟨hnd, hrun, hrc, hoc, hcr⟩ := hinv
  have hpmem := getProc_mem hp
  have hqc0 : queueCount s c = 0 := by
    have h := hrc p hpmem.1 hprun
    rwa [hpmem.2] at h
  have hq : ∀ x, queueCount ⟨P', s.current, s.readyqueue,
      s.resources.set rid { r with waitqueue := r.waitqueue ++ [c] }⟩ x
      = queueCount s x + if x = c then 1 else 0 := by
    intro x
    have hws := wsum_set s.resources rid r { r with waitqueue := r.waitqueue ++ [c] } x hr
    rw [show ({ r with waitqueue := r.waitqueue ++ [c] } : Resource).waitqueue
        = r.waitqueue ++ [c] from rfl, count_append_singleton] at hws
    show s.readyqueue.count x
        + wsum (s.resources.set rid { r with waitqueue := r.waitqueue ++ [c] }) x
        = queueCount s x + if x = c then 1 else 0
    rw [queueCount_eq]
    omega
  have hcorr : ∀ q' ∈ P', ∃ q ∈ s.procs, q'.pid = q.pid ∧
      q'.status = (if q.pid = c then PStatus.wait else q.status) := by
    intro q' hq'
    obtain ⟨q2, hq2, hpid, hst⟩ := mem_pstat_exists hm hq'
    obtain ⟨q, hqmem, he⟩ := mem_updProc hq2
    by_cases hqc : q.pid = c
    · rw [if_pos hqc] at he
      refine ⟨q, hqmem, ?_, ?_⟩
      · rw [hpid, he]
      · rw [hst, he, if_pos hqc]
    · rw [if_neg hqc] at he
      exact ⟨q, hqmem, by rw [hpid, he], by rw [hst, he, if_neg hqc]⟩
  have hnd' : (P'.map Process.pid).Nodup := by
    rw [map_pid_of_map_pstat hm,
      updProc_map_pid s.procs c (fun q => { q with status := .wait }) (fun _ => rfl)]
    exact hnd
  refine ⟨hnd', ?_, ?_, ?_, ?_⟩
  · intro q' hq' hrq
    obtain ⟨q, hqmem, hpid, hst⟩ := hcorr q' hq'
    by_cases hqc : q.pid = c
    · rw [hst, if_pos hqc] at hrq
      cases hrq
    · rw [hst, if_neg hqc] at hrq
      show s.current = some q'.pid
      rw [hpid]
      exact hrun q hqmem hrq
  · intro q' hq' hrq
    obtain ⟨q, hqmem, hpid, hst⟩ := hcorr q' hq'
    by_cases hqc : q.pid = c
    · rw [hst, if_pos hqc] at hrq
      cases hrq
    · rw [hst, if_neg hqc] at hrq
      rw [hq, hpid, if_neg hqc]
      simpa using hrc q hqmem hrq
  · intro q' hq' hrq
    obtain ⟨q, hqmem, hpid, hst⟩ := hcorr q' hq'
    by_cases hqc : q.pid = c
    · rw [hq, hpid, if_pos hqc, hqc, hqc0]
    · rw [hst, if_neg hqc] at hrq
      rw [hq, hpid, if_neg hqc]
      simpa using hoc q hqmem hrq
  · intro q' hq' hcq
    obtain ⟨q, hqmem, hpid, hst⟩ := hcorr q' hq'
    by_cases hqc : q.pid = c
    · rw [hst, if_pos hqc]
      intro h
      cases h
    · rw [hst, if_neg hqc]
      refine hcr q hqmem ?_
      rw [← hpid]
      exact hcq

/-- Waking a waiter `w` of resource `rid`: its status becomes READY, it is
appended to the ready queue's tail, and it leaves the wait queue (the
non-empty branch of all four release variants). -/
theorem inv_wake (s : SimState) (rid c : Nat) (p : Process) (r : Resource)
    (w : Nat) (wq' : List Nat) (o' : Option Nat) (P' : List Process)
    (hinv : Inv s)
    (hc : s.current = some c) (hp : getProc s.procs c = some p)
    (hprun : p.status = .running)
    (hr : s.resources.get? rid = some r)
    (hw : w ∈ r.waitqueue)
    (hcnt : ∀ x, r.waitqueue.count x = wq'.count x + if x = w then 1 else 0)
    (hm : P'.map pstat
      = (updProc s.procs w (fun q => { q with status := .ready })).map pstat) :
    Inv { s with procs := P', readyqueue := s.readyqueue ++ [w], resources := s.resources.set rid { owner := o', waitqueue := wq' } } := by
  obtain ⟨hnd, hrun, hrc, hoc, hcr⟩ := hinv
  have hpmem := getProc_mem hp
  have hqc0 : queueCount s c = 0 := by
    have h := hrc p hpmem.1 hprun
    rwa [hpmem.2] at h
  have hwle : ∀ x, r.waitqueue.count x ≤ wsum s.resources x :=
    fun x => wsum_le_of_get? s.resources rid r x hr
  have hqcw : 1 ≤ queueCount s w := by
    have h1 : 0 < r.waitqueue.count w := List.count_pos_iff.mpr hw
    have h2 := hwle w
    rw [queueCount_eq]
    omega
  have hwc : w ≠ c := by
    intro h
    rw [h, hqc0] at hqcw
    cases hqcw
  have hq : ∀ x, queueCount ⟨P', s.current, s.readyqueue ++ [w],
      s.resources.set rid { owner := o', waitqueue := wq' }⟩ x = queueCount s x := by
    intro x
    have hws := wsum_set s.resources rid r { owner := o', waitqueue := wq' } x hr
    have hcx := hcnt x
    have hlx := hwle x
    show (s.readyqueue ++ [w]).count x
        + wsum (s.resources.set rid { owner := o', waitqueue := wq' }) x = queueCount s x
    rw [count_append_singleton, queueCount_eq]
    have hwq' : ({ owner := o', waitqueue := wq' } : Resource).waitqueue = wq' := rfl
    rw [hwq'] at hws
    omega
  have hcorr : ∀ q' ∈ P', ∃ q ∈ s.procs, q'.pid = q.pid ∧
      q'.status = (if q.pid = w then PStatus.ready else q.status) := by
    intro q' hq'
    obtain ⟨q2, hq2, hpid, hst⟩ := mem_pstat_exists hm hq'
    obtain ⟨q, hqmem, he⟩ := mem_updProc hq2
    by_cases hqw : q.pid = w
    · rw [if_pos hqw] at he
      refine ⟨q, hqmem, ?_, ?_⟩
      · rw [hpid, he]
      · rw [hst, he, if_pos hqw]
    · rw [if_neg hqw] at he
      exact ⟨q, hqmem, by rw [hpid, he], by rw [hst, he, if_neg hqw]⟩
  have hnd' : (P'.map Process.pid).Nodup := by
    rw [map_pid_of_map_pstat hm,
      updProc_map_pid s.procs w (fun q => { q with status := .ready }) (fun _ => rfl)]
    exact hnd
  refine ⟨hnd', ?_, ?_, ?_, ?_⟩
  · intro q' hq' hrq
    obtain ⟨q, hqmem, hpid, hst⟩ := hcorr q' hq'
    by_cases hqw : q.pid = w
    · rw [hst, if_pos hqw] at hrq
      cases hrq
    · rw [hst, if_neg hqw] at hrq
      show s.current = some q'.pid
      rw [hpid]
      exact hrun q hqmem hrq
  · intro q' hq' hrq
    obtain ⟨q, hqmem, hpid, hst⟩ := hcorr q' hq'
    by_cases hqw : q.pid = w
    · rw [hst, if_pos hqw] at hrq
      cases hrq
    · rw [hst, if_neg hqw] at hrq
      rw [hq, hpid]
      exact hrc q hqmem hrq
  · intro q' hq' hrq
    obtain ⟨q, hqmem, hpid, hst⟩ := hcorr q' hq'
    by_cases hqw : q.pid = w
    · rw [hq, hpid, hqw]
      have hqnr : q.status ≠ .running := by
        intro h
        have h0 := hrc q hqmem h
        rw [hqw] at h0
        rw [h0] at hqcw
        cases hqcw
      have h1 := hoc q hqmem hqnr
      rw [hqw] at h1
      exact h1
    · rw [hst, if_neg hqw] at hrq
      rw [hq, hpid]
      exact hoc q hqmem hrq
  · intro q' hq' hcq
    obtain ⟨q, hqmem, hpid, hst⟩ := hcorr q' hq'
    by_cases hqw : q.pid = w
    · exfalso
      have hcq' : s.current = some q'.pid := hcq
      rw [hpid, hqw] at hcq'
      rw [hc] at hcq'
      cases hcq'
      exact hwc rfl
    · rw [hst, if_neg hqw]
      refine hcr q hqmem ?_
      rw [← hpid]
      exact hcq

theorem champion_head_mem (key : Nat → Nat) (hd : Nat) (tl : List Nat) :
    champion key hd (hd :: tl) ∈ hd :: tl := by
  rcases List.mem_cons.mp (champion_mem key hd (hd :: tl)) with h | h
  · rw [h]; exact List.mem_cons_self _ _
  · exact h

theorem championMin_head_mem (key : Nat → Nat) (hd : Nat) (tl : List Nat) :
    championMin key hd (hd :: tl) ∈ hd :: tl := by
  rcases List.mem_cons.mp (championMin_mem key hd (hd :: tl)) with h | h
  · rw [h]; exact List.mem_cons_self _ _
  · exact h

/-! ## Invariant preservation by the resource protocols -/

theorem inv_fcfs_acquire (s : SimState) (rid c : Nat) (p : Process) (hinv : Inv s)
    (hc : s.current = some c) (hp : getProc s.procs c = some p)
    (hprun : p.status = .running) : Inv (fcfs_acquire rid s).2 := by
  cases hr : s.resources.get? rid with
  | none =>
    have he : (fcfs_acquire rid s).2 = s := by unfold fcfs_acquire; rw [hc, hr]
    rw [he]; exact hinv
  | some r =>
    by_cases ho : r.owner = none
    · have he : (fcfs_acquire rid s).2 = { s with resources := s.resources.set rid { r with owner := some c } } := by
        unfold fcfs_acquire; rw [hc, hr]; simp only []; rw [if_pos ho]
      rw [he]
      exact inv_passive s rid r _ s.procs hinv hr rfl rfl
    · have he : (fcfs_acquire rid s).2 = { s with procs := updProc s.procs c (fun q => { q with status := .wait }), resources := s.resources.set rid { r with waitqueue := r.waitqueue ++ [c] } } := by
        unfold fcfs_acquire; rw [hc, hr]; simp only []; rw [if_neg ho]
      rw [he]
      exact inv_block s rid c p r _ hinv hc hp hprun hr rfl

theorem inv_pcp_acquire (maxPrio : Nat) (s : SimState) (rid c : Nat) (p : Process)
    (hinv : Inv s) (hc : s.current = some c) (hp : getProc s.procs c = some p)
    (hprun : p.status = .running) : Inv (pcp_acquire maxPrio rid s).2 := by
  cases hr : s.resources.get? rid with
  | none =>
    have he : (pcp_acquire maxPrio rid s).2 = s := by unfold pcp_acquire; rw [hc, hr]
    rw [he]; exact hinv
  | some r =>
    by_cases ho : r.owner = none
    · have he : (pcp_acquire maxPrio rid s).2 = { s with procs := updProc s.procs c (fun q => { q with prio := maxPrio }), resources := s.resources.set rid { r with owner := some c } } := by
        unfold pcp_acquire; rw [hc, hr]; simp only []; rw [if_pos ho]
      rw [he]
      exact inv_passive s rid r _ _ hinv hr rfl
        (updProc_map_pstat s.procs c (fun q => { q with prio := maxPrio }) (fun _ => rfl))
    · have he : (pcp_acquire maxPrio rid s).2 = { s with procs := updProc s.procs c (fun q => { q with status := .wait }), resources := s.resources.set rid { r with waitqueue := r.waitqueue ++ [c] } } := by
        unfold pcp_acquire; rw [hc, hr]; simp only []; rw [if_neg ho]
      rw [he]
      exact inv_block s rid c p r _ hinv hc hp hprun hr rfl

theorem inv_pip_acquire (s : SimState) (rid c : Nat) (p : Process) (hinv : Inv s)
    (hc : s.current = some c) (hp : getProc s.procs c = some p)
    (hprun : p.status = .running) : Inv (pip_acquire rid s).2 := by
  cases hr : s.resources.get? rid with
  | none =>
    have he : (pip_acquire rid s).2 = s := by unfold pip_acquire; rw [hc, hr]
    rw [he]; exact hinv
  | some r =>
    cases ho : r.owner with
    | none =>
      have he : (pip_acquire rid s).2 = { s with resources := s.resources.set rid { r with owner := some c } } := by
        unfold pip_acquire; rw [hc, hr]; simp only []; rw [ho]
      rw [he]
      exact inv_passive s rid r _ s.procs hinv hr rfl rfl
    | some o =>
      have he : (pip_acquire rid s).2 = { s with procs := updProc (updProc s.procs o (fun q => { q with prio := prioIn s.procs c })) c (fun q => { q with status := .wait }), resources := s.resources.set rid { r with waitqueue := r.waitqueue ++ [c] } } := by
        unfold pip_acquire; rw [hc, hr]; simp only []; rw [ho]
      rw [he]
      refine inv_block s rid c p r _ hinv hc hp hprun hr ?_
      exact updProc_map_pstat_congr c .wait
        (updProc_map_pstat s.procs o (fun q => { q with prio := prioIn s.procs c }) (fun _ => rfl))

theorem inv_fcfs_release (s : SimState) (rid c : Nat) (p : Process) (hinv : Inv s)
    (hc : s.current = some c) (hp : getProc s.procs c = some p)
    (hprun : p.status = .running) : Inv (fcfs_release rid s) := by
  cases hr : s.resources.get? rid with
  | none =>
    have he : fcfs_release rid s = s := by unfold fcfs_release; rw [hr]
    rw [he]; exact hinv
  | some r =>
    cases hwq : r.waitqueue with
    | nil =>
      have he : fcfs_release rid s = { s with resources := s.resources.set rid { r with owner := none } } := by
        unfold fcfs_release; rw [hr]; simp only []; rw [hwq]
      rw [he]
      exact inv_passive s rid r _ s.procs hinv hr rfl rfl
    | cons w rest =>
      have he : fcfs_release rid s = { s with procs := updProc s.procs w (fun q => { q with status := .ready }), readyqueue := s.readyqueue ++ [w], resources := s.resources.set rid { owner := none, waitqueue := rest } } := by
        unfold fcfs_release; rw [hr]; simp only []; rw [hwq]
      rw [he]
      refine inv_wake s rid c p r w rest none _ hinv hc hp hprun hr ?_ ?_ rfl
      · rw [hwq]; exact List.mem_cons_self _ _
      · intro x
        rw [hwq, count_cons_eq]

theorem inv_prio_release (s : SimState) (rid c : Nat) (p : Process) (hinv : Inv s)
    (hc : s.current = some c) (hp : getProc s.procs c = some p)
    (hprun : p.status = .running) : Inv (prio_release rid s) := by
  cases hr : s.resources.get? rid with
  | none =>
    have he : prio_release rid s = s := by unfold prio_release; rw [hr]
    rw [he]; exact hinv
  | some r =>
    cases hwq : r.waitqueue with
    | nil =>
      have he : prio_release rid s = { s with resources := s.resources.set rid { r with owner := none } } := by
        unfold prio_release; rw [hr]; simp only []; rw [hwq]
      rw [he]
      exact inv_passive s rid r _ s.procs hinv hr rfl rfl
    | cons hd tl =>
      have hwmem : champion (prioIn s.procs) hd (hd :: tl) ∈ hd :: tl :=
        champion_head_mem _ hd tl
      have he : prio_release rid s = { s with procs := updProc s.procs (champion (prioIn s.procs) hd (hd :: tl)) (fun q => { q with status := .ready }), readyqueue := s.readyqueue ++ [champion (prioIn s.procs) hd (hd :: tl)], resources := s.resources.set rid { owner := none, waitqueue := (hd :: tl).erase (champion (prioIn s.procs) hd (hd :: tl)) } } := by
        unfold prio_release; rw [hr]; simp only []; rw [hwq]
      rw [he]
      refine inv_wake s rid c p r _ _ none _ hinv hc hp hprun hr ?_ ?_ rfl
      · rw [hwq]; exact hwmem
      · intro x
        rw [hwq]
        exact count_erase_eq _ x _ hwmem

theorem inv_pcp_release (s : SimState) (rid c : Nat) (p : Process) (hinv : Inv s)
    (hc : s.current = some c) (hp : getProc s.procs c = some p)
    (hprun : p.status = .running) : Inv (pcp_release rid s) := by
  cases hr : s.resources.get? rid with
  | none =>
    have he : pcp_release rid s = s := by unfold pcp_release; rw [hc, hr]
    rw [he]; exact hinv
  | some r =>
    cases hwq : r.waitqueue with
    | nil =>
      have he : pcp_release rid s = { s with procs := updProc s.procs c (fun q => { q with prio := q.prio_orig }), resources := s.resources.set rid { r with owner := none } } := by
        unfold pcp_release; rw [hc, hr]; simp only []; rw [hwq]
      rw [he]
      exact inv_passive s rid r _ _ hinv hr rfl
        (updProc_map_pstat s.procs c (fun q => { q with prio := q.prio_orig }) (fun _ => rfl))
    | cons w rest =>
      have he : pcp_release rid s = { s with procs := updProc (updProc s.procs c (fun q => { q with prio := q.prio_orig })) w (fun q => { q with status := .ready }), readyqueue := s.readyqueue ++ [w], resources := s.resources.set rid { owner := none, waitqueue := rest } } := by
        unfold pcp_release; rw [hc, hr]; simp only []; rw [hwq]
      rw [he]
      refine inv_wake s rid c p r w rest none _ hinv hc hp hprun hr ?_ ?_ ?_
      · rw [hwq]; exact List.mem_cons_self _ _
      · intro x
        rw [hwq, count_cons_eq]
      · exact updProc_map_pstat_congr w .ready
          (updProc_map_pstat s.procs c (fun q => { q with prio := q.prio_orig }) (fun _ => rfl))

theorem inv_pip_release (s : SimState) (rid c : Nat) (p : Process) (r0 : Resource)
    (hinv : Inv s) (hc : s.current = some c) (hp : getProc s.procs c = some p)
    (hprun : p.status = .running)
    (hr0 : s.resources.get? rid = some r0) (howner : r0.owner = some c) :
    Inv (pip_release rid s) := by
  have hor : getProc s.procs c = some p := hp
  cases hwq : r0.waitqueue with
  | nil =>
    have he : pip_release rid s = { s with procs := updProc s.procs c (fun q => { q with prio := match getProc s.procs c with | some p => p.prio_orig | none => 0 }), resources := s.resources.set rid { r0 with owner := none } } := by
      unfold pip_release; rw [hc, hr0]; simp only []; rw [howner]; simp only []; rw [hwq]
    rw [he]
    exact inv_passive s rid r0 _ _ hinv hr0 rfl
      (updProc_map_pstat s.procs c _ (fun _ => rfl))
  | cons hd tl =>
    have hwmem : champion (prioIn (updProc s.procs c (fun q => { q with prio := match getProc s.procs c with | some p => p.prio_orig | none => 0 }))) hd (hd :: tl) ∈ hd :: tl :=
      champion_head_mem _ hd tl
    have he : pip_release rid s = { s with procs := updProc (updProc s.procs c (fun q => { q with prio := match getProc s.procs c with | some p => p.prio_orig | none => 0 })) (champion (prioIn (updProc s.procs c (fun q => { q with prio := match getProc s.procs c with | some p => p.prio_orig | none => 0 }))) hd (hd :: tl)) (fun q => { q with status := .ready }), readyqueue := s.readyqueue ++ [champion (prioIn (updProc s.procs c (fun q => { q with prio := match getProc s.procs c with | some p => p.prio_orig | none => 0 }))) hd (hd :: tl)], resources := s.resources.set rid { owner := none, waitqueue := (hd :: tl).erase (champion (prioIn (updProc s.procs c (fun q => { q with prio := match getProc s.procs c with | some p => p.prio_orig | none => 0 }))) hd (hd :: tl)) } } := by
      unfold pip_release; rw [hc, hr0]; simp only []; rw [howner]; simp only []; rw [hwq]
    rw [he]
    refine inv_wake s rid c p r0 _ _ none _ hinv hc hp hprun hr0 ?_ ?_ ?_
    · rw [hwq]; exact hwmem
    · intro x
      rw [hwq]
      exact count_erase_eq _ x _ hwmem
    · exact updProc_map_pstat_congr _ .ready
        (updProc_map_pstat s.procs c _ (fun _ => rfl))

/-! ## Invariant preservation by the driver schedule call -/

theorem getProc_skel_transfer {procs procs' : List Process}
    (hmap : procs.map skel = procs'.map skel) {x : Nat} {p : Process}
    (hp : getProc procs' x = some p) :
    ∃ p1, getProc procs x = some p1 ∧ p1.pid = p.pid ∧ p1.status = p.status ∧
      p1.age = p.age ∧ p1.lifespan = p.lifespan := by
  have hg := getProc_skel_eq hmap x
  rw [hp] at hg
  cases hg' : getProc procs x with
  | none => rw [hg'] at hg; cases hg
  | some p1 =>
    rw [hg'] at hg
    have h2 : some (skel p1) = some (skel p) := hg
    have hsk : skel p1 = skel p := Option.some.inj h2
    exact ⟨p1, rfl, congrArg (fun t => t.1) hsk, congrArg (fun t => t.2.1) hsk,
      congrArg (fun t => t.2.2.1) hsk, congrArg (fun t => t.2.2.2) hsk⟩

theorem set_status_eq_self {p : Process} {st : PStatus} (h : p.status = st) :
    ({ p with status := st } : Process) = p := by
  cases p
  cases h
  rfl

theorem setStatus_eq_self {s : SimState} {c : Nat} {p : Process} {st : PStatus}
    (hnd : (s.procs.map Process.pid).Nodup)
    (hp : getProc s.procs c = some p) (hst : p.status = st) :
    setStatus s c st = s := by
  unfold setStatus
  have h : updProc s.procs c (fun q => { q with status := st }) = s.procs := by
    refine updProc_eq_self ?_
    intro q hq hqc
    have hg := getProc_of_mem_nodup hq hnd
    rw [hqc, hp] at hg
    cases hg
    exact set_status_eq_self hst
  rw [h]

theorem qc_zero_of_running {s : SimState} (hinv : Inv s) {c : Nat} {p : Process}
    (hp : getProc s.procs c = some p) (hprun : p.status = .running) :
    queueCount s c = 0 := by
  have hpmem := getProc_mem hp
  have h := hinv.2.2.1 p hpmem.1 hprun
  rwa [hpmem.2] at h

theorem not_mem_ready_of_running {s : SimState} (hinv : Inv s) {c : Nat} {p : Process}
    (hp : getProc s.procs c = some p) (hprun : p.status = .running) :
    c ∉ s.readyqueue := by
  have h := qc_zero_of_running hinv hp hprun
  rw [queueCount_eq] at h
  intro hmem
  have hpos := List.count_pos_iff.mpr hmem
  omega

theorem erase_append_self (q : List Nat) (c : Nat) (h : c ∉ q) :
    (q ++ [c]).erase c = q := by
  rw [List.erase_append_right _ h, List.erase_cons_head, List.append_nil]

/-- Under the invariant, a continuing current process (`keepsRunning`) is
in the RUNNING state. -/
theorem keeps_running_record {s : SimState} (hinv : Inv s) (hk : keepsRunning s) :
    ∃ c p, s.current = some c ∧ getProc s.procs c = some p ∧
      p.status = .running ∧ p.age < p.lifespan := by
  obtain ⟨c, p, hc, hp, hnw, hage⟩ := hk
  refine ⟨c, p, hc, hp, ?_, hage⟩
  have hpmem := getProc_mem hp
  have hnr : p.status ≠ .ready := hinv.2.2.2.2 p hpmem.1 (by rw [hpmem.2]; exact hc)
  cases hst : p.status with
  | ready => exact absurd hst hnr
  | running => rfl
  | wait => exact absurd hst hnw

/-- Driver case: the policy kept the current process running and left the
queues unchanged. -/
theorem inv_driver_keep (s s1 : SimState) (c : Nat) (p : Process)
    (hinv : Inv s)
    (hc : s.current = some c) (hp : getProc s.procs c = some p)
    (hprun : p.status = .running)
    (hres : s1.resources = s.resources)
    (hmap : s1.procs.map skel = s.procs.map skel)
    (hrq : s1.readyqueue = s.readyqueue) :
    Inv (setCurrent (some c) (handleOld (some c) s.current s1)) := by
  obtain ⟨p1, hp1, hpid1, hst1, hage1, hls1⟩ := getProc_skel_transfer hmap hp
  have hrun1 : p1.status = .running := by rw [hst1]; exact hprun
  have hHO : handleOld (some c) s.current s1 = s1 := by
    unfold handleOld
    rw [hc]
    simp only []
    rw [hp1]
    simp only []
    rw [if_pos hrun1]
    simp only [if_true]
  rw [hHO]
  have hnd1 : (s1.procs.map Process.pid).Nodup := by
    rw [map_pid_of_map_skel hmap]
    exact hinv.1
  have hsc : setCurrent (some c) s1 = { setStatus s1 c .running with current := some c } := rfl
  rw [hsc, setStatus_eq_self hnd1 hp1 hrun1]
  refine inv_of_pstat hinv ?_ ?_ (map_pstat_of_map_skel hmap)
  · show some c = s.current
    rw [hc]
  · intro x
    show s1.readyqueue.count x + wsum s1.resources x = queueCount s x
    rw [hrq, hres, queueCount_eq]

/-- Driver case: the policy requeued the running current process `c` at the
ready queue's tail and elected `n` from the combined queue. -/
theorem inv_driver_requeue (s s1 : SimState) (c n : Nat) (p : Process)
    (hinv : Inv s)
    (hc : s.current = some c) (hp : getProc s.procs c = some p)
    (hprun : p.status = .running) (hage : p.age < p.lifespan)
    (hres : s1.resources = s.resources)
    (hmap : s1.procs.map skel = s.procs.map skel)
    (hn : n ∈ s.readyqueue ++ [c])
    (hrq : s1.readyqueue = (s.readyqueue ++ [c]).erase n) :
    Inv (setCurrent (some n) (handleOld (some n) s.current s1)) := by
  obtain ⟨p1, hp1, hpid1, hst1, hage1, hls1⟩ := getProc_skel_transfer hmap hp
  have hrun1 : p1.status = .running := by rw [hst1]; exact hprun
  have hage1' : p1.age < p1.lifespan := by rw [hage1, hls1]; exact hage
  have hqc0 : queueCount s c = 0 := qc_zero_of_running hinv hp hprun
  have hcq : c ∉ s.readyqueue := not_mem_ready_of_running hinv hp hprun
  have hnd1 : (s1.procs.map Process.pid).Nodup := by
    rw [map_pid_of_map_skel hmap]; exact hinv.1
  by_cases hnc : n = c
  · subst hnc
    have hHO : handleOld (some n) s.current s1 = s1 := by
      unfold handleOld
      rw [hc]
      simp only []
      rw [hp1]
      simp only []
      rw [if_pos hrun1]
      simp only [if_true]
    rw [hHO]
    have hsc : setCurrent (some n) s1 = { setStatus s1 n .running with current := some n } := rfl
    rw [hsc, setStatus_eq_self hnd1 hp1 hrun1]
    refine inv_of_pstat hinv ?_ ?_ (map_pstat_of_map_skel hmap)
    · show some n = s.current
      rw [hc]
    · intro x
      show s1.readyqueue.count x + wsum s1.resources x = queueCount s x
      rw [hrq, hres, erase_append_self s.readyqueue n hcq, queueCount_eq]
  · have hne : ¬((some n : Option Nat) = some c) := fun h => hnc (Option.some.inj h)
    have hHO : handleOld (some n) s.current s1 = setStatus s1 c .ready := by
      unfold handleOld
      rw [hc]
      simp only []
      rw [hp1]
      simp only []
      rw [if_pos hrun1, if_neg hne, if_pos hage1']
    rw [hHO]
    have hnmem : n ∈ s.readyqueue := by
      rcases List.mem_append.mp hn with h | h
      · exact h
      · exact absurd (List.mem_singleton.mp h) hnc
    have hsc : setCurrent (some n) (setStatus s1 c .ready)
        = { setStatus (setStatus s1 c .ready) n .running with current := some n } := rfl
    rw [hsc]
    have hqcT : ∀ x, ((s.readyqueue ++ [c]).erase n).count x + (if x = n then 1 else 0)
        = s.readyqueue.count x + (if x = c then 1 else 0) := by
      intro x
      have h1 := count_erase_eq n x (s.readyqueue ++ [c]) hn
      have h2 := count_append_singleton x c s.readyqueue
      omega
    have hcorr : ∀ q' ∈ updProc (updProc s1.procs c (fun q => { q with status := .ready }))
        n (fun q => { q with status := .running }), ∃ q ∈ s.procs, q'.pid = q.pid ∧
        q'.status = (if q.pid = n then PStatus.running else if q.pid = c then PStatus.ready
          else q.status) := by
      intro q' hq'
      obtain ⟨q2, hq2, he2⟩ := mem_updProc hq'
      obtain ⟨q3, hq3, he3⟩ := mem_updProc hq2
      obtain ⟨q, hq, hpid, hst⟩ := mem_pstat_exists (map_pstat_of_map_skel hmap) hq3
      by_cases h3c : q3.pid = c
      · rw [if_pos h3c] at he3
        have h2n : q2.pid ≠ n := by
          rw [he3]
          show q3.pid ≠ n
          rw [h3c]
          exact fun h => hnc h.symm
        rw [if_neg h2n] at he2
        refine ⟨q, hq, ?_, ?_⟩
        · rw [he2, he3]
          show q3.pid = q.pid
          exact hpid
        · rw [he2, he3]
          show PStatus.ready = _
          rw [if_neg (show q.pid ≠ n from by rw [← hpid, h3c]; exact fun h => hnc h.symm),
            if_pos (show q.pid = c from by rw [← hpid]; exact h3c)]
      · rw [if_neg h3c] at he3
        subst he3
        by_cases h2n : q2.pid = n
        · rw [if_pos h2n] at he2
          refine ⟨q, hq, ?_, ?_⟩
          · rw [he2]
            show q2.pid = q.pid
            exact hpid
          · rw [he2]
            show PStatus.running = _
            rw [if_pos (show q.pid = n from by rw [← hpid]; exact h2n)]
        · rw [if_neg h2n] at he2
          subst he2
          refine ⟨q, hq, hpid, ?_⟩
          rw [if_neg (show q.pid ≠ n from by rw [← hpid]; exact h2n),
            if_neg (show q.pid ≠ c from by rw [← hpid]; exact h3c)]
          exact hst
    have hndT : ((updProc (updProc s1.procs c (fun q => { q with status := .ready }))
        n (fun q => { q with status := .running })).map Process.pid).Nodup := by
      rw [updProc_map_pid _ n (fun q => { q with status := .running }) (fun _ => rfl),
        updProc_map_pid s1.procs c (fun q => { q with status := .ready }) (fun _ => rfl)]
      exact hnd1
    refine ⟨hndT, ?_, ?_, ?_, ?_⟩
    · intro q' hq' hrq'
      obtain ⟨q, hq, hpidq, hstq⟩ := hcorr q' hq'
      by_cases hqn : q.pid = n
      · show some n = some q'.pid
        rw [hpidq, hqn]
      · rw [if_neg hqn] at hstq
        by_cases hqc : q.pid = c
        · rw [if_pos hqc] at hstq
          rw [hstq] at hrq'
          cases hrq'
        · rw [if_neg hqc] at hstq
          rw [hstq] at hrq'
          have h0 := hinv.2.1 q hq hrq'
          rw [hc] at h0
          exact absurd (Option.some.inj h0).symm hqc
    · intro q' hq' hrq'
      obtain ⟨q, hq, hpidq, hstq⟩ := hcorr q' hq'
      by_cases hqn : q.pid = n
      · have hqnr : q.status ≠ .running := by
          intro h
          have h0 := hinv.2.2.1 q hq h
          rw [hqn] at h0
          rw [queueCount_eq] at h0
          have hpos := List.count_pos_iff.mpr hnmem
          omega
        have hq1 : queueCount s n = 1 := by
          have h0 := hinv.2.2.2.1 q hq hqnr
          rwa [hqn] at h0
        show queueCount ⟨_, _, s1.readyqueue, s1.resources⟩ q'.pid = 0
        rw [queueCount_eq]
        show s1.readyqueue.count q'.pid + wsum s1.resources q'.pid = 0
        rw [hpidq, hqn, hrq, hres]
        have h1 := hqcT n
        rw [queueCount_eq] at hq1
        rw [if_pos rfl] at h1
        rw [if_neg (fun h : n = c => hnc h)] at h1
        omega
      · rw [if_neg hqn] at hstq
        by_cases hqc : q.pid = c
        · rw [if_pos hqc] at hstq
          rw [hstq] at hrq'
          cases hrq'
        · rw [if_neg hqc] at hstq
          rw [hstq] at hrq'
          have h0 := hinv.2.1 q hq hrq'
          rw [hc] at h0
          exact absurd (Option.some.inj h0).symm hqc
    · intro q' hq' hrq'
      obtain ⟨q, hq, hpidq, hstq⟩ := hcorr q' hq'
      by_cases hqn : q.pid = n
      · rw [if_pos hqn] at hstq
        rw [hstq] at hrq'
        exact absurd rfl hrq'
      · rw [if_neg hqn] at hstq
        show queueCount ⟨_, _, s1.readyqueue, s1.resources⟩ q'.pid = 1
        rw [queueCount_eq]
        show s1.readyqueue.count q'.pid + wsum s1.resources q'.pid = 1
        rw [hpidq, hrq, hres]
        by_cases hqc : q.pid = c
        · have h1 := hqcT c
          rw [if_neg (fun h : c = n => hnc h.symm), if_pos rfl] at h1
          have hcnt0 : s.readyqueue.count c = 0 := List.count_eq_zero.mpr hcq
          have hq0 : queueCount s c = 0 := hqc0
          rw [queueCount_eq] at hq0
          rw [hqc]
          omega
        · rw [if_neg hqc] at hstq
          rw [hstq] at hrq'
          have h1 := hqcT q.pid
          rw [if_neg hqn, if_neg hqc] at h1
          have hq1 : queueCount s q.pid = 1 := hinv.2.2.2.1 q hq hrq'
          rw [queueCount_eq] at hq1
          omega
    · intro q' hq' hcq'
      obtain ⟨q, hq, hpidq, hstq⟩ := hcorr q' hq'
      have hq'n : q'.pid = n := by
        have h0 : (some n : Option Nat) = some q'.pid := hcq'
        exact (Option.some.inj h0).symm
      have hqn : q.pid = n := by rw [← hpidq]; exact hq'n
      rw [if_pos hqn] at hstq
      rw [hstq]
      intro h
      cases h

/-- After `handleOld` in a tick where the current process does not continue
(`¬ keepsRunning`), the surviving arena has no RUNNING record, corresponds
pstat-wise to the original arena, and keeps the queues. -/
theorem handleOld_cases (s s1 : SimState) (next : Option Nat)
    (hinv : Inv s) (hnk : ¬ keepsRunning s)
    (hmap : s1.procs.map skel = s.procs.map skel)
    (hnextc : ∀ c p0, s.current = some c → getProc s.procs c = some p0 →
      p0.status = .running → next ≠ some c) :
    ∃ u, handleOld next s.current s1 = u ∧
      u.readyqueue = s1.readyqueue ∧ u.resources = s1.resources ∧
      (∀ q ∈ s.procs, q.status = .running → ∀ q' ∈ u.procs, q'.pid ≠ q.pid) ∧
      (∀ q' ∈ u.procs, ∃ q ∈ s.procs, q'.pid = q.pid ∧ q'.status = q.status) ∧
      (u.procs.map Process.pid).Nodup := by
  have hnd1 : (s1.procs.map Process.pid).Nodup := by
    rw [map_pid_of_map_skel hmap]; exact hinv.1
  have hcorr1 : ∀ q' ∈ s1.procs, ∃ q ∈ s.procs, q'.pid = q.pid ∧ q'.status = q.status :=
    fun q' hq' => mem_pstat_exists (map_pstat_of_map_skel hmap) hq'
  cases hcur : s.current with
  | none =>
    refine ⟨s1, rfl, rfl, rfl, ?_, hcorr1, hnd1⟩
    · intro q hq hrq q' hq'
      have h0 := hinv.2.1 q hq hrq
      rw [hcur] at h0
      cases h0
  | some c =>
    cases hg1 : getProc s1.procs c with
    | none =>
      refine ⟨s1, ?_, rfl, rfl, ?_, hcorr1, hnd1⟩
      · unfold handleOld
        simp only []
        rw [hg1]
      · intro q hq hrq q' hq'
        have h0 := hinv.2.1 q hq hrq
        rw [hcur] at h0
        have hqc : q.pid = c := (Option.some.inj h0).symm
        have hgq : getProc s.procs c = some q := by
          rw [← hqc]
          exact getProc_of_mem_nodup hq hinv.1
        obtain ⟨p1, hp1, _, _, _, _⟩ := getProc_skel_transfer hmap hgq
        rw [hg1] at hp1
        cases hp1
    | some p1 =>
      obtain ⟨p0, hp0, hpid0, hst0, hage0, hls0⟩ := getProc_skel_transfer hmap.symm hg1
      have hp0mem := getProc_mem hp0
      cases hst1 : p1.status with
      | ready =>
        exfalso
        have h0 := hinv.2.2.2.2 p0 hp0mem.1 (by rw [hp0mem.2]; exact hcur)
        rw [hst0, hst1] at h0
        exact h0 rfl
      | wait =>
        refine ⟨s1, ?_, rfl, rfl, ?_, hcorr1, hnd1⟩
        · unfold handleOld
          simp only []
          rw [hg1]
          simp only []
          rw [if_neg (show ¬(p1.status = PStatus.running) from by
            intro h; rw [hst1] at h; cases h)]
        · intro q hq hrq q' hq'
          have h0 := hinv.2.1 q hq hrq
          rw [hcur] at h0
          have hqc : q.pid = c := (Option.some.inj h0).symm
          have hgq : getProc s.procs c = some q := by
            rw [← hqc]
            exact getProc_of_mem_nodup hq hinv.1
          rw [hp0] at hgq
          cases hgq
          rw [hst0, hst1] at hrq
          cases hrq
      | running =>
        have hrun0 : p0.status = .running := by rw [hst0, hst1]
        have hnw0 : p0.status ≠ .wait := by
          rw [hrun0]
          intro h
          cases h
        have hnolt : ¬ (p0.age < p0.lifespan) := by
          intro hlt
          exact hnk ⟨c, p0, hcur, hp0, hnw0, hlt⟩
        have hnolt1 : ¬ (p1.age < p1.lifespan) := by
          rw [← hage0, ← hls0]
          exact hnolt
        have hne := hnextc c p0 hcur hp0 hrun0
        refine ⟨removeProc s1 c, ?_, rfl, rfl, ?_, ?_, ?_⟩
        · unfold handleOld
          simp only []
          rw [hg1]
          simp only []
          rw [if_pos hst1, if_neg hne, if_neg hnolt1]
        · intro q hq hrq q' hq'
          have h0 := hinv.2.1 q hq hrq
          rw [hcur] at h0
          have hqc : q.pid = c := (Option.some.inj h0).symm
          have hmf := List.mem_filter.mp hq'
          have hne' : q'.pid ≠ c := by
            have := hmf.2
            simpa using this
          rw [hqc]
          exact hne'
        · intro q' hq'
          have hmf := List.mem_filter.mp hq'
          exact hcorr1 q' hmf.1
        · show ((s1.procs.filter (fun p => p.pid ≠ c)).map Process.pid).Nodup
          exact hnd1.sublist ((s1.procs.filter_sublist).map Process.pid)

/-- Installing a freshly elected process `n` from the ready queue into the
current slot, after the old current's disposal. -/
theorem inv_install_pick (s u : SimState) (n : Nat)
    (hinv : Inv s)
    (hres : u.resources = s.resources)
    (hrq : u.readyqueue = s.readyqueue.erase n)
    (hn : n ∈ s.readyqueue)
    (hnorun : ∀ q ∈ s.procs, q.status = .running → ∀ q' ∈ u.procs, q'.pid ≠ q.pid)
    (hcorr : ∀ q' ∈ u.procs, ∃ q ∈ s.procs, q'.pid = q.pid ∧ q'.status = q.status)
    (hnd : (u.procs.map Process.pid).Nodup) :
    Inv { setStatus u n .running with current := some n } := by
  have hnpos : 0 < s.readyqueue.count n := List.count_pos_iff.mpr hn
  have hcorrT : ∀ q' ∈ updProc u.procs n (fun q => { q with status := .running }),
      ∃ q ∈ s.procs, q'.pid = q.pid ∧
        q'.status = (if q.pid = n then PStatus.running else q.status) := by
    intro q' hq'
    obtain ⟨q2, hq2, he2⟩ := mem_updProc hq'
    obtain ⟨q, hq, hpid, hst⟩ := hcorr q2 hq2
    by_cases h2n : q2.pid = n
    · rw [if_pos h2n] at he2
      refine ⟨q, hq, ?_, ?_⟩
      · rw [he2]
        show q2.pid = q.pid
        exact hpid
      · rw [he2]
        show PStatus.running = _
        rw [if_pos (show q.pid = n from by rw [← hpid]; exact h2n)]
    · rw [if_neg h2n] at he2
      subst he2
      refine ⟨q, hq, hpid, ?_⟩
      rw [if_neg (show q.pid ≠ n from by rw [← hpid]; exact h2n)]
      exact hst
  have hndT : ((updProc u.procs n (fun q => { q with status := .running })).map
      Process.pid).Nodup := by
    rw [updProc_map_pid u.procs n (fun q => { q with status := .running }) (fun _ => rfl)]
    exact hnd
  refine ⟨hndT, ?_, ?_, ?_, ?_⟩
  · intro q' hq' hrq'
    obtain ⟨q, hq, hpidq, hstq⟩ := hcorrT q' hq'
    by_cases hqn : q.pid = n
    · show some n = some q'.pid
      rw [hpidq, hqn]
    · rw [if_neg hqn] at hstq
      rw [hstq] at hrq'
      exfalso
      obtain ⟨q2, hq2, he2⟩ := mem_updProc hq'
      obtain ⟨q3, hq3, hpid3, _⟩ := hcorr q2 hq2
      have h2pid : q'.pid = q2.pid := by
        by_cases h2n : q2.pid = n
        · rw [if_pos h2n] at he2
          rw [he2]
        · rw [if_neg h2n] at he2
          rw [he2]
      exact hnorun q hq hrq' q2 hq2 (by rw [← h2pid, hpidq])
  · intro q' hq' hrq'
    obtain ⟨q, hq, hpidq, hstq⟩ := hcorrT q' hq'
    by_cases hqn : q.pid = n
    · have hqnr : q.status ≠ .running := by
        intro h
        have h0 := hinv.2.2.1 q hq h
        rw [hqn, queueCount_eq] at h0
        omega
      have hq1 : queueCount s n = 1 := by
        have h0 := hinv.2.2.2.1 q hq hqnr
        rwa [hqn] at h0
      show queueCount ⟨_, _, u.readyqueue, u.resources⟩ q'.pid = 0
      rw [queueCount_eq]
      show u.readyqueue.count q'.pid + wsum u.resources q'.pid = 0
      rw [hpidq, hqn, hrq, hres, List.count_erase_self]
      rw [queueCount_eq] at hq1
      omega
    · rw [if_neg hqn] at hstq
      rw [hstq] at hrq'
      exfalso
      obtain ⟨q2, hq2, he2⟩ := mem_updProc hq'
      have h2pid : q'.pid = q2.pid := by
        by_cases h2n : q2.pid = n
        · rw [if_pos h2n] at he2
          rw [he2]
        · rw [if_neg h2n] at he2
          rw [he2]
      exact hnorun q hq hrq' q2 hq2 (by rw [← h2pid, hpidq])
  · intro q' hq' hrq'
    obtain ⟨q, hq, hpidq, hstq⟩ := hcorrT q' hq'
    by_cases hqn : q.pid = n
    · rw [if_pos hqn] at hstq
      rw [hstq] at hrq'
      exact absurd rfl hrq'
    · rw [if_neg hqn] at hstq
      rw [hstq] at hrq'
      have hq1 : queueCount s q.pid = 1 := hinv.2.2.2.1 q hq hrq'
      show queueCount ⟨_, _, u.readyqueue, u.resources⟩ q'.pid = 1
      rw [queueCount_eq]
      show u.readyqueue.count q'.pid + wsum u.resources q'.pid = 1
      rw [hpidq, hrq, hres, List.count_erase_of_ne (fun h : q.pid = n => hqn h)]
      rw [queueCount_eq] at hq1
      omega
  · intro q' hq' hcq'
    obtain ⟨q, hq, hpidq, hstq⟩ := hcorrT q' hq'
    have hq'n : q'.pid = n := by
      have h0 : (some n : Option Nat) = some q'.pid := hcq'
      exact (Option.some.inj h0).symm
    have hqn : q.pid = n := by rw [← hpidq]; exact hq'n
    rw [if_pos hqn] at hstq
    rw [hstq]
    intro h
    cases h

/-- Clearing the current slot when nothing is elected. -/
theorem inv_install_none (s u : SimState)
    (hinv : Inv s)
    (hres : u.resources = s.resources)
    (hrq : u.readyqueue = s.readyqueue)
    (hnorun : ∀ q ∈ s.procs, q.status = .running → ∀ q' ∈ u.procs, q'.pid ≠ q.pid)
    (hcorr : ∀ q' ∈ u.procs, ∃ q ∈ s.procs, q'.pid = q.pid ∧ q'.status = q.status)
    (hnd : (u.procs.map Process.pid).Nodup) :
    Inv { u with current := none } := by
  refine ⟨hnd, ?_, ?_, ?_, ?_⟩
  · intro q' hq' hrq'
    obtain ⟨q, hq, hpidq, hstq⟩ := hcorr q' hq'
    rw [hstq] at hrq'
    exact absurd (hpidq ▸ hnorun q hq hrq' q' hq') (fun h => h rfl)
  · intro q' hq' hrq'
    obtain ⟨q, hq, hpidq, hstq⟩ := hcorr q' hq'
    rw [hstq] at hrq'
    exact absurd (hpidq ▸ hnorun q hq hrq' q' hq') (fun h => h rfl)
  · intro q' hq' hrq'
    obtain ⟨q, hq, hpidq, hstq⟩ := hcorr q' hq'
    have hq1 : queueCount s q.pid = 1 := by
      refine hinv.2.2.2.1 q hq ?_
      rw [← hstq]
      exact hrq'
    show queueCount ⟨_, _, u.readyqueue, u.resources⟩ q'.pid = 1
    rw [queueCount_eq]
    show u.readyqueue.count q'.pid + wsum u.resources q'.pid = 1
    rw [hpidq, hrq, hres]
    rw [queueCount_eq] at hq1
    omega
  · intro q' hq' hcq'
    cases hcq'

theorem inv_driver_pick (s s1 : SimState) (n : Nat)
    (hinv : Inv s) (hnk : ¬ keepsRunning s)
    (hres : s1.resources = s.resources)
    (hmap : s1.procs.map skel = s.procs.map skel)
    (hn : n ∈ s.readyqueue)
    (hrq : s1.readyqueue = s.readyqueue.erase n) :
    Inv (setCurrent (some n) (handleOld (some n) s.current s1)) := by
  have hnextc : ∀ c p0, s.current = some c → getProc s.procs c = some p0 →
      p0.status = .running → (some n : Option Nat) ≠ some c := by
    intro c p0 _ hp0 hrun0 heq
    have hcq := not_mem_ready_of_running hinv hp0 hrun0
    rw [Option.some.inj heq] at hn
    exact hcq hn
  obtain ⟨u, hu, hur, hures, hnorun, hcorr, hnd⟩ :=
    handleOld_cases s s1 (some n) hinv hnk hmap hnextc
  rw [hu]
  have hsc : setCurrent (some n) u = { setStatus u n .running with current := some n } := rfl
  rw [hsc]
  exact inv_install_pick s u n hinv (by rw [hures, hres]) (by rw [hur, hrq]) hn hnorun hcorr hnd

theorem inv_driver_none (s s1 : SimState)
    (hinv : Inv s) (hnk : ¬ keepsRunning s)
    (hres : s1.resources = s.resources)
    (hmap : s1.procs.map skel = s.procs.map skel)
    (hrq : s1.readyqueue = s.readyqueue) :
    Inv (setCurrent none (handleOld none s.current s1)) := by
  have hnextc : ∀ c p0, s.current = some c → getProc s.procs c = some p0 →
      p0.status = .running → (none : Option Nat) ≠ some c := by
    intro _ _ _ _ _ h
    cases h
  obtain ⟨u, hu, hur, hures, hnorun, hcorr, hnd⟩ :=
    handleOld_cases s s1 none hinv hnk hmap hnextc
  rw [hu]
  have hsc : setCurrent none u = { u with current := none } := rfl
  rw [hsc]
  exact inv_install_none s u hinv (by rw [hures, hres]) (by rw [hur, hrq]) hnorun hcorr hnd

/-! ## Invariant preservation by each scheduling policy's driver call -/

theorem requeueCurrent_of_keeps {s : SimState} {c : Nat} {p : Process}
    (hc : s.current = some c) (hp : getProc s.procs c = some p)
    (hnw : p.status ≠ .wait) (hage : p.age < p.lifespan) :
    requeueCurrent s = { s with readyqueue := s.readyqueue ++ [c] } := by
  unfold requeueCurrent
  rw [hc]
  simp only []
  rw [hp]
  simp only []
  rw [if_pos (⟨hnw, hage⟩ : p.status ≠ .wait ∧ p.age < p.lifespan)]

theorem requeueCurrent_not_keeps {s : SimState} (hnk : ¬ keepsRunning s) :
    requeueCurrent s = s := by
  unfold requeueCurrent
  cases hc : s.current with
  | none => rfl
  | some c =>
    simp only []
    cases hp : getProc s.procs c with
    | none => rfl
    | some p =>
      simp only []
      rw [if_neg (fun hand : p.status ≠ .wait ∧ p.age < p.lifespan =>
        hnk ⟨c, p, hc, hp, hand.1, hand.2⟩)]

theorem pa_requeue_of_keeps {s : SimState} {c : Nat} {p : Process}
    (hc : s.current = some c) (hp : getProc s.procs c = some p)
    (hnw : p.status ≠ .wait) (hage : p.age < p.lifespan) :
    pa_requeue s = { s with readyqueue := s.readyqueue ++ [c], procs := updProc s.procs c (fun q => { q with prio := q.prio_orig }) } := by
  unfold pa_requeue
  rw [hc]
  simp only []
  rw [hp]
  simp only []
  rw [if_pos (⟨hnw, hage⟩ : p.status ≠ .wait ∧ p.age < p.lifespan)]

theorem pa_requeue_not_keeps {s : SimState} (hnk : ¬ keepsRunning s) :
    pa_requeue s = s := by
  unfold pa_requeue
  cases hc : s.current with
  | none => rfl
  | some c =>
    simp only []
    cases hp : getProc s.procs c with
    | none => rfl
    | some p =>
      simp only []
      rw [if_neg (fun hand : p.status ≠ .wait ∧ p.age < p.lifespan =>
        hnk ⟨c, p, hc, hp, hand.1, hand.2⟩)]

theorem paScanGo_fst_map_skel (procs : List Process) (next : Nat) (q : List Nat) :
    ((paScanGo procs next q).1).map skel = procs.map skel := by
  induction q generalizing procs next with
  | nil => rfl
  | cons c rest ih =>
    have hstep : paScanGo procs next (c :: rest) =
        paScanGo (updProc procs c (fun p => { p with prio := p.prio + 1 }))
          (if prioIn (updProc procs c (fun p => { p with prio := p.prio + 1 })) next <
              prioIn (updProc procs c (fun p => { p with prio := p.prio + 1 })) c
           then c else next) rest := rfl
    rw [hstep, ih, updProc_map_skel procs c (fun p => { p with prio := p.prio + 1 }) (fun _ => rfl)]

theorem inv_driver_fifo (s : SimState) (hinv : Inv s) : Inv (driverSchedule fifo_schedule s) := by
  by_cases hk : keepsRunning s
  · obtain ⟨c, p, hc, hp, hprun, hage⟩ := keeps_running_record hinv hk
    have he : fifo_schedule s = (s.current, s) := by
      unfold fifo_schedule
      rw [if_pos hk]
    have hd : driverSchedule fifo_schedule s
        = setCurrent (some c) (handleOld (some c) s.current s) := by
      show setCurrent (fifo_schedule s).1
        (handleOld (fifo_schedule s).1 s.current (fifo_schedule s).2) = _
      rw [he, hc]
    rw [hd]
    exact inv_driver_keep s s c p hinv hc hp hprun rfl rfl rfl
  · cases hq : s.readyqueue with
    | nil =>
      have he : fifo_schedule s = (none, s) := by
        unfold fifo_schedule
        rw [if_neg hk, hq]
      have hd : driverSchedule fifo_schedule s
          = setCurrent none (handleOld none s.current s) := by
        show setCurrent (fifo_schedule s).1
          (handleOld (fifo_schedule s).1 s.current (fifo_schedule s).2) = _
        rw [he]
      rw [hd]
      exact inv_driver_none s s hinv hk rfl rfl rfl
    | cons h0 tl =>
      have he : fifo_schedule s = (some h0, { s with readyqueue := tl }) := by
        unfold fifo_schedule
        rw [if_neg hk, hq]
      have hd : driverSchedule fifo_schedule s
          = setCurrent (some h0) (handleOld (some h0) s.current { s with readyqueue := tl }) := by
        show setCurrent (fifo_schedule s).1
          (handleOld (fifo_schedule s).1 s.current (fifo_schedule s).2) = _
        rw [he]
      rw [hd]
      refine inv_driver_pick s _ h0 hinv hk rfl rfl ?_ ?_
      · rw [hq]; exact List.mem_cons_self _ _
      · show tl = s.readyqueue.erase h0
        rw [hq, List.erase_cons_head]

theorem inv_driver_sjf (s : SimState) (hinv : Inv s) : Inv (driverSchedule sjf_schedule s) := by
  by_cases hk : keepsRunning s
  · obtain ⟨c, p, hc, hp, hprun, hage⟩ := keeps_running_record hinv hk
    have he : sjf_schedule s = (s.current, s) := by
      unfold sjf_schedule
      rw [if_pos hk]
    have hd : driverSchedule sjf_schedule s
        = setCurrent (some c) (handleOld (some c) s.current s) := by
      show setCurrent (sjf_schedule s).1
        (handleOld (sjf_schedule s).1 s.current (sjf_schedule s).2) = _
      rw [he, hc]
    rw [hd]
    exact inv_driver_keep s s c p hinv hc hp hprun rfl rfl rfl
  · cases hq : s.readyqueue with
    | nil =>
      have he : sjf_schedule s = (none, s) := by
        unfold sjf_schedule
        rw [if_neg hk, hq]
      have hd : driverSchedule sjf_schedule s
          = setCurrent none (handleOld none s.current s) := by
        show setCurrent (sjf_schedule s).1
          (handleOld (sjf_schedule s).1 s.current (sjf_schedule s).2) = _
        rw [he]
      rw [hd]
      exact inv_driver_none s s hinv hk rfl rfl rfl
    | cons h0 tl =>
      have he : sjf_schedule s = (some (championMin (lifespanOf s) h0 (h0 :: tl)), { s with readyqueue := (h0 :: tl).erase (championMin (lifespanOf s) h0 (h0 :: tl)) }) := by
        unfold sjf_schedule
        rw [if_neg hk, hq]
      have hd : driverSchedule sjf_schedule s
          = setCurrent (some (championMin (lifespanOf s) h0 (h0 :: tl)))
            (handleOld (some (championMin (lifespanOf s) h0 (h0 :: tl))) s.current
              { s with readyqueue := (h0 :: tl).erase (championMin (lifespanOf s) h0 (h0 :: tl)) }) := by
        show setCurrent (sjf_schedule s).1
          (handleOld (sjf_schedule s).1 s.current (sjf_schedule s).2) = _
        rw [he]
      rw [hd]
      refine inv_driver_pick s _ _ hinv hk rfl rfl ?_ ?_
      · rw [hq]; exact championMin_head_mem _ h0 tl
      · show (h0 :: tl).erase (championMin (lifespanOf s) h0 (h0 :: tl))
            = s.readyqueue.erase (championMin (lifespanOf s) h0 (h0 :: tl))
        rw [hq]

theorem paScanGo_snd_mem_head (procs : List Process) (h0 : Nat) (tl : List Nat) :
    (paScanGo procs h0 (h0 :: tl)).2 ∈ h0 :: tl := by
  rcases List.mem_cons.mp (paScanGo_snd_mem procs h0 (h0 :: tl)) with h | h
  · rw [h]; exact List.mem_cons_self _ _
  · exact h

theorem inv_driver_rr (s : SimState) (hinv : Inv s) : Inv (driverSchedule rr_schedule s) := by
  by_cases hk : keepsRunning s
  · obtain ⟨c, p, hc, hp, hprun, hage⟩ := keeps_running_record hinv hk
    have hnw : p.status ≠ .wait := by rw [hprun]; intro h; cases h
    have hreq := requeueCurrent_of_keeps hc hp hnw hage
    cases hcons : s.readyqueue ++ [c] with
    | nil => exact absurd hcons (by simp)
    | cons h0 tl =>
      have he : rr_schedule s = (some h0, { s with readyqueue := tl }) := by
        unfold rr_schedule
        rw [hreq]
        simp only []
        rw [hcons]
      have hd : driverSchedule rr_schedule s
          = setCurrent (some h0) (handleOld (some h0) s.current { s with readyqueue := tl }) := by
        show setCurrent (rr_schedule s).1
          (handleOld (rr_schedule s).1 s.current (rr_schedule s).2) = _
        rw [he]
      rw [hd]
      refine inv_driver_requeue s _ c h0 p hinv hc hp hprun hage rfl rfl ?_ ?_
      · rw [hcons]; exact List.mem_cons_self _ _
      · show tl = (s.readyqueue ++ [c]).erase h0
        rw [hcons, List.erase_cons_head]
  · have hreq := requeueCurrent_not_keeps hk
    cases hq : s.readyqueue with
    | nil =>
      have he : rr_schedule s = (none, s) := by
        unfold rr_schedule
        rw [hreq]
        simp only []
        rw [hq]
      have hd : driverSchedule rr_schedule s
          = setCurrent none (handleOld none s.current s) := by
        show setCurrent (rr_schedule s).1
          (handleOld (rr_schedule s).1 s.current (rr_schedule s).2) = _
        rw [he]
      rw [hd]
      exact inv_driver_none s s hinv hk rfl rfl rfl
    | cons h0 tl =>
      have he : rr_schedule s = (some h0, { s with readyqueue := tl }) := by
        unfold rr_schedule
        rw [hreq]
        simp only []
        rw [hq]
      have hd : driverSchedule rr_schedule s
          = setCurrent (some h0) (handleOld (some h0) s.current { s with readyqueue := tl }) := by
        show setCurrent (rr_schedule s).1
          (handleOld (rr_schedule s).1 s.current (rr_schedule s).2) = _
        rw [he]
      rw [hd]
      refine inv_driver_pick s _ h0 hinv hk rfl rfl ?_ ?_
      · rw [hq]; exact List.mem_cons_self _ _
      · show tl = s.readyqueue.erase h0
        rw [hq, List.erase_cons_head]

theorem inv_driver_srtf (s : SimState) (hinv : Inv s) : Inv (driverSchedule srtf_schedule s) := by
  by_cases hk : keepsRunning s
  · obtain ⟨c, p, hc, hp, hprun, hage⟩ := keeps_running_record hinv hk
    have hnw : p.status ≠ .wait := by rw [hprun]; intro h; cases h
    have hreq := requeueCurrent_of_keeps hc hp hnw hage
    cases hcons : s.readyqueue ++ [c] with
    | nil => exact absurd hcons (by simp)
    | cons h0 tl =>
      have he : srtf_schedule s = (some (championMin (remainingOf { s with readyqueue := s.readyqueue ++ [c] }) h0 (h0 :: tl)), { s with readyqueue := (h0 :: tl).erase (championMin (remainingOf { s with readyqueue := s.readyqueue ++ [c] }) h0 (h0 :: tl)) }) := by
        unfold srtf_schedule
        rw [hreq]
        simp only []
        rw [hcons]
      have hd : driverSchedule srtf_schedule s
          = setCurrent (srtf_schedule s).1
            (handleOld (srtf_schedule s).1 s.current (srtf_schedule s).2) := rfl
      rw [hd, he]
      refine inv_driver_requeue s _ c _ p hinv hc hp hprun hage rfl rfl ?_ ?_
      · rw [hcons]; exact championMin_head_mem _ h0 tl
      · show (h0 :: tl).erase _ = (s.readyqueue ++ [c]).erase _
        rw [hcons]
  · have hreq := requeueCurrent_not_keeps hk
    cases hq : s.readyqueue with
    | nil =>
      have he : srtf_schedule s = (none, s) := by
        unfold srtf_schedule
        rw [hreq]
        simp only []
        rw [hq]
      have hd : driverSchedule srtf_schedule s
          = setCurrent none (handleOld none s.current s) := by
        show setCurrent (srtf_schedule s).1
          (handleOld (srtf_schedule s).1 s.current (srtf_schedule s).2) = _
        rw [he]
      rw [hd]
      exact inv_driver_none s s hinv hk rfl rfl rfl
    | cons h0 tl =>
      have he : srtf_schedule s = (some (championMin (remainingOf s) h0 (h0 :: tl)), { s with readyqueue := (h0 :: tl).erase (championMin (remainingOf s) h0 (h0 :: tl)) }) := by
        unfold srtf_schedule
        rw [hreq]
        simp only []
        rw [hq]
      have hd : driverSchedule srtf_schedule s
          = setCurrent (srtf_schedule s).1
            (handleOld (srtf_schedule s).1 s.current (srtf_schedule s).2) := rfl
      rw [hd, he]
      refine inv_driver_pick s _ _ hinv hk rfl rfl ?_ ?_
      · rw [hq]; exact championMin_head_mem _ h0 tl
      · show (h0 :: tl).erase _ = s.readyqueue.erase _
        rw [hq]

theorem inv_driver_prio (s : SimState) (hinv : Inv s) : Inv (driverSchedule prio_schedule s) := by
  by_cases hk : keepsRunning s
  · obtain ⟨c, p, hc, hp, hprun, hage⟩ := keeps_running_record hinv hk
    have hnw : p.status ≠ .wait := by rw [hprun]; intro h; cases h
    have hreq := requeueCurrent_of_keeps hc hp hnw hage
    cases hcons : s.readyqueue ++ [c] with
    | nil => exact absurd hcons (by simp)
    | cons h0 tl =>
      have he : prio_schedule s = (some (champion (prioOf { s with readyqueue := s.readyqueue ++ [c] }) h0 (h0 :: tl)), { s with readyqueue := (h0 :: tl).erase (champion (prioOf { s with readyqueue := s.readyqueue ++ [c] }) h0 (h0 :: tl)) }) := by
        unfold prio_schedule
        rw [hreq]
        simp only []
        rw [hcons]
      have hd : driverSchedule prio_schedule s
          = setCurrent (prio_schedule s).1
            (handleOld (prio_schedule s).1 s.current (prio_schedule s).2) := rfl
      rw [hd, he]
      refine inv_driver_requeue s _ c _ p hinv hc hp hprun hage rfl rfl ?_ ?_
      · rw [hcons]; exact champion_head_mem _ h0 tl
      · show (h0 :: tl).erase _ = (s.readyqueue ++ [c]).erase _
        rw [hcons]
  · have hreq := requeueCurrent_not_keeps hk
    cases hq : s.readyqueue with
    | nil =>
      have he : prio_schedule s = (none, s) := by
        unfold prio_schedule
        rw [hreq]
        simp only []
        rw [hq]
      have hd : driverSchedule prio_schedule s
          = setCurrent none (handleOld none s.current s) := by
        show setCurrent (prio_schedule s).1
          (handleOld (prio_schedule s).1 s.current (prio_schedule s).2) = _
        rw [he]
      rw [hd]
      exact inv_driver_none s s hinv hk rfl rfl rfl
    | cons h0 tl =>
      have he : prio_schedule s = (some (champion (prioOf s) h0 (h0 :: tl)), { s with readyqueue := (h0 :: tl).erase (champion (prioOf s) h0 (h0 :: tl)) }) := by
        unfold prio_schedule
        rw [hreq]
        simp only []
        rw [hq]
      have hd : driverSchedule prio_schedule s
          = setCurrent (prio_schedule s).1
            (handleOld (prio_schedule s).1 s.current (prio_schedule s).2) := rfl
      rw [hd, he]
      refine inv_driver_pick s _ _ hinv hk rfl rfl ?_ ?_
      · rw [hq]; exact champion_head_mem _ h0 tl
      · show (h0 :: tl).erase _ = s.readyqueue.erase _
        rw [hq]

theorem inv_driver_pa (s : SimState) (hinv : Inv s) : Inv (driverSchedule pa_schedule s) := by
  by_cases hk : keepsRunning s
  · obtain ⟨c, p, hc, hp, hprun, hage⟩ := keeps_running_record hinv hk
    have hnw : p.status ≠ .wait := by rw [hprun]; intro h; cases h
    have hreq := pa_requeue_of_keeps hc hp hnw hage
    cases hcons : s.readyqueue ++ [c] with
    | nil => exact absurd hcons (by simp)
    | cons h0 tl =>
      have he : pa_schedule s = (some (paScanGo (updProc s.procs c (fun q => { q with prio := q.prio_orig })) h0 (h0 :: tl)).2, { s with procs := (paScanGo (updProc s.procs c (fun q => { q with prio := q.prio_orig })) h0 (h0 :: tl)).1, readyqueue := (h0 :: tl).erase (paScanGo (updProc s.procs c (fun q => { q with prio := q.prio_orig })) h0 (h0 :: tl)).2 }) := by
        unfold pa_schedule
        rw [hreq]
        simp only []
        rw [hcons]
      have hd : driverSchedule pa_schedule s
          = setCurrent (pa_schedule s).1
            (handleOld (pa_schedule s).1 s.current (pa_schedule s).2) := rfl
      rw [hd, he]
      refine inv_driver_requeue s _ c _ p hinv hc hp hprun hage rfl ?_ ?_ ?_
      · show ((paScanGo (updProc s.procs c (fun q => { q with prio := q.prio_orig })) h0 (h0 :: tl)).1).map skel = s.procs.map skel
        rw [paScanGo_fst_map_skel,
          updProc_map_skel s.procs c (fun q => { q with prio := q.prio_orig }) (fun _ => rfl)]
      · rw [hcons]; exact paScanGo_snd_mem_head _ h0 tl
      · show (h0 :: tl).erase _ = (s.readyqueue ++ [c]).erase _
        rw [hcons]
  · have hreq := pa_requeue_not_keeps hk
    cases hq : s.readyqueue with
    | nil =>
      have he : pa_schedule s = (none, s) := by
        unfold pa_schedule
        rw [hreq]
        simp only []
        rw [hq]
      have hd : driverSchedule pa_schedule s
          = setCurrent none (handleOld none s.current s) := by
        show setCurrent (pa_schedule s).1
          (handleOld (pa_schedule s).1 s.current (pa_schedule s).2) = _
        rw [he]
      rw [hd]
      exact inv_driver_none s s hinv hk rfl rfl rfl
    | cons h0 tl =>
      have he : pa_schedule s = (some (paScanGo s.procs h0 (h0 :: tl)).2, { s with procs := (paScanGo s.procs h0 (h0 :: tl)).1, readyqueue := (h0 :: tl).erase (paScanGo s.procs h0 (h0 :: tl)).2 }) := by
        unfold pa_schedule
        rw [hreq]
        simp only []
        rw [hq]
      have hd : driverSchedule pa_schedule s
          = setCurrent (pa_schedule s).1
            (handleOld (pa_schedule s).1 s.current (pa_schedule s).2) := rfl
      rw [hd, he]
      refine inv_driver_pick s _ _ hinv hk rfl ?_ ?_ ?_
      · show ((paScanGo s.procs h0 (h0 :: tl)).1).map skel = s.procs.map skel
        exact paScanGo_fst_map_skel s.procs h0 (h0 :: tl)
      · rw [hq]; exact paScanGo_snd_mem_head _ h0 tl
      · show (h0 :: tl).erase _ = s.readyqueue.erase _
        rw [hq]

/-! ## The main invariant theorem (claim C1) -/

theorem inv_init (nr : Nat) : Inv (initState nr) := by
  refine ⟨List.nodup_nil, ?_, ?_, ?_, ?_⟩ <;> intro p hp <;> cases hp

theorem inv_step {sched : Scheduler} (hok : SchedulerOK sched) {s s' : SimState}
    (hinv : Inv s) (hst : Step sched s s') : Inv s' := by
  cases hst with
  | spawn p h1 h2 h3 h4 h5 => exact inv_spawn s p hinv h1 h2 h3 h5
  | tick c p h1 h2 h3 h4 => exact inv_driverTick s hinv
  | acquire rid c p h1 h2 h3 h4 => exact hok.1 s rid c p hinv h2 h3 h4
  | release rid c p r h1 h2 h3 h4 h5 => exact hok.2.1 s rid c p r hinv h1 h2 h3 h4 h5
  | schedule => exact hok.2.2 s hinv

theorem fifo_ok : SchedulerOK fifo_scheduler :=
  ⟨fun s rid c p hinv hc hp hr => inv_fcfs_acquire s rid c p hinv hc hp hr,
   fun s rid c p _ hinv hc hp hr _ _ => inv_fcfs_release s rid c p hinv hc hp hr,
   fun s hinv => inv_driver_fifo s hinv⟩

theorem sjf_ok : SchedulerOK sjf_scheduler :=
  ⟨fun s rid c p hinv hc hp hr => inv_fcfs_acquire s rid c p hinv hc hp hr,
   fun s rid c p _ hinv hc hp hr _ _ => inv_fcfs_release s rid c p hinv hc hp hr,
   fun s hinv => inv_driver_sjf s hinv⟩

theorem srtf_ok : SchedulerOK srtf_scheduler :=
  ⟨fun s rid c p hinv hc hp hr => inv_fcfs_acquire s rid c p hinv hc hp hr,
   fun s rid c p _ hinv hc hp hr _ _ => inv_fcfs_release s rid c p hinv hc hp hr,
   fun s hinv => inv_driver_srtf s hinv⟩

theorem rr_ok : SchedulerOK rr_scheduler :=
  ⟨fun s rid c p hinv hc hp hr => inv_fcfs_acquire s rid c p hinv hc hp hr,
   fun s rid c p _ hinv hc hp hr _ _ => inv_fcfs_release s rid c p hinv hc hp hr,
   fun s hinv => inv_driver_rr s hinv⟩

theorem prio_ok : SchedulerOK prio_scheduler :=
  ⟨fun s rid c p hinv hc hp hr => inv_fcfs_acquire s rid c p hinv hc hp hr,
   fun s rid c p _ hinv hc hp hr _ _ => inv_prio_release s rid c p hinv hc hp hr,
   fun s hinv => inv_driver_prio s hinv⟩

theorem pa_ok : SchedulerOK pa_scheduler :=
  ⟨fun s rid c p hinv hc hp hr => inv_fcfs_acquire s rid c p hinv hc hp hr,
   fun s rid c p _ hinv hc hp hr _ _ => inv_fcfs_release s rid c p hinv hc hp hr,
   fun s hinv => inv_driver_pa s hinv⟩

theorem pcp_ok (maxPrio : Nat) : SchedulerOK (pcp_scheduler maxPrio) :=
  ⟨fun s rid c p hinv hc hp hr => inv_pcp_acquire maxPrio s rid c p hinv hc hp hr,
   fun s rid c p _ hinv hc hp hr _ _ => inv_pcp_release s rid c p hinv hc hp hr,
   fun s hinv => inv_driver_prio s hinv⟩

theorem pip_ok : SchedulerOK pip_scheduler :=
  ⟨fun s rid c p hinv hc hp hr => inv_pip_acquire s rid c p hinv hc hp hr,
   fun s rid c p r hinv hc hp hr hgr hor => inv_pip_release s rid c p r hinv hc hp hr hgr hor,
   fun s hinv => inv_driver_prio s hinv⟩

theorem inv_reach {sched : Scheduler} {nr : Nat} (hok : SchedulerOK sched)
    {s : SimState} (hreach : Reach sched nr s) : Inv s := by
  induction hreach with
  | init => exact inv_init nr
  | step hr hstep ih => exact inv_step hok ih hstep

/-- Claim C1: for every scheduler variant of the catalog, in every state
reachable from the initial state (no current process, empty ready queue,
all resources unowned) by contract-respecting acquire/release/schedule/
driver steps, at most one process has RUNNING status, and every other
live process occupies exactly one position across the ready queue and all
resource wait sets — never two places, never duplicated within one list
(its total occurrence count over all those lists is exactly one). -/
theorem c1_running_unique_queue_exclusive (sched : Scheduler) (nr maxPrio : Nat)
    (hsched : sched = fifo_scheduler ∨ sched = sjf_scheduler ∨ sched = srtf_scheduler ∨
      sched = rr_scheduler ∨ sched = prio_scheduler ∨ sched = pa_scheduler ∨
      sched = pcp_scheduler maxPrio ∨ sched = pip_scheduler)
    (s : SimState) (hreach : Reach sched nr s) :
    (∀ p ∈ s.procs, ∀ q ∈ s.procs, p.status = .running → q.status = .running → p = q) ∧
    (∀ p ∈ s.procs, p.status ≠ .running → queueCount s p.pid = 1) := by
  have hok : SchedulerOK sched := by
    rcases hsched with h | h | h | h | h | h | h | h <;> rw [h]
    exacts [fifo_ok, sjf_ok, srtf_ok, rr_ok, prio_ok, pa_ok, pcp_ok maxPrio, pip_ok]
  have hinv : Inv s := inv_reach hok hreach
  refine ⟨?_, hinv.2.2.2.1⟩
  intro p hp q hq hrp hrq
  have h1 := hinv.2.1 p hp hrp
  have h2 := hinv.2.1 q hq hrq
  rw [h1] at h2
  exact List.inj_on_of_nodup_map hinv.1 hp hq (Option.some.inj h2)

/-- Witness for C1: the scheduler-catalog and reachability hypotheses are
discharged on a concrete two-step FIFO run (spawn one process, schedule
it), and the theorem delivers the invariant there. -/
theorem c1_running_unique_queue_exclusive_witness :
    (∀ p ∈ c1s2.procs, ∀ q ∈ c1s2.procs,
      p.status = PStatus.running → q.status = PStatus.running → p = q) ∧
    (∀ p ∈ c1s2.procs, p.status ≠ PStatus.running → queueCount c1s2 p.pid = 1) := by
  have hstep1 : Step fifo_scheduler (initState 1) c1s1 :=
    Step.spawn (initState 1) c1demoP rfl (by decide) (by decide) (by decide) (by decide)
  have hstep2 : Step fifo_scheduler c1s1 c1s2 := Step.schedule c1s1
  exact c1_running_unique_queue_exclusive fifo_scheduler 1 0 (Or.inl rfl) c1s2
    (Reach.step (Reach.step Reach.init hstep1) hstep2)

/-! ## Demo states for the concrete scenarios in the spec -/

/-- Claim C2, counterexample to the claim as stated: under the
Priority+Aging scheduler, releasing resource 0 of `c2state` wakes pid 1 —
the FIFO head, whose priority 1 is strictly below fellow waiter pid 2's
priority 5 — so the woken process is not the highest-priority member of
the wait set.  The C file wires `fcfs_release`, not `prio_release`, into
`pa_scheduler`. -/
theorem c2_counterexample_pa_release_not_priority :
    (pa_scheduler.release 0 c2state).readyqueue = [1] ∧
    statusOf (pa_scheduler.release 0 c2state) 1 = some .ready ∧
    (pa_scheduler.release 0 c2state).resources = [{ owner := none, waitqueue := [2] }] ∧
    (2 : Nat) ∈ ((c2state.resources.get? 0).map Resource.waitqueue).getD [] ∧
    prioOf c2state 1 < prioOf c2state 2 ∧
    ¬ (∀ y ∈ ((c2state.resources.get? 0).map Resource.waitqueue).getD [],
        prioOf c2state y ≤ prioOf c2state 1) := by
  decide

/-- Claim C2, amended: the Priority+Aging scheduler's release is the plain
FCFS release — on a resource whose wait set is non-empty it wakes the FIFO
head of the wait set (not the highest-priority member), sets its status to
READY and appends it to the ready queue's tail.  (The highest-priority
wakeup is used by the Priority scheduler's `prio_release` and by
`pip_release`, not by `pa_scheduler`.) -/
theorem c2_pa_release_wakes_fifo_head (s : SimState) (rid : Nat) (r : Resource)
    (w : Nat) (rest : List Nat)
    (hr : s.resources.get? rid = some r) (hwq : r.waitqueue = w :: rest)
    (hwex : (getProc s.procs w).isSome = true) :
    pa_scheduler.release = fcfs_release ∧
    statusOf (pa_scheduler.release rid s) w = some .ready ∧
    (pa_scheduler.release rid s).readyqueue = s.readyqueue ++ [w] ∧
    (pa_scheduler.release rid s).resources.get? rid = some { owner := none, waitqueue := rest } := by
  have he : pa_scheduler.release rid s = { s with procs := updProc s.procs w (fun q => { q with status := .ready }), readyqueue := s.readyqueue ++ [w], resources := s.resources.set rid { owner := none, waitqueue := rest } } := by
    show fcfs_release rid s = _
    unfold fcfs_release
    rw [hr]
    simp only []
    rw [hwq]
  refine ⟨rfl, ?_, ?_, ?_⟩
  · rw [he]
    show ((getProc (updProc s.procs w (fun q => { q with status := .ready })) w).map (·.status))
        = some PStatus.ready
    rw [getProc_updProc_self s.procs w (fun q => { q with status := .ready }) (fun _ => rfl)]
    obtain ⟨q, hq⟩ := Option.isSome_iff_exists.mp hwex
    rw [hq]
    rfl
  · rw [he]
  · rw [he]
    show (s.resources.set rid { owner := none, waitqueue := rest }).get? rid = _
    exact get?_set_self s.resources rid r _ hr

/-- Witness for the amended C2 on a concrete state: releasing resource 0
of `c2state` under `pa_scheduler` wakes the FIFO head pid 1. -/
theorem c2_pa_release_wakes_fifo_head_witness :
    statusOf (pa_scheduler.release 0 c2state) 1 = some PStatus.ready ∧
    (pa_scheduler.release 0 c2state).readyqueue = c2state.readyqueue ++ [1] := by
  have h := c2_pa_release_wakes_fifo_head c2state 0
    { owner := some 0, waitqueue := [1, 2] } 1 [2] (by decide) (by decide) (by decide)
  exact ⟨h.2.1, h.2.2.1⟩

/-- Claim C7: under the FCFS protocol, acquire on a free resource makes
the requester owner and admits it; acquire on an owned resource sets the
requester WAITING, appends it to the wait set's tail and denies it; a
release by the owner clears ownership and moves exactly the FIFO head of
the wait set to READY at the ready queue's tail — the rest of the wait set
is kept intact (no waiter skipped or duplicated). -/
theorem c7_fcfs_acquire_release (s : SimState) (rid c : Nat) (p : Process) (r : Resource)
    (hc : s.current = some c) (hp : getProc s.procs c = some p)
    (hr : s.resources.get? rid = some r) :
    (r.owner = none →
      fcfs_acquire rid s
        = (true, { s with resources := s.resources.set rid { r with owner := some c } })) ∧
    (r.owner ≠ none →
      (fcfs_acquire rid s).1 = false ∧
      statusOf (fcfs_acquire rid s).2 c = some .wait ∧
      (fcfs_acquire rid s).2.resources.get? rid = some { r with waitqueue := r.waitqueue ++ [c] } ∧
      (fcfs_acquire rid s).2.readyqueue = s.readyqueue) ∧
    (r.owner = some c → ∀ w rest, r.waitqueue = w :: rest →
      ((getProc s.procs w).isSome = true → statusOf (fcfs_release rid s) w = some .ready) ∧
      (fcfs_release rid s).readyqueue = s.readyqueue ++ [w] ∧
      (fcfs_release rid s).resources.get? rid = some { owner := none, waitqueue := rest }) := by
  refine ⟨?_, ?_, ?_⟩
  · intro ho
    unfold fcfs_acquire
    rw [hc, hr]
    simp only []
    rw [if_pos ho]
  · intro ho
    have he : (fcfs_acquire rid s).2 = { s with procs := updProc s.procs c (fun q => { q with status := .wait }), resources := s.resources.set rid { r with waitqueue := r.waitqueue ++ [c] } } := by
      unfold fcfs_acquire
      rw [hc, hr]
      simp only []
      rw [if_neg ho]
    have he1 : (fcfs_acquire rid s).1 = false := by
      unfold fcfs_acquire
      rw [hc, hr]
      simp only []
      rw [if_neg ho]
    refine ⟨he1, ?_, ?_, ?_⟩
    · rw [he]
      show ((getProc (updProc s.procs c (fun q => { q with status := .wait })) c).map (·.status))
          = some PStatus.wait
      rw [getProc_updProc_self s.procs c (fun q => { q with status := .wait }) (fun _ => rfl), hp]
      rfl
    · rw [he]
      show (s.resources.set rid { r with waitqueue := r.waitqueue ++ [c] }).get? rid = _
      exact get?_set_self s.resources rid r _ hr
    · rw [he]
  · intro _ w rest hwq
    have he : fcfs_release rid s = { s with procs := updProc s.procs w (fun q => { q with status := .ready }), readyqueue := s.readyqueue ++ [w], resources := s.resources.set rid { owner := none, waitqueue := rest } } := by
      unfold fcfs_release
      rw [hr]
      simp only []
      rw [hwq]
    refine ⟨?_, ?_, ?_⟩
    · intro hwex
      rw [he]
      show ((getProc (updProc s.procs w (fun q => { q with status := .ready })) w).map (·.status))
          = some PStatus.ready
      rw [getProc_updProc_self s.procs w (fun q => { q with status := .ready }) (fun _ => rfl)]
      obtain ⟨q, hq⟩ := Option.isSome_iff_exists.mp hwex
      rw [hq]
      rfl
    · rw [he]
    · rw [he]
      show (s.resources.set rid { owner := none, waitqueue := rest }).get? rid = _
      exact get?_set_self s.resources rid r _ hr

/-- Witness for C7 on `c2state`: pid 0 runs and owns resource 0 with
waiters [1, 2]; release moves exactly the head pid 1 to the ready queue. -/
theorem c7_fcfs_acquire_release_witness :
    (fcfs_release 0 c2state).readyqueue = c2state.readyqueue ++ [1] ∧
    (fcfs_release 0 c2state).resources.get? 0 = some { owner := none, waitqueue := [2] } := by
  have h := c7_fcfs_acquire_release c2state 0 0 ⟨0, .running, 0, 5, 3, 3⟩
    { owner := some 0, waitqueue := [1, 2] } rfl rfl rfl
  have h3 := h.2.2 rfl 1 [2] rfl
  exact ⟨h3.2.1, h3.2.2⟩

/-- Claim C8: the Round-Robin scheduler always requeues an unfinished
current process at the ready queue's tail and always elects the queue head
regardless of remaining time; consequently three processes of lifespan 3,
all ready at tick 0 and never blocking, run in the strict repeating order
P0,P1,P2,P0,P1,P2,P0,P1,P2, one tick each. -/
theorem c8_rr_requeue_head_and_trace (s : SimState) (c : Nat) (p : Process)
    (hc : s.current = some c) (hp : getProc s.procs c = some p)
    (hnw : p.status ≠ .wait) (hage : p.age < p.lifespan) :
    ((s.readyqueue = [] → rr_schedule s = (some c, { s with readyqueue := [] })) ∧
     (∀ h0 tl, s.readyqueue = h0 :: tl →
       rr_schedule s = (some h0, { s with readyqueue := tl ++ [c] }))) ∧
    runSim rr_scheduler 9 rrDemo
      = [some 0, some 1, some 2, some 0, some 1, some 2, some 0, some 1, some 2] := by
  have hreq := requeueCurrent_of_keeps hc hp hnw hage
  refine ⟨⟨?_, ?_⟩, by decide⟩
  · intro hq
    unfold rr_schedule
    rw [hreq]
    simp only []
    rw [hq]
    rfl
  · intro h0 tl hq
    unfold rr_schedule
    rw [hreq]
    simp only []
    rw [hq]
    rfl

/-- Witness for C8: with pid 0 running (one tick of work left) and pid 1
at the ready queue head, Round-Robin elects pid 1 and requeues pid 0. -/
theorem c8_rr_requeue_head_and_trace_witness :
    rr_schedule c8wit = (some 1, { c8wit with readyqueue := [0] }) := by
  have h := c8_rr_requeue_head_and_trace c8wit 0 ⟨0, .running, 0, 2, 0, 0⟩ rfl rfl
    (by decide) (by decide)
  exact h.1.2 1 [] rfl

/-- Claim C9: the SJF scheduler is non-preemptive — a current process with
remaining lifespan keeps running; otherwise selection scans the ready
queue for the smallest lifespan with the first-encountered-minimum
tie-break and removes the pick from the queue; and with ready lifespans
[5, 3, 8] arriving together, the lifespan-3 process (pid 1) runs first and
completes entirely before the others start. -/
theorem c9_sjf_nonpreemptive_min_lifespan (s : SimState) :
    (∀ c p, s.current = some c → getProc s.procs c = some p → p.status ≠ .wait →
      p.age < p.lifespan → sjf_schedule s = (s.current, s)) ∧
    (¬ keepsRunning s → ∀ h0 tl, s.readyqueue = h0 :: tl →
      ∃ n, sjf_schedule s = (some n, { s with readyqueue := (h0 :: tl).erase n }) ∧
        IsFirstMin (lifespanOf s) (h0 :: tl) n) ∧
    runSim sjf_scheduler 16 sjfDemo
      = [some 1, some 1, some 1, some 0, some 0, some 0, some 0, some 0,
         some 2, some 2, some 2, some 2, some 2, some 2, some 2, some 2] := by
  refine ⟨?_, ?_, by decide⟩
  · intro c p hc hp hnw hage
    have hk : keepsRunning s := ⟨c, p, hc, hp, hnw, hage⟩
    unfold sjf_schedule
    rw [if_pos hk]
  · intro hnk h0 tl hq
    refine ⟨championMin (lifespanOf s) h0 (h0 :: tl), ?_, ?_⟩
    · unfold sjf_schedule
      rw [if_neg hnk]
      simp only []
      rw [hq]
    · exact championMin_head_isFirstMin (lifespanOf s) h0 tl

/-- Witness for C9: on the [5, 3, 8] scenario the first SJF selection is
pid 1, the lifespan-3 process, the first-encountered minimum. -/
theorem c9_sjf_nonpreemptive_min_lifespan_witness :
    IsFirstMin (lifespanOf sjfDemo) [0, 1, 2] 1 := by
  obtain ⟨n, hn, hmin⟩ :=
    (c9_sjf_nonpreemptive_min_lifespan sjfDemo).2.1 (by decide) 0 [1, 2] rfl
  have h2 : (sjf_schedule sjfDemo).1 = some 1 := by decide
  rw [hn] at h2
  have h3 : some n = some 1 := h2
  have hn1 : n = 1 := Option.some.inj h3
  exact hn1 ▸ hmin

theorem append_singleton_decomp {q l1 l2 : List Nat} {c : Nat}
    (h : q ++ [c] = l1 ++ c :: l2) (hc : c ∉ q) : l1 = q ∧ l2 = [] := by
  induction q generalizing l1 with
  | nil =>
    cases l1 with
    | nil =>
      simp only [List.nil_append] at h
      exact ⟨rfl, (List.cons.inj h).2.symm⟩
    | cons a as =>
      exfalso
      have hl := congrArg List.length h
      simp at hl
  | cons x xs ih =>
    cases l1 with
    | nil =>
      simp only [List.nil_append] at h
      have hx : x = c := (List.cons.inj h).1
      subst hx
      exact absurd (List.mem_cons_self x xs) hc
    | cons a as =>
      have h1 := List.cons.inj h
      have hc' : c ∉ xs := fun hm => hc (List.mem_cons_of_mem x hm)
      obtain ⟨ha, hl2⟩ := ih h1.2 hc'
      refine ⟨?_, hl2⟩
      rw [← h1.1, ha]

/-- Claim C6: in the SRTF scheduler, a current process that is not WAITING
and has remaining lifespan is appended to the ready queue's tail before
selection; selection picks the smallest remaining time `lifespan - age`
over the whole combined queue with ties kept by the earliest-scanned
candidate, removing the pick; hence the just-ran process, sitting at the
tail, loses ties — it is elected only if its remaining time is strictly
below that of every other ready process. -/
theorem c6_srtf_requeue_first_min_remaining (s : SimState) (c : Nat) (p : Process)
    (hc : s.current = some c) (hp : getProc s.procs c = some p)
    (hnw : p.status ≠ .wait) (hage : p.age < p.lifespan)
    (hcq : c ∉ s.readyqueue) :
    (requeueCurrent s).readyqueue = s.readyqueue ++ [c] ∧
    ∃ n, srtf_schedule s = (some n, { s with readyqueue := (s.readyqueue ++ [c]).erase n }) ∧
      IsFirstMin (remainingOf s) (s.readyqueue ++ [c]) n ∧
      (n = c → ∀ y ∈ s.readyqueue, remainingOf s c < remainingOf s y) := by
  have hreq := requeueCurrent_of_keeps hc hp hnw hage
  refine ⟨by rw [hreq], ?_⟩
  cases hcons : s.readyqueue ++ [c] with
  | nil => exact absurd hcons (by simp)
  | cons h0 tl =>
    refine ⟨championMin (remainingOf s) h0 (h0 :: tl), ?_, ?_, ?_⟩
    · unfold srtf_schedule
      rw [hreq]
      simp only []
      rw [hcons]
      rfl
    · exact championMin_head_isFirstMin (remainingOf s) h0 tl
    · intro hnc y hy
      have hfm := championMin_head_isFirstMin (remainingOf s) h0 tl
      rw [hnc] at hfm
      obtain ⟨l1, l2, hdec, _, hstrict⟩ := hfm
      rw [← hcons] at hdec
      obtain ⟨hl1, _⟩ := append_singleton_decomp hdec hcq
      exact hstrict y (by rw [hl1]; exact hy)

/-- Witness for C6: with pid 0 running (3 ticks remaining) and pid 1 ready
(2 ticks remaining), SRTF's pick is pid 1, the first minimum over [1, 0]. -/
theorem c6_srtf_requeue_first_min_remaining_witness :
    IsFirstMin (remainingOf c6wit) [1, 0] 1 := by
  obtain ⟨n, hn, hmin, _⟩ :=
    (c6_srtf_requeue_first_min_remaining c6wit 0 ⟨0, .running, 2, 5, 0, 0⟩ rfl rfl
      (by decide) (by decide) (by decide)).2
  have h2 : (srtf_schedule c6wit).1 = some 1 := by decide
  rw [hn] at h2
  have h3 : some n = some 1 := h2
  have hn1 : n = 1 := Option.some.inj h3
  rw [hn1] at hmin
  exact hmin

/-- Closed form of `pa_schedule` on a viable current process: requeue and
reset, bump every scanned process once, elect the first-encountered
maximum of the post-bump priorities. -/
theorem pa_schedule_eq (s : SimState) (c : Nat) (p : Process) (h0 : Nat) (tl : List Nat)
    (hc : s.current = some c) (hp : getProc s.procs c = some p)
    (hnw : p.status ≠ .wait) (hage : p.age < p.lifespan)
    (hcons : s.readyqueue ++ [c] = h0 :: tl) (hnd2 : (h0 :: tl).Nodup) :
    pa_schedule s = (some (champion (prioIn (bumpList (updProc s.procs c (fun q => { q with prio := q.prio_orig })) (h0 :: tl))) h0 tl), { s with procs := bumpList (updProc s.procs c (fun q => { q with prio := q.prio_orig })) (h0 :: tl), readyqueue := (h0 :: tl).erase (champion (prioIn (bumpList (updProc s.procs c (fun q => { q with prio := q.prio_orig })) (h0 :: tl))) h0 tl) }) := by
  have hreq := pa_requeue_of_keeps hc hp hnw hage
  have hh0tl : h0 ∉ tl := (List.nodup_cons.mp hnd2).1
  have hstep : paScanGo (updProc s.procs c (fun q => { q with prio := q.prio_orig })) h0 (h0 :: tl)
      = paScanGo (updProc (updProc s.procs c (fun q => { q with prio := q.prio_orig })) h0 (fun q => { q with prio := q.prio + 1 })) h0 tl := by
    show paScanGo (updProc (updProc s.procs c (fun q => { q with prio := q.prio_orig })) h0 (fun q => { q with prio := q.prio + 1 }))
      (if prioIn (updProc (updProc s.procs c (fun q => { q with prio := q.prio_orig })) h0 (fun q => { q with prio := q.prio + 1 })) h0 <
          prioIn (updProc (updProc s.procs c (fun q => { q with prio := q.prio_orig })) h0 (fun q => { q with prio := q.prio + 1 })) h0
       then h0 else h0) tl = _
    rw [ite_self]
  have heq := paScanGo_eq tl
    (updProc (updProc s.procs c (fun q => { q with prio := q.prio_orig })) h0 (fun q => { q with prio := q.prio + 1 }))
    h0 (List.nodup_cons.mp hnd2).2 hh0tl
  unfold pa_schedule
  rw [hreq]
  simp only []
  rw [hcons]
  simp only []
  rw [hstep, heq]
  rfl

/-- Claim C5: in the Priority+Aging schedule call, the unfinished preempted
current process has its priority reset to `prio_orig` as it is requeued at
the tail; every process that waited in the ready queue through this tick
has its priority incremented by exactly one (so it strictly increases);
and selection takes the largest post-scan priority with the
first-encountered-maximum tie-break. -/
theorem c5_pa_reset_and_aging (s : SimState) (c : Nat) (p : Process)
    (hc : s.current = some c) (hp : getProc s.procs c = some p)
    (hnw : p.status ≠ .wait) (hage : p.age < p.lifespan)
    (hnd : s.readyqueue.Nodup) (hcq : c ∉ s.readyqueue)
    (hex : ∀ x ∈ s.readyqueue, (getProc s.procs x).isSome = true) :
    (pa_requeue s).readyqueue = s.readyqueue ++ [c] ∧
    prioOf (pa_requeue s) c = p.prio_orig ∧
    (∀ x ∈ s.readyqueue, prioOf (pa_schedule s).2 x = prioOf s x + 1) ∧
    (∀ x ∈ s.readyqueue, prioOf s x < prioOf (pa_schedule s).2 x) ∧
    (∃ n, (pa_schedule s).1 = some n ∧
      IsFirstMax (prioIn (pa_schedule s).2.procs) (s.readyqueue ++ [c]) n ∧
      (pa_schedule s).2.readyqueue = (s.readyqueue ++ [c]).erase n) := by
  have hreq := pa_requeue_of_keeps hc hp hnw hage
  have hndfull : (s.readyqueue ++ [c]).Nodup := by
    rw [List.nodup_append]
    refine ⟨hnd, List.nodup_singleton _, ?_⟩
    intro a ha hb
    rw [List.mem_singleton] at hb
    exact hcq (hb ▸ ha)
  cases hcons : s.readyqueue ++ [c] with
  | nil => exact absurd hcons (by simp)
  | cons h0 tl =>
    have hnd2 : (h0 :: tl).Nodup := by rw [← hcons]; exact hndfull
    have hpa := pa_schedule_eq s c p h0 tl hc hp hnw hage hcons hnd2
    have hbump : ∀ x ∈ s.readyqueue,
        prioIn (bumpList (updProc s.procs c (fun q => { q with prio := q.prio_orig })) (h0 :: tl)) x
          = prioOf s x + 1 := by
      intro x hx
      have hxc : x ≠ c := fun h => hcq (h ▸ hx)
      have hxfull : x ∈ h0 :: tl := by
        rw [← hcons]
        exact List.mem_append_left _ hx
      have hsome : (getProc (updProc s.procs c (fun q => { q with prio := q.prio_orig })) x).isSome = true := by
        rw [getProc_isSome_updProc s.procs c x (fun q => { q with prio := q.prio_orig }) (fun _ => rfl)]
        exact hex x hx
      rw [prioIn_bumpList_mem _ _ _ hnd2 hxfull hsome]
      unfold prioIn
      rw [getProc_updProc_ne s.procs c x (fun q => { q with prio := q.prio_orig }) (fun _ => rfl) hxc]
      rfl
  -- the remaining conjuncts
    refine ⟨by rw [hreq]; exact hcons, ?_, ?_, ?_, ?_⟩
    · rw [hreq]
      show prioIn (updProc s.procs c (fun q => { q with prio := q.prio_orig })) c = p.prio_orig
      unfold prioIn
      rw [getProc_updProc_self s.procs c (fun q => { q with prio := q.prio_orig }) (fun _ => rfl), hp]
      rfl
    · intro x hx
      rw [hpa]
      exact hbump x hx
    · intro x hx
      rw [hpa]
      show prioOf s x < prioIn (bumpList (updProc s.procs c (fun q => { q with prio := q.prio_orig })) (h0 :: tl)) x
      rw [hbump x hx]
      omega
    · refine ⟨champion (prioIn (bumpList (updProc s.procs c (fun q => { q with prio := q.prio_orig })) (h0 :: tl))) h0 tl, ?_, ?_, ?_⟩
      · rw [hpa]
      · rw [hpa]
        have hsame : champion (prioIn (bumpList (updProc s.procs c (fun q => { q with prio := q.prio_orig })) (h0 :: tl))) h0 (h0 :: tl)
            = champion (prioIn (bumpList (updProc s.procs c (fun q => { q with prio := q.prio_orig })) (h0 :: tl))) h0 tl := by
          show champion _ (if prioIn (bumpList (updProc s.procs c (fun q => { q with prio := q.prio_orig })) (h0 :: tl)) h0 <
              prioIn (bumpList (updProc s.procs c (fun q => { q with prio := q.prio_orig })) (h0 :: tl)) h0 then h0 else h0) tl = _
          rw [ite_self]
        rw [← hsame]
        exact champion_head_isFirstMax _ h0 tl
      · rw [hpa]

/-- Witness for C5 on `paDemo`: the requeued pid 0 re-enters at the tail
with priority reset to 2, the waiting pids 1 and 2 age to priority 5, and
pid 1 — the first-encountered maximum — is elected. -/
theorem c5_pa_reset_and_aging_witness :
    prioOf (pa_requeue paDemo) 0 = 2 ∧
    prioOf (pa_schedule paDemo).2 1 = 5 ∧ (pa_schedule paDemo).1 = some 1 := by
  have h := c5_pa_reset_and_aging paDemo 0 ⟨0, .running, 1, 5, 7, 2⟩ rfl rfl
    (by decide) (by decide) (by decide) (by decide) (by decide)
  obtain ⟨n, hn, hmax, _⟩ := h.2.2.2.2
  refine ⟨h.2.1, ?_, ?_⟩
  · have h1 := h.2.2.1 1 (by decide)
    rw [h1]
    decide
  · exact hn.trans (by
      have h2 : (pa_schedule paDemo).1 = some 1 := by decide
      rw [hn] at h2
      rw [Option.some.inj h2])

/-- Claim C10: the just-requeued unfinished current process sits in the
ready queue when the aging scan runs, so it too is incremented — its
priority after the schedule call is `prio_orig + 1`, not `prio_orig` —
and it participates in the selection with that boosted value: the elected
process's post-scan priority is at least the requeued process's. -/
theorem c10_pa_requeued_current_aged (s : SimState) (c : Nat) (p : Process)
    (hc : s.current = some c) (hp : getProc s.procs c = some p)
    (hnw : p.status ≠ .wait) (hage : p.age < p.lifespan)
    (hnd : s.readyqueue.Nodup) (hcq : c ∉ s.readyqueue) :
    c ∈ (pa_requeue s).readyqueue ∧
    prioOf (pa_schedule s).2 c = p.prio_orig + 1 ∧
    (∃ n, (pa_schedule s).1 = some n ∧
      prioOf (pa_schedule s).2 c ≤ prioOf (pa_schedule s).2 n) := by
  have hreq := pa_requeue_of_keeps hc hp hnw hage
  have hndfull : (s.readyqueue ++ [c]).Nodup := by
    rw [List.nodup_append]
    refine ⟨hnd, List.nodup_singleton _, ?_⟩
    intro a ha hb
    rw [List.mem_singleton] at hb
    exact hcq (hb ▸ ha)
  cases hcons : s.readyqueue ++ [c] with
  | nil => exact absurd hcons (by simp)
  | cons h0 tl =>
    have hnd2 : (h0 :: tl).Nodup := by rw [← hcons]; exact hndfull
    have hpa := pa_schedule_eq s c p h0 tl hc hp hnw hage hcons hnd2
    have hcfull : c ∈ h0 :: tl := by
      rw [← hcons]
      exact List.mem_append_right _ (List.mem_singleton_self c)
    have hcsome : (getProc (updProc s.procs c (fun q => { q with prio := q.prio_orig })) c).isSome = true := by
      rw [getProc_updProc_self s.procs c (fun q => { q with prio := q.prio_orig }) (fun _ => rfl), hp]
      rfl
    have hcval : prioIn (bumpList (updProc s.procs c (fun q => { q with prio := q.prio_orig })) (h0 :: tl)) c
        = p.prio_orig + 1 := by
      rw [prioIn_bumpList_mem _ _ _ hnd2 hcfull hcsome]
      unfold prioIn
      rw [getProc_updProc_self s.procs c (fun q => { q with prio := q.prio_orig }) (fun _ => rfl), hp]
      rfl
    refine ⟨?_, ?_, ?_⟩
    · rw [hreq]
      exact List.mem_append_right _ (List.mem_singleton_self c)
    · rw [hpa]
      exact hcval
    · refine ⟨champion (prioIn (bumpList (updProc s.procs c (fun q => { q with prio := q.prio_orig })) (h0 :: tl))) h0 tl, ?_, ?_⟩
      · rw [hpa]
      · have hsame : champion (prioIn (bumpList (updProc s.procs c (fun q => { q with prio := q.prio_orig })) (h0 :: tl))) h0 (h0 :: tl)
            = champion (prioIn (bumpList (updProc s.procs c (fun q => { q with prio := q.prio_orig })) (h0 :: tl))) h0 tl := by
          show champion _ (if prioIn (bumpList (updProc s.procs c (fun q => { q with prio := q.prio_orig })) (h0 :: tl)) h0 <
              prioIn (bumpList (updProc s.procs c (fun q => { q with prio := q.prio_orig })) (h0 :: tl)) h0 then h0 else h0) tl = _
          rw [ite_self]
        have hmax := champion_head_isFirstMax
          (prioIn (bumpList (updProc s.procs c (fun q => { q with prio := q.prio_orig })) (h0 :: tl))) h0 tl
        rw [hsame] at hmax
        obtain ⟨l1, l2, hdec, hle, hstrict⟩ := hmax
        rw [hpa]
        exact hle c hcfull
/-- Witness for C10 on `paDemo`: the requeued pid 0 ends the call at
priority 3 (baseline 2 plus the aging increment), and the elected pid 1
carries post-scan priority 5 ≥ 3. -/
theorem c10_pa_requeued_current_aged_witness :
    0 ∈ (pa_requeue paDemo).readyqueue ∧ prioOf (pa_schedule paDemo).2 0 = 3 := by
  have h := c10_pa_requeued_current_aged paDemo 0 ⟨0, .running, 1, 5, 7, 2⟩ rfl rfl
    (by decide) (by decide) (by decide) (by decide)
  exact ⟨h.1, h.2.1⟩

/-- Updating a pid other than the one read leaves its priority alone. -/
theorem prioIn_updProc_ne (procs : List Process) (c x : Nat) (f : Process → Process)
    (hf : ∀ p, (f p).pid = p.pid) (hxc : x ≠ c) :
    prioIn (updProc procs c f) x = prioIn procs x := by
  unfold prioIn
  rw [getProc_updProc_ne procs c x f hf hxc]

/-- An update that does not touch the `prio` field leaves the read
priority alone. -/
theorem prioIn_updProc_keep (procs : List Process) (c : Nat) (f : Process → Process)
    (hf : ∀ p, (f p).pid = p.pid) (hfp : ∀ p, (f p).prio = p.prio) :
    prioIn (updProc procs c f) c = prioIn procs c := by
  unfold prioIn
  rw [getProc_updProc_self procs c f hf]
  cases getProc procs c with
  | none => rfl
  | some q => exact hfp q

/-- Overwriting `prio` with a constant on an existing record reads back
that constant. -/
theorem prioIn_updProc_const (procs : List Process) (o v : Nat)
    (ho2 : (getProc procs o).isSome = true) :
    prioIn (updProc procs o (fun q => { q with prio := v })) o = v := by
  unfold prioIn
  rw [getProc_updProc_self procs o (fun q => { q with prio := v }) (fun _ => rfl)]
  obtain ⟨q, hq⟩ := Option.isSome_iff_exists.mp ho2
  rw [hq]
  rfl

/-- Claim C3: PIP acquire on a free resource hands ownership to the
requester with success and changes no priority; on an occupied resource it
overwrites the owner's priority with the requester's (single-level: every
process other than the owner keeps its priority) and blocks the requester
at the FIFO tail of the wait queue; PIP release, called by the owner,
restores the owner's priority to its baseline `prio_orig` (never an
intermediate value) and wakes the first-encountered highest-priority
waiter. -/
theorem c3_pip_inherit_and_restore (s : SimState) (rid c : Nat) (p : Process) (r : Resource)
    (hc : s.current = some c) (hp : getProc s.procs c = some p)
    (hr : s.resources.get? rid = some r) :
    (r.owner = none →
      pip_acquire rid s = (true, { s with resources := s.resources.set rid { r with owner := some c } }) ∧
      (∀ x, prioOf (pip_acquire rid s).2 x = prioOf s x)) ∧
    (∀ o, r.owner = some o → o ≠ c → (getProc s.procs o).isSome = true →
      (pip_acquire rid s).1 = false ∧
      prioOf (pip_acquire rid s).2 o = prioOf s c ∧
      (∀ x, x ≠ o → prioOf (pip_acquire rid s).2 x = prioOf s x) ∧
      statusOf (pip_acquire rid s).2 c = some .wait ∧
      (pip_acquire rid s).2.resources.get? rid = some { r with waitqueue := r.waitqueue ++ [c] }) ∧
    (r.owner = some c → c ∉ r.waitqueue →
      prioOf (pip_release rid s) c = p.prio_orig ∧
      (r.waitqueue = [] →
        (pip_release rid s).resources.get? rid = some { r with owner := none }) ∧
      (∀ hd tl, r.waitqueue = hd :: tl →
        ∃ w, w ∈ r.waitqueue ∧
          IsFirstMax (prioIn (updProc s.procs c (fun q => { q with prio := p.prio_orig }))) r.waitqueue w ∧
          ((getProc s.procs w).isSome = true → statusOf (pip_release rid s) w = some .ready) ∧
          (pip_release rid s).readyqueue = s.readyqueue ++ [w] ∧
          (pip_release rid s).resources.get? rid = some { owner := none, waitqueue := r.waitqueue.erase w })) := by
  refine ⟨?_, ?_, ?_⟩
  · intro ho
    have he : pip_acquire rid s = (true, { s with resources := s.resources.set rid { r with owner := some c } }) := by
      unfold pip_acquire
      rw [hc, hr]
      simp only []
      rw [ho]
    exact ⟨he, fun x => by rw [he]; rfl⟩
  · intro o ho hoc ho2
    have he : pip_acquire rid s = (false, { s with procs := updProc (updProc s.procs o (fun q => { q with prio := prioIn s.procs c })) c (fun q => { q with status := .wait }), resources := s.resources.set rid { r with waitqueue := r.waitqueue ++ [c] } }) := by
      unfold pip_acquire
      rw [hc, hr]
      simp only []
      rw [ho]
    refine ⟨by rw [he], ?_, ?_, ?_, ?_⟩
    · rw [he]
      show prioIn (updProc (updProc s.procs o (fun q => { q with prio := prioIn s.procs c })) c (fun q => { q with status := .wait })) o = prioIn s.procs c
      rw [prioIn_updProc_ne (updProc s.procs o (fun q => { q with prio := prioIn s.procs c })) c o (fun q => { q with status := .wait }) (fun _ => rfl) hoc]
      exact prioIn_updProc_const s.procs o (prioIn s.procs c) ho2
    · intro x hxo
      rw [he]
      show prioIn (updProc (updProc s.procs o (fun q => { q with prio := prioIn s.procs c })) c (fun q => { q with status := .wait })) x = prioIn s.procs x
      by_cases hxc : x = c
      · subst hxc
        rw [prioIn_updProc_keep (updProc s.procs o (fun q => { q with prio := prioIn s.procs x })) x (fun q => { q with status := .wait }) (fun _ => rfl) (fun _ => rfl)]
        exact prioIn_updProc_ne s.procs o x (fun q => { q with prio := prioIn s.procs x }) (fun _ => rfl) hxo
      · rw [prioIn_updProc_ne (updProc s.procs o (fun q => { q with prio := prioIn s.procs c })) c x (fun q => { q with status := .wait }) (fun _ => rfl) hxc]
        exact prioIn_updProc_ne s.procs o x (fun q => { q with prio := prioIn s.procs c }) (fun _ => rfl) hxo
    · rw [he]
      show ((getProc (updProc (updProc s.procs o (fun q => { q with prio := prioIn s.procs c })) c (fun q => { q with status := .wait })) c).map (fun q => q.status)) = some PStatus.wait
      rw [getProc_updProc_self (updProc s.procs o (fun q => { q with prio := prioIn s.procs c })) c (fun q => { q with status := .wait }) (fun _ => rfl)]
      rw [getProc_updProc_ne s.procs o c (fun q => { q with prio := prioIn s.procs c }) (fun _ => rfl) (fun h => hoc h.symm)]
      rw [hp]
      rfl
    · rw [he]
      show (s.resources.set rid { r with waitqueue := r.waitqueue ++ [c] }).get? rid = _
      exact get?_set_self s.resources rid r _ hr
  · intro ho hcw
    cases hwq : r.waitqueue with
    | nil =>
      have he : pip_release rid s = { s with procs := updProc s.procs c (fun q => { q with prio := p.prio_orig }), resources := s.resources.set rid { r with owner := none } } := by
        unfold pip_release
        rw [hc, hr]
        simp only []
        rw [ho]
        simp only []
        rw [hp]
        simp only []
        rw [hwq]
      refine ⟨?_, ?_, ?_⟩
      · rw [he]
        show prioIn (updProc s.procs c (fun q => { q with prio := p.prio_orig })) c = p.prio_orig
        exact prioIn_updProc_const s.procs c p.prio_orig (by rw [hp]; rfl)
      · intro _
        rw [he, hwq]
        exact get?_set_self s.resources rid r _ hr
      · intro hd tl hcontr
        exact absurd hcontr (by simp)
    | cons hd tl =>
      have he : pip_release rid s = { s with procs := updProc (updProc s.procs c (fun q => { q with prio := p.prio_orig })) (champion (prioIn (updProc s.procs c (fun q => { q with prio := p.prio_orig }))) hd (hd :: tl)) (fun q => { q with status := .ready }), readyqueue := s.readyqueue ++ [champion (prioIn (updProc s.procs c (fun q => { q with prio := p.prio_orig }))) hd (hd :: tl)], resources := s.resources.set rid { owner := none, waitqueue := (hd :: tl).erase (champion (prioIn (updProc s.procs c (fun q => { q with prio := p.prio_orig }))) hd (hd :: tl)) } } := by
        unfold pip_release
        rw [hc, hr]
        simp only []
        rw [ho]
        simp only []
        rw [hp]
        simp only []
        rw [hwq]
      have hwmem : champion (prioIn (updProc s.procs c (fun q => { q with prio := p.prio_orig }))) hd (hd :: tl) ∈ hd :: tl := by
        have h1 := champion_mem (prioIn (updProc s.procs c (fun q => { q with prio := p.prio_orig }))) hd (hd :: tl)
        rcases List.mem_cons.mp h1 with h2 | h2
        · rw [h2]
          exact List.mem_cons_self hd tl
        · exact h2
      have hwc : champion (prioIn (updProc s.procs c (fun q => { q with prio := p.prio_orig }))) hd (hd :: tl) ≠ c := by
        intro h
        rw [hwq] at hcw
        exact hcw (h ▸ hwmem)
      refine ⟨?_, ?_, ?_⟩
      · rw [he]
        show prioIn (updProc (updProc s.procs c (fun q => { q with prio := p.prio_orig })) (champion (prioIn (updProc s.procs c (fun q => { q with prio := p.prio_orig }))) hd (hd :: tl)) (fun q => { q with status := .ready })) c = p.prio_orig
        rw [prioIn_updProc_ne (updProc s.procs c (fun q => { q with prio := p.prio_orig })) (champion (prioIn (updProc s.procs c (fun q => { q with prio := p.prio_orig }))) hd (hd :: tl)) c (fun q => { q with status := .ready }) (fun _ => rfl) (fun h => hwc h.symm)]
        exact prioIn_updProc_const s.procs c p.prio_orig (by rw [hp]; rfl)
      · intro hcontr
        exact absurd hcontr (by simp)
      · intro hd1 tl1 hwq1
        injection hwq1 with h1 h2
        subst h1
        subst h2
        refine ⟨champion (prioIn (updProc s.procs c (fun q => { q with prio := p.prio_orig }))) hd (hd :: tl), ?_, ?_, ?_, ?_, ?_⟩
        · exact hwmem
        · exact champion_head_isFirstMax (prioIn (updProc s.procs c (fun q => { q with prio := p.prio_orig }))) hd tl
        · intro hwex
          rw [he]
          show ((getProc (updProc (updProc s.procs c (fun q => { q with prio := p.prio_orig })) (champion (prioIn (updProc s.procs c (fun q => { q with prio := p.prio_orig }))) hd (hd :: tl)) (fun q => { q with status := .ready })) (champion (prioIn (updProc s.procs c (fun q => { q with prio := p.prio_orig }))) hd (hd :: tl))).map (fun q => q.status)) = some PStatus.ready
          rw [getProc_updProc_self (updProc s.procs c (fun q => { q with prio := p.prio_orig })) (champion (prioIn (updProc s.procs c (fun q => { q with prio := p.prio_orig }))) hd (hd :: tl)) (fun q => { q with status := .ready }) (fun _ => rfl)]
          rw [getProc_updProc_ne s.procs c (champion (prioIn (updProc s.procs c (fun q => { q with prio := p.prio_orig }))) hd (hd :: tl)) (fun q => { q with prio := p.prio_orig }) (fun _ => rfl) hwc]
          obtain ⟨q, hq⟩ := Option.isSome_iff_exists.mp hwex
          rw [hq]
          rfl
        · rw [he]
        · rw [he]
          show (s.resources.set rid { owner := none, waitqueue := (hd :: tl).erase (champion (prioIn (updProc s.procs c (fun q => { q with prio := p.prio_orig }))) hd (hd :: tl)) }).get? rid = _
          exact get?_set_self s.resources rid r _ hr

/-- Witness for C3: acquiring occupied resource 0 in `c3acq` boosts owner
pid 0 to requester pid 1's priority 8 and blocks pid 1; releasing resource
0 in `c3state` drops owner pid 0 from 9 back to baseline 2 and wakes
waiter pid 2, whose priority 7 beats pid 1's 4. -/
theorem c3_pip_inherit_and_restore_witness :
    prioOf (pip_acquire 0 c3acq).2 0 = 8 ∧ statusOf (pip_acquire 0 c3acq).2 1 = some .wait ∧
    prioOf (pip_release 0 c3state) 0 = 2 ∧ (pip_release 0 c3state).readyqueue = [2] := by
  have ha := c3_pip_inherit_and_restore c3acq 0 1 ⟨1, .running, 0, 5, 8, 8⟩ ⟨some 0, []⟩ rfl rfl rfl
  have ha2 := ha.2.1 0 rfl (by decide) (by decide)
  have hrel := c3_pip_inherit_and_restore c3state 0 0 ⟨0, .running, 0, 5, 9, 2⟩ ⟨some 0, [1, 2]⟩ rfl rfl rfl
  have hr3 := hrel.2.2 rfl (by decide)
  exact ⟨ha2.2.1.trans (by decide), ha2.2.2.2.1, hr3.1, by decide⟩

/-! ## PCP ceiling invariant under the single-resource discipline (C4) -/

/-- Looking a pid up after appending one record finds either the old
record or the new one. -/
theorem getProc_append_one (procs : List Process) (p : Process) (x : Nat) (q : Process)
    (h : getProc (procs ++ [p]) x = some q) :
    getProc procs x = some q ∨ (q = p ∧ p.pid = x) := by
  induction procs with
  | nil =>
    simp only [List.nil_append, getProc] at h
    by_cases hp : p.pid = x
    · rw [if_pos hp] at h
      exact Or.inr ⟨(Option.some.inj h).symm, hp⟩
    · rw [if_neg hp] at h
      cases h
  | cons a as ih =>
    simp only [List.cons_append, getProc] at h
    simp only [getProc]
    by_cases ha : a.pid = x
    · rw [if_pos ha] at h
      rw [if_pos ha]
      exact Or.inl h
    · rw [if_neg ha] at h
      rw [if_neg ha]
      exact ih h

/-- A record found after the driver destroys pid `c` was already found
before the destruction. -/
theorem getProc_removeProc (procs : List Process) (c x : Nat) (q : Process)
    (h : getProc (procs.filter (fun p => p.pid ≠ c)) x = some q) :
    getProc procs x = some q := by
  induction procs with
  | nil => exact h
  | cons a as ih =>
    rw [List.filter_cons] at h
    simp only [getProc]
    by_cases hac : a.pid = c
    · rw [if_neg (by simp [hac])] at h
      by_cases hax : a.pid = x
      · exfalso
        obtain ⟨hqmem, hqpid⟩ := getProc_mem h
        have hqc := List.of_mem_filter hqmem
        simp only [decide_eq_true_eq] at hqc
        exact hqc (by rw [hqpid, ← hax]; exact hac)
      · rw [if_neg hax]
        exact ih h
    · rw [if_pos (by simp [hac])] at h
      simp only [getProc] at h
      by_cases hax : a.pid = x
      · rw [if_pos hax] at h
        rw [if_pos hax]
        exact h
      · rw [if_neg hax] at h
        rw [if_neg hax]
        exact ih h

/-- A pid update that does not touch `prio` preserves every looked-up
priority value. -/
theorem prio_pres_updProc (procs : List Process) (c : Nat) (f : Process → Process)
    (hf : ∀ p, (f p).pid = p.pid) (hfp : ∀ p, (f p).prio = p.prio)
    (x : Nat) (q : Process) (h : getProc (updProc procs c f) x = some q) :
    ∃ q0, getProc procs x = some q0 ∧ q.prio = q0.prio := by
  rw [getProc_updProc procs c x f hf] at h
  by_cases hxc : x = c
  · rw [if_pos hxc] at h
    cases hq0 : getProc procs x with
    | none =>
      rw [hq0] at h
      cases h
    | some q0 =>
      rw [hq0, Option.map_some'] at h
      refine ⟨q0, rfl, ?_⟩
      rw [← Option.some.inj h, hfp]
  · rw [if_neg hxc] at h
    exact ⟨q, h, rfl⟩

/-- `requeueCurrent` only touches the ready queue. -/
theorem requeueCurrent_frame (s : SimState) :
    (requeueCurrent s).procs = s.procs ∧ (requeueCurrent s).resources = s.resources := by
  unfold requeueCurrent
  cases hc : s.current with
  | none => exact ⟨rfl, rfl⟩
  | some c =>
    simp only []
    cases hp : getProc s.procs c with
    | none => exact ⟨rfl, rfl⟩
    | some p =>
      simp only []
      by_cases hk : p.status ≠ .wait ∧ p.age < p.lifespan
      · rw [if_pos hk]
        exact ⟨rfl, rfl⟩
      · rw [if_neg hk]
        exact ⟨rfl, rfl⟩

/-- `prio_schedule` only touches the ready queue. -/
theorem prio_schedule_frame (s : SimState) :
    (prio_schedule s).2.procs = s.procs ∧ (prio_schedule s).2.resources = s.resources := by
  have h1 := requeueCurrent_frame s
  unfold prio_schedule
  simp only []
  cases hq : (requeueCurrent s).readyqueue with
  | nil => exact ⟨h1.1, h1.2⟩
  | cons hd tl => exact ⟨h1.1, h1.2⟩

/-- `handleOld` never touches the resources. -/
theorem handleOld_res (next oldCur : Option Nat) (s1 : SimState) :
    (handleOld next oldCur s1).resources = s1.resources := by
  unfold handleOld
  cases oldCur with
  | none => rfl
  | some c =>
    simp only []
    cases getProc s1.procs c with
    | none => rfl
    | some p =>
      simp only []
      by_cases h1 : p.status = .running
      · rw [if_pos h1]
        by_cases h2 : next = some c
        · rw [if_pos h2]
        · rw [if_neg h2]
          by_cases h3 : p.age < p.lifespan
          · rw [if_pos h3]
            rfl
          · rw [if_neg h3]
            rfl
      · rw [if_neg h1]

/-- `handleOld` preserves the priority of every surviving record. -/
theorem handleOld_prio_transfer (next oldCur : Option Nat) (s1 : SimState) (x : Nat) (q : Process)
    (h : getProc (handleOld next oldCur s1).procs x = some q) :
    ∃ q0, getProc s1.procs x = some q0 ∧ q.prio = q0.prio := by
  unfold handleOld at h
  cases oldCur with
  | none => exact ⟨q, h, rfl⟩
  | some c =>
    simp only [] at h
    cases hp : getProc s1.procs c with
    | none =>
      rw [hp] at h
      exact ⟨q, h, rfl⟩
    | some p =>
      rw [hp] at h
      simp only [] at h
      by_cases h1 : p.status = .running
      · rw [if_pos h1] at h
        by_cases h2 : next = some c
        · rw [if_pos h2] at h
          exact ⟨q, h, rfl⟩
        · rw [if_neg h2] at h
          by_cases h3 : p.age < p.lifespan
          · rw [if_pos h3] at h
            exact prio_pres_updProc s1.procs c (fun r => { r with status := .ready }) (fun _ => rfl) (fun _ => rfl) x q h
          · rw [if_neg h3] at h
            exact ⟨q, getProc_removeProc s1.procs c x q h, rfl⟩
      · rw [if_neg h1] at h
        exact ⟨q, h, rfl⟩

/-- `setCurrent` never touches the resources. -/
theorem setCurrent_res (next : Option Nat) (s : SimState) :
    (setCurrent next s).resources = s.resources := by
  unfold setCurrent
  cases next with
  | none => rfl
  | some n => rfl

/-- `setCurrent` preserves the priority of every record. -/
theorem setCurrent_prio_transfer (next : Option Nat) (s : SimState) (x : Nat) (q : Process)
    (h : getProc (setCurrent next s).procs x = some q) :
    ∃ q0, getProc s.procs x = some q0 ∧ q.prio = q0.prio := by
  unfold setCurrent at h
  cases next with
  | none => exact ⟨q, h, rfl⟩
  | some n =>
    exact prio_pres_updProc s.procs n (fun r => { r with status := .running }) (fun _ => rfl) (fun _ => rfl) x q h

/-- A `schedule()` driver call under the Priority policy never touches the
resources. -/
theorem driverSchedule_prio_res (s : SimState) :
    (driverSchedule prio_schedule s).resources = s.resources := by
  unfold driverSchedule
  simp only []
  rw [setCurrent_res, handleOld_res]
  exact (prio_schedule_frame s).2

/-- A `schedule()` driver call under the Priority policy preserves the
priority of every surviving record. -/
theorem driverSchedule_prio_transfer (s : SimState) (x : Nat) (q : Process)
    (h : getProc (driverSchedule prio_schedule s).procs x = some q) :
    ∃ q0, getProc s.procs x = some q0 ∧ q.prio = q0.prio := by
  unfold driverSchedule at h
  simp only [] at h
  obtain ⟨q1, h1, e1⟩ := setCurrent_prio_transfer _ _ x q h
  obtain ⟨q2, h2, e2⟩ := handleOld_prio_transfer _ _ _ x q1 h1
  rw [(prio_schedule_frame s).1] at h2
  exact ⟨q2, h2, e1.trans e2⟩

/-- A tick never touches the resources. -/
theorem driverTick_res (s : SimState) : (driverTick s).resources = s.resources := by
  unfold driverTick
  cases s.current with
  | none => rfl
  | some c => rfl

/-- A tick preserves the priority of every record. -/
theorem driverTick_prio_transfer (s : SimState) (x : Nat) (q : Process)
    (h : getProc (driverTick s).procs x = some q) :
    ∃ q0, getProc s.procs x = some q0 ∧ q.prio = q0.prio := by
  unfold driverTick at h
  cases hc : s.current with
  | none =>
    rw [hc] at h
    exact ⟨q, h, rfl⟩
  | some c =>
    rw [hc] at h
    exact prio_pres_updProc s.procs c (fun r => { r with age := r.age + 1 }) (fun _ => rfl) (fun _ => rfl) x q h

/-- `pcp_acquire` by a caller holding nothing preserves the ceiling
invariant. -/
theorem invPCP_pcp_acquire (maxPrio : Nat) (s : SimState) (rid c : Nat) (p : Process)
    (hinv : InvPCP maxPrio s) (hc : s.current = some c) (hp : getProc s.procs c = some p)
    (hnone : ∀ r ∈ s.resources, r.owner ≠ some c) :
    InvPCP maxPrio (pcp_acquire maxPrio rid s).2 := by
  cases hr : s.resources.get? rid with
  | none =>
    have he : (pcp_acquire maxPrio rid s).2 = s := by
      unfold pcp_acquire
      rw [hc, hr]
    rw [he]
    exact hinv
  | some r =>
    by_cases ho : r.owner = none
    · have he : (pcp_acquire maxPrio rid s).2 = { s with procs := updProc s.procs c (fun q => { q with prio := maxPrio }), resources := s.resources.set rid { r with owner := some c } } := by
        unfold pcp_acquire
        rw [hc, hr]
        simp only []
        rw [if_pos ho]
      rw [he]
      constructor
      · intro rid1 rid2 r1 r2 o h1 h2 ho1 ho2
        by_cases e1 : rid1 = rid
        · subst e1
          by_cases e2 : rid2 = rid1
          · rw [e2]
          · exfalso
            have hr1 : r1 = { r with owner := some c } :=
              Option.some.inj (h1.symm.trans (get?_set_self s.resources rid1 r _ hr))
            have hoc : o = c := by
              rw [hr1] at ho1
              exact (Option.some.inj ho1).symm
            subst hoc
            rw [get?_set_ne _ _ _ _ e2] at h2
            exact hnone r2 (List.get?_mem h2) ho2
        · by_cases e2 : rid2 = rid
          · subst e2
            exfalso
            have hr2 : r2 = { r with owner := some c } :=
              Option.some.inj (h2.symm.trans (get?_set_self s.resources rid2 r _ hr))
            have hoc : o = c := by
              rw [hr2] at ho2
              exact (Option.some.inj ho2).symm
            subst hoc
            rw [get?_set_ne _ _ _ _ e1] at h1
            exact hnone r1 (List.get?_mem h1) ho1
          · rw [get?_set_ne _ _ _ _ e1] at h1
            rw [get?_set_ne _ _ _ _ e2] at h2
            exact hinv.1 rid1 rid2 r1 r2 o h1 h2 ho1 ho2
      · intro rid2 r2 o q h1 ho1 hq
        by_cases e1 : rid2 = rid
        · subst e1
          have hr1 : r2 = { r with owner := some c } :=
            Option.some.inj (h1.symm.trans (get?_set_self s.resources rid2 r _ hr))
          have hoc : o = c := by
            rw [hr1] at ho1
            exact (Option.some.inj ho1).symm
          subst hoc
          rw [getProc_updProc_self s.procs o (fun q => { q with prio := maxPrio }) (fun _ => rfl), hp, Option.map_some'] at hq
          rw [← Option.some.inj hq]
        · rw [get?_set_ne _ _ _ _ e1] at h1
          by_cases hoc : o = c
          · exfalso
            subst hoc
            exact hnone r2 (List.get?_mem h1) ho1
          · rw [getProc_updProc_ne s.procs c o (fun q => { q with prio := maxPrio }) (fun _ => rfl) hoc] at hq
            exact hinv.2 rid2 r2 o q h1 ho1 hq
    · have he : (pcp_acquire maxPrio rid s).2 = { s with procs := updProc s.procs c (fun q => { q with status := .wait }), resources := s.resources.set rid { r with waitqueue := r.waitqueue ++ [c] } } := by
        unfold pcp_acquire
        rw [hc, hr]
        simp only []
        rw [if_neg ho]
      rw [he]
      constructor
      · intro rid1 rid2 r1 r2 o h1 h2 ho1 ho2
        by_cases e1 : rid1 = rid
        · subst e1
          have hr1 : r1 = { r with waitqueue := r.waitqueue ++ [c] } :=
            Option.some.inj (h1.symm.trans (get?_set_self s.resources rid1 r _ hr))
          rw [hr1] at ho1
          by_cases e2 : rid2 = rid1
          · rw [e2]
          · rw [get?_set_ne _ _ _ _ e2] at h2
            exact hinv.1 rid1 rid2 r r2 o hr h2 ho1 ho2
        · by_cases e2 : rid2 = rid
          · subst e2
            have hr2 : r2 = { r with waitqueue := r.waitqueue ++ [c] } :=
              Option.some.inj (h2.symm.trans (get?_set_self s.resources rid2 r _ hr))
            rw [hr2] at ho2
            rw [get?_set_ne _ _ _ _ e1] at h1
            exact hinv.1 rid1 rid2 r1 r o h1 hr ho1 ho2
          · rw [get?_set_ne _ _ _ _ e1] at h1
            rw [get?_set_ne _ _ _ _ e2] at h2
            exact hinv.1 rid1 rid2 r1 r2 o h1 h2 ho1 ho2
      · intro rid2 r2 o q h1 ho1 hq
        obtain ⟨q0, hq0, heq⟩ := prio_pres_updProc s.procs c (fun q => { q with status := .wait }) (fun _ => rfl) (fun _ => rfl) o q hq
        rw [heq]
        by_cases e1 : rid2 = rid
        · subst e1
          have hr1 : r2 = { r with waitqueue := r.waitqueue ++ [c] } :=
            Option.some.inj (h1.symm.trans (get?_set_self s.resources rid2 r _ hr))
          rw [hr1] at ho1
          exact hinv.2 rid2 r o q0 hr ho1 hq0
        · rw [get?_set_ne _ _ _ _ e1] at h1
          exact hinv.2 rid2 r2 o q0 h1 ho1 hq0

/-- `pcp_release` of the sole held resource preserves the ceiling
invariant. -/
theorem invPCP_pcp_release (maxPrio : Nat) (s : SimState) (rid c : Nat) (p : Process) (r : Resource)
    (hinv : InvPCP maxPrio s) (hc : s.current = some c) (hp : getProc s.procs c = some p)
    (hr : s.resources.get? rid = some r) (hro : r.owner = some c) :
    InvPCP maxPrio (pcp_release rid s) := by
  cases hwq : r.waitqueue with
  | nil =>
    have he : pcp_release rid s = { s with procs := updProc s.procs c (fun q => { q with prio := q.prio_orig }), resources := s.resources.set rid { r with owner := none } } := by
      unfold pcp_release
      rw [hc, hr]
      simp only []
      rw [hwq]
    rw [he]
    constructor
    · intro rid1 rid2 r1 r2 o h1 h2 ho1 ho2
      by_cases e1 : rid1 = rid
      · subst e1
        exfalso
        have hr1 : r1 = { r with owner := none } :=
          Option.some.inj (h1.symm.trans (get?_set_self s.resources rid1 r _ hr))
        rw [hr1] at ho1
        cases ho1
      · by_cases e2 : rid2 = rid
        · subst e2
          exfalso
          have hr2 : r2 = { r with owner := none } :=
            Option.some.inj (h2.symm.trans (get?_set_self s.resources rid2 r _ hr))
          rw [hr2] at ho2
          cases ho2
        · rw [get?_set_ne _ _ _ _ e1] at h1
          rw [get?_set_ne _ _ _ _ e2] at h2
          exact hinv.1 rid1 rid2 r1 r2 o h1 h2 ho1 ho2
    · intro rid2 r2 o q h1 ho1 hq
      by_cases e1 : rid2 = rid
      · subst e1
        exfalso
        have hr1 : r2 = { r with owner := none } :=
          Option.some.inj (h1.symm.trans (get?_set_self s.resources rid2 r _ hr))
        rw [hr1] at ho1
        cases ho1
      · rw [get?_set_ne _ _ _ _ e1] at h1
        have hoc : o ≠ c := by
          intro he2
          subst he2
          exact e1 (hinv.1 rid2 rid r2 r o h1 hr ho1 hro)
        rw [getProc_updProc_ne s.procs c o (fun q => { q with prio := q.prio_orig }) (fun _ => rfl) hoc] at hq
        exact hinv.2 rid2 r2 o q h1 ho1 hq
  | cons w rest =>
    have he : pcp_release rid s = { s with procs := updProc (updProc s.procs c (fun q => { q with prio := q.prio_orig })) w (fun q => { q with status := .ready }), readyqueue := s.readyqueue ++ [w], resources := s.resources.set rid { owner := none, waitqueue := rest } } := by
      unfold pcp_release
      rw [hc, hr]
      simp only []
      rw [hwq]
    rw [he]
    constructor
    · intro rid1 rid2 r1 r2 o h1 h2 ho1 ho2
      by_cases e1 : rid1 = rid
      · subst e1
        exfalso
        have hr1 : r1 = { owner := none, waitqueue := rest } :=
          Option.some.inj (h1.symm.trans (get?_set_self s.resources rid1 r _ hr))
        rw [hr1] at ho1
        cases ho1
      · by_cases e2 : rid2 = rid
        · subst e2
          exfalso
          have hr2 : r2 = { owner := none, waitqueue := rest } :=
            Option.some.inj (h2.symm.trans (get?_set_self s.resources rid2 r _ hr))
          rw [hr2] at ho2
          cases ho2
        · rw [get?_set_ne _ _ _ _ e1] at h1
          rw [get?_set_ne _ _ _ _ e2] at h2
          exact hinv.1 rid1 rid2 r1 r2 o h1 h2 ho1 ho2
    · intro rid2 r2 o q h1 ho1 hq
      by_cases e1 : rid2 = rid
      · subst e1
        exfalso
        have hr1 : r2 = { owner := none, waitqueue := rest } :=
          Option.some.inj (h1.symm.trans (get?_set_self s.resources rid2 r _ hr))
        rw [hr1] at ho1
        cases ho1
      · rw [get?_set_ne _ _ _ _ e1] at h1
        have hoc : o ≠ c := by
          intro he2
          subst he2
          exact e1 (hinv.1 rid2 rid r2 r o h1 hr ho1 hro)
        obtain ⟨q1, hq1, heq⟩ := prio_pres_updProc (updProc s.procs c (fun q => { q with prio := q.prio_orig })) w (fun q => { q with status := .ready }) (fun _ => rfl) (fun _ => rfl) o q hq
        rw [getProc_updProc_ne s.procs c o (fun q => { q with prio := q.prio_orig }) (fun _ => rfl) hoc] at hq1
        rw [heq]
        exact hinv.2 rid2 r2 o q1 h1 ho1 hq1

/-- Every single-resource-discipline transition preserves the PCP ceiling
invariant. -/
theorem invPCP_step (maxPrio : Nat) {s s' : SimState} (hinv : InvPCP maxPrio s)
    (hst : StepOne (pcp_scheduler maxPrio) s s') : InvPCP maxPrio s' := by
  cases hst with
  | spawn p h1 h2 h3 h4 h5 =>
    constructor
    · exact hinv.1
    · intro rid r o q hr ho hq
      rcases getProc_append_one s.procs p o q hq with h | ⟨hqp, hpid⟩
      · exact hinv.2 rid r o q hr ho h
      · exfalso
        exact h4 r (List.get?_mem hr) (by rw [hpid]; exact ho)
  | tick c p h1 h2 h3 h4 =>
    constructor
    · intro rid1 rid2 r1 r2 o hh1 hh2 ho1 ho2
      rw [driverTick_res] at hh1 hh2
      exact hinv.1 rid1 rid2 r1 r2 o hh1 hh2 ho1 ho2
    · intro rid r o q hr ho hq
      rw [driverTick_res] at hr
      obtain ⟨q0, hq0, heq⟩ := driverTick_prio_transfer s o q hq
      rw [heq]
      exact hinv.2 rid r o q0 hr ho hq0
  | acquire rid c p h1 h2 h3 h4 h5 =>
    exact invPCP_pcp_acquire maxPrio s rid c p hinv h2 h3 h5
  | release rid c p r h1 h2 h3 h4 h5 =>
    exact invPCP_pcp_release maxPrio s rid c p r hinv h1 h2 h4 h5
  | schedule =>
    constructor
    · intro rid1 rid2 r1 r2 o hh1 hh2 ho1 ho2
      rw [show (driverSchedule (pcp_scheduler maxPrio).schedule s).resources = s.resources from driverSchedule_prio_res s] at hh1 hh2
      exact hinv.1 rid1 rid2 r1 r2 o hh1 hh2 ho1 ho2
    · intro rid r o q hr ho hq
      rw [show (driverSchedule (pcp_scheduler maxPrio).schedule s).resources = s.resources from driverSchedule_prio_res s] at hr
      obtain ⟨q0, hq0, heq⟩ := driverSchedule_prio_transfer s o q hq
      rw [heq]
      exact hinv.2 rid r o q0 hr ho hq0

/-- The PCP ceiling invariant holds in every state reachable under the
single-resource discipline. -/
theorem invPCP_reach (maxPrio nr : Nat) {s : SimState}
    (h : ReachOne (pcp_scheduler maxPrio) nr s) : InvPCP maxPrio s := by
  induction h with
  | init =>
    constructor
    · intro rid1 rid2 r1 r2 o h1 h2 ho1 ho2
      exfalso
      have hr1 : r1 = { owner := none, waitqueue := [] } :=
        List.eq_of_mem_replicate (List.get?_mem h1)
      rw [hr1] at ho1
      cases ho1
    · intro rid r o q h1 ho hq
      exfalso
      have hr1 : r = { owner := none, waitqueue := [] } :=
        List.eq_of_mem_replicate (List.get?_mem h1)
      rw [hr1] at ho
      cases ho
  | step _ hst ih => exact invPCP_step maxPrio ih hst

/-- Claim C4 as stated is refuted by nested holds: in a reachable PCP
state (ceiling `MAX_PRIO = 10`) the process pid 0 still holds resource 0,
yet its priority is back at its baseline 1, not the ceiling — releasing
the second resource reset the priority while the first was still held. -/
theorem c4_counterexample_pcp_nested_hold :
    Reach (pcp_scheduler 10) 2 c4bug ∧
    ∃ r q, c4bug.resources.get? 0 = some r ∧ r.owner = some 0 ∧
      getProc c4bug.procs 0 = some q ∧ q.prio ≠ 10 ∧ q.prio = q.prio_orig := by
  constructor
  · have h0 : Reach (pcp_scheduler 10) 2 (initState 2) := Reach.init
    have h1 := Reach.step h0 (Step.spawn (initState 2) ⟨0, .ready, 0, 5, 1, 1⟩ rfl (by decide) (by decide) (by decide) (by decide))
    have h2 := Reach.step h1 (Step.schedule _)
    have h3 := Reach.step h2 (Step.acquire _ 0 0 ⟨0, .running, 0, 5, 1, 1⟩ (by decide) (by decide) (by decide) (by decide))
    have h4 := Reach.step h3 (Step.acquire _ 1 0 ⟨0, .running, 0, 5, 10, 1⟩ (by decide) (by decide) (by decide) (by decide))
    have h5 := Reach.step h4 (Step.release _ 1 0 ⟨0, .running, 0, 5, 10, 1⟩ ⟨some 0, []⟩ (by decide) (by decide) (by decide) (by decide) (by decide))
    exact h5
  · exact ⟨⟨some 0, []⟩, ⟨0, .running, 0, 5, 1, 1⟩, by decide, rfl, by decide, by decide, by decide⟩

/-- Claim C4 (amended): under the single-resource discipline — a process
never calls acquire while already holding a resource — every live holder
in a reachable PCP state carries exactly the ceiling priority, set at its
successful acquire; and a `pcp_release` call always reverts the caller's
priority to exactly its original baseline `prio_orig`, never to an
intermediate value. -/
theorem c4_pcp_ceiling_single_hold (maxPrio nr : Nat) (s : SimState)
    (h : ReachOne (pcp_scheduler maxPrio) nr s) :
    (∀ rid r o q, s.resources.get? rid = some r → r.owner = some o →
        getProc s.procs o = some q → q.prio = maxPrio) ∧
    (∀ rid c p r, s.current = some c → getProc s.procs c = some p →
        s.resources.get? rid = some r → prioOf (pcp_release rid s) c = p.prio_orig) := by
  refine ⟨(invPCP_reach maxPrio nr h).2, ?_⟩
  intro rid c p r hc hp hr
  have hbase : prioIn (updProc s.procs c (fun q => { q with prio := q.prio_orig })) c = p.prio_orig := by
    unfold prioIn
    rw [getProc_updProc_self s.procs c (fun q => { q with prio := q.prio_orig }) (fun _ => rfl), hp]
    rfl
  cases hwq : r.waitqueue with
  | nil =>
    have he : pcp_release rid s = { s with procs := updProc s.procs c (fun q => { q with prio := q.prio_orig }), resources := s.resources.set rid { r with owner := none } } := by
      unfold pcp_release
      rw [hc, hr]
      simp only []
      rw [hwq]
    rw [he]
    exact hbase
  | cons w rest =>
    have he : pcp_release rid s = { s with procs := updProc (updProc s.procs c (fun q => { q with prio := q.prio_orig })) w (fun q => { q with status := .ready }), readyqueue := s.readyqueue ++ [w], resources := s.resources.set rid { owner := none, waitqueue := rest } } := by
      unfold pcp_release
      rw [hc, hr]
      simp only []
      rw [hwq]
    rw [he]
    show prioIn (updProc (updProc s.procs c (fun q => { q with prio := q.prio_orig })) w (fun q => { q with status := .ready })) c = p.prio_orig
    by_cases hwc : c = w
    · subst hwc
      rw [prioIn_updProc_keep (updProc s.procs c (fun q => { q with prio := q.prio_orig })) c (fun q => { q with status := .ready }) (fun _ => rfl) (fun _ => rfl)]
      exact hbase
    · rw [prioIn_updProc_ne (updProc s.procs c (fun q => { q with prio := q.prio_orig })) w c (fun q => { q with status := .ready }) (fun _ => rfl) hwc]
      exact hbase

/-- Witness for the amended C4 on the concrete chain `c4wit`: after pid 0
acquires resource 0, its record carries exactly the ceiling priority 10. -/
theorem c4_pcp_ceiling_single_hold_witness :
    ∃ q, getProc c4wit.procs 0 = some q ∧ q.prio = 10 := by
  have hreach : ReachOne (pcp_scheduler 10) 1 c4wit := by
    have h0 : ReachOne (pcp_scheduler 10) 1 (initState 1) := ReachOne.init
    have h1 := ReachOne.step h0 (StepOne.spawn (initState 1) ⟨0, .ready, 0, 5, 1, 1⟩ rfl (by decide) (by decide) (by decide) (by decide))
    have h2 := ReachOne.step h1 (StepOne.schedule _)
    have h3 := ReachOne.step h2 (StepOne.acquire _ 0 0 ⟨0, .running, 0, 5, 1, 1⟩ (by decide) (by decide) (by decide) (by decide) (by decide))
    exact h3
  have h := (c4_pcp_ceiling_single_hold 10 1 c4wit hreach).1 0 ⟨some 0, []⟩ 0 ⟨0, .running, 0, 5, 10, 1⟩ (by decide) (by decide) (by decide)
  exact ⟨⟨0, .running, 0, 5, 10, 1⟩, by decide, h⟩

end PA2
